import Mathlib

/-!
Verification of the documentation-translation pipeline in
`scripts/translate_docs.py`.

Text is modelled as `List Char` (named `Txt`).  Python string primitives
used by the script are modelled explicitly:

* `replaceAll` models `str.replace` (all occurrences, scanned left to
  right, non-overlapping); patterns used by the script are never empty,
  and the model keeps the string unchanged for an empty pattern.
* `pyStrip` models `str.strip()` for ASCII whitespace.
* `splitChar` models `str.split(sep)` for a one-character separator.
* `findSub` models `str.find(sub, start)`.

Recursive scanners that consume more than one element per step take an
explicit fuel argument (always instantiated with the input length) so
that every definition is executable by the kernel.
-/

namespace TranslateDocs

abbrev Txt := List Char

def lit (s : String) : Txt := s.data

/-- The backtick character (written via its code point). -/
def btick : Char := Char.ofNat 96

def isSpace (c : Char) : Bool :=
  c = ' ' || c = '\t' || c = '\n' || c = '\r' || c = '\x0b' || c = '\x0c'

/-- Python `str.strip()`. -/
def pyStrip (s : Txt) : Txt :=
  ((s.dropWhile isSpace).reverse.dropWhile isSpace).reverse

/-- Python `str.lstrip("\n")`: drop leading newline characters. -/
def lstripNl (s : Txt) : Txt := s.dropWhile (fun c => c = '\n')

/-- Python `str.split(sep)` for a single-character separator. -/
def splitChar (sep : Char) : Txt → List Txt
  | [] => [[]]
  | c :: s =>
    if c = sep then [] :: splitChar sep s
    else
      match splitChar sep s with
      | [] => [[c]]
      | t :: ts => (c :: t) :: ts

/-- Scanner underlying `findSub`; returns the least index `≥ i` at which
`needle` occurs in the remaining suffix. -/
def findSubAux (needle : Txt) : Txt → Nat → Option Nat
  | [], i => if needle <+: ([] : Txt) then some i else none
  | c :: s', i =>
    if needle <+: (c :: s') then some i
    else findSubAux needle s' (i + 1)

/-- Python `str.find(sub, start)` (result `none` models `-1`). -/
def findSub (needle hay : Txt) (start : Nat) : Option Nat :=
  findSubAux needle (hay.drop start) start

/-- Fuel-driven worker for `replaceAll`. -/
def replaceAllF : Nat → Txt → Txt → Txt → Txt
  | 0, _, _, s => s
  | _ + 1, _, _, [] => []
  | fuel + 1, p, r, c :: s =>
    if p ≠ [] ∧ p <+: (c :: s) then
      r ++ replaceAllF fuel p r ((c :: s).drop p.length)
    else
      c :: replaceAllF fuel p r s

/-- Python `str.replace(p, r)`: replace every occurrence of `p` by `r`,
scanning left to right, non-overlapping.  (The script never calls
`replace` with an empty pattern; for `p = []` this model is the
identity.) -/
def replaceAll (p r s : Txt) : Txt := replaceAllF s.length p r s

/-!
### `protect_terms` / `restore_terms` (translate_docs.py lines 446-532)
-/

/-- The literal terms the script never translates (`PROTECTED_TERMS`). -/
def PROTECTED_TERMS : List Txt :=
  [lit "Angry Data Scanner", lit "Angry Data Core", lit "AngryScan",
   lit "angryscan.org", lit "packetdima", lit "datascanner"]

def termPH (i : Nat) : Txt := lit "__PROTECTED_TERM_" ++ lit (toString i) ++ lit "__"

def cssPH (i : Nat) : Txt := lit "__PROTECTED_CSS_" ++ lit (toString i) ++ lit "__"

def patPH (i : Nat) : Txt := lit "__PROTECTED_PATTERN_" ++ lit (toString i) ++ lit "__"

def exColPH (i : Nat) : Txt :=
  lit "__PROTECTED_EXCLUDE_COL_" ++ lit (toString i) ++ lit "__"

/-- `get_exclusion_config()['css_classes']`: `load_translation_exclusions`
returns `{}`, so the list is empty. -/
def cssClasses : List Txt := []

/-- `get_exclusion_config()['text_patterns']`: empty for the same reason. -/
def textPatterns : List Txt := []

def excludeColMark : Txt := lit "__EXCLUDE_COL_"

/-- Scan for the closing marker of the non-greedy group `(.*?)` in the
pattern `__EXCLUDE_COL_(\d+)__(.*?)__EXCLUDE_COL_\1__`: return the
shortest newline-free content followed by `closing`, with the rest. -/
def scanClose (closing : Txt) : Txt → Option (Txt × Txt)
  | [] => if closing <+: ([] : Txt) then some ([], []) else none
  | c :: s' =>
    if closing <+: (c :: s') then some ([], (c :: s').drop closing.length)
    else if c = '\n' then none
    else
      match scanClose closing s' with
      | none => none
      | some pr => some (c :: pr.1, pr.2)

/-- Try to match `__EXCLUDE_COL_(\d+)__(.*?)__EXCLUDE_COL_\1__` at the
start of `s`; on success return (whole match, content group, rest). -/
def parseExCol (s : Txt) : Option (Txt × Txt × Txt) :=
  if excludeColMark <+: s then
    let afterMark := s.drop excludeColMark.length
    let ds := afterMark.takeWhile Char.isDigit
    if ds = [] then none
    else
      let afterDs := afterMark.drop ds.length
      if lit "__" <+: afterDs then
        let closing := excludeColMark ++ ds ++ lit "__"
        match scanClose closing (afterDs.drop 2) with
        | none => none
        | some (content, rest) =>
          some (excludeColMark ++ ds ++ lit "__" ++ content ++ closing, content, rest)
      else none
  else none

/-- Fuel-driven scanner replacing each `__EXCLUDE_COL_…__` match with a
numbered `__PROTECTED_EXCLUDE_COL_j__` placeholder (matches are found
left to right and numbered in match order, exactly as the reversed-span
replacement loop in `protect_terms` produces). -/
def exProtectF : Nat → Nat → Txt → Txt × List (Txt × Txt)
  | 0, _, s => (s, [])
  | fuel + 1, j, s =>
    match parseExCol s with
    | some (span, _, rest) =>
      let ph := exColPH j
      let pr := exProtectF fuel (j + 1) rest
      (ph ++ pr.1, (ph, span) :: pr.2)
    | none =>
      match s with
      | [] => ([], [])
      | c :: s' =>
        let pr := exProtectF fuel j s'
        (c :: pr.1, pr.2)

def exProtect (s : Txt) : Txt × List (Txt × Txt) := exProtectF s.length 0 s

/-- `re.sub` of `__EXCLUDE_COL_(\d+)__(.*?)__EXCLUDE_COL_\1__` by the
content group: `restore_table_line`. -/
def exSubF : Nat → Txt → Txt
  | 0, s => s
  | fuel + 1, s =>
    match parseExCol s with
    | some (_, content, rest) => content ++ exSubF fuel rest
    | none =>
      match s with
      | [] => []
      | c :: s' => c :: exSubF fuel s'

/-- `restore_table_line` (lines 711-725). -/
def restore_table_line (s : Txt) : Txt := exSubF s.length s

/-- The list of `__EXCLUDE_COL_…__` matches (whole match, content) found
left to right, as `re.finditer` produces them. -/
def exMatchesF : Nat → Txt → List (Txt × Txt)
  | 0, _ => []
  | fuel + 1, s =>
    match parseExCol s with
    | some (span, content, rest) => (span, content) :: exMatchesF fuel rest
    | none =>
      match s with
      | [] => []
      | _ :: s' => exMatchesF fuel s'

def exMatches (s : Txt) : List (Txt × Txt) := exMatchesF s.length s

/-- Scan up to the next occurrence of character `t`; return the content
before it and the rest after it. -/
def scanTo (t : Char) : Txt → Option (Txt × Txt)
  | [] => none
  | c :: s' =>
    if c = t then some ([], s')
    else
      match scanTo t s' with
      | none => none
      | some pr => some (c :: pr.1, pr.2)

/-- Contents of the matches of the regex pair-of-backticks pattern, found
left to right, non-overlapping. -/
def btMatchesF : Nat → Txt → List Txt
  | 0, _ => []
  | fuel + 1, s =>
    match s with
    | [] => []
    | c :: s' =>
      if c = btick then
        match scanTo btick s' with
        | some (content, rest) => content :: btMatchesF fuel rest
        | none => []
      else btMatchesF fuel s'

def btMatches (s : Txt) : List Txt := btMatchesF s.length s

/-- `protect_backticks` (lines 446-463): for each backtick-delimited
match (enumerated over the original text) with non-blank content,
replace every occurrence of the backticked string by a numbered
placeholder and record the mapping. -/
def protect_backticks (text : Txt) : Txt × List (Txt × Txt) :=
  (btMatches text).enum.foldl
    (fun acc im =>
      if pyStrip im.2 ≠ [] then
        let whole := btick :: im.2 ++ [btick]
        let ph := lit "__PROTECTED_BACKTICK_" ++ lit (toString im.1) ++ lit "__"
        (replaceAll whole ph acc.1, acc.2 ++ [(ph, whole)])
      else acc)
    (text, [])

/-- The shared shape of the three "replace each listed literal present in
the text by its numbered placeholder" loops in `protect_terms`. -/
def protectSubstAux (phOf : Nat → Txt) : List Txt → Nat → Txt → Txt × List (Txt × Txt)
  | [], _, s => (s, [])
  | t :: ts, i, s =>
    if t <:+: s then
      let pr := protectSubstAux phOf ts (i + 1) (replaceAll t (phOf i) s)
      (pr.1, (phOf i, t) :: pr.2)
    else
      protectSubstAux phOf ts (i + 1) s

/-- `protect_terms` (lines 466-521): protect excluded-column spans, then
backticked spans, then the literal protected terms, then the (empty)
configured CSS-class and text-pattern lists.  The mapping collects all
placeholder/original pairs (its order only feeds the sort in
`restore_terms`; keys are distinct). -/
def protect_terms (text : Txt) : Txt × List (Txt × Txt) :=
  let p1 := exProtect text
  let p2 := protect_backticks p1.1
  let p3 := protectSubstAux termPH PROTECTED_TERMS 0 p2.1
  let p4 := protectSubstAux cssPH cssClasses 0 p3.1
  let p5 := protectSubstAux patPH textPatterns 0 p4.1
  (p5.1, p1.2 ++ p2.2 ++ p3.2 ++ p4.2 ++ p5.2)

/-- Lexicographic (code-point) comparison of texts, as Python compares
strings. -/
def lexLt : Txt → Txt → Bool
  | [], [] => false
  | [], _ :: _ => true
  | _ :: _, [] => false
  | a :: as, b :: bs => if a < b then true else if b < a then false else lexLt as bs

def insertDesc (x : Txt × Txt) : List (Txt × Txt) → List (Txt × Txt)
  | [] => [x]
  | y :: ys => if lexLt x.1 y.1 then y :: insertDesc x ys else x :: y :: ys

/-- `sorted(items, key=lambda x: x[0], reverse=True)` (stable insertion
sort into descending key order). -/
def sortDesc : List (Txt × Txt) → List (Txt × Txt)
  | [] => []
  | x :: xs => insertDesc x (sortDesc xs)

/-- `restore_terms` (lines 524-532): replace each placeholder by its
original text, in descending placeholder-name order. -/
def restore_terms (text : Txt) (mapping : List (Txt × Txt)) : Txt :=
  (sortDesc mapping).foldl (fun acc pr => replaceAll pr.1 pr.2 acc) text

/-!
### `split_front_matter` (lines 234-240)
-/

/-- `split_front_matter`: if the content starts with the line `---`, look
for the next occurrence of `"\n---"` from index 4 on; on success the
front matter runs through that occurrence inclusive and the body is the
remainder with leading newlines stripped. -/
def split_front_matter (content : Txt) : Option Txt × Txt :=
  if lit "---\n" <+: content then
    match findSub (lit "\n---") content 4 with
    | some e => (some (content.take (e + 4)), lstripNl (content.drop (e + 4)))
    | none => (none, content)
  else (none, content)

/-!
### Table detection and processing (lines 535-574, 672-725)
-/

/-- `is_table_line` (lines 535-539). -/
def is_table_line (line : Txt) : Bool :=
  let s := pyStrip line
  decide (lit "|" <+: s) && decide (lit "|" <:+ s) && (s.drop 1).dropLast.contains '|'

/-- `parse_table_line` (lines 542-551): split on `|`, strip each part,
drop an empty leading part and an empty trailing part. -/
def parse_table_line (line : Txt) : List Txt :=
  let parts0 := (splitChar '|' line).map pyStrip
  let parts1 :=
    match parts0 with
    | [] :: rest => rest
    | l => l
  match parts1.getLast? with
  | some [] => parts1.dropLast
  | _ => parts1

/-- Fuel-driven scanner behind `find_table_ranges`. -/
def ftrAux : Nat → List Txt → Nat → List (Nat × Nat)
  | 0, _, _ => []
  | _ + 1, [], _ => []
  | fuel + 1, l :: ls, i =>
    if is_table_line l then
      let run := 1 + (ls.takeWhile is_table_line).length
      let rest := ls.drop (ls.takeWhile is_table_line).length
      if 2 ≤ run then (i, i + run) :: ftrAux fuel rest (i + run)
      else ftrAux fuel rest (i + run)
    else ftrAux fuel ls (i + 1)

/-- `find_table_ranges` (lines 554-574): maximal runs of table lines of
length at least 2, as half-open index ranges. -/
def find_table_ranges (lines : List Txt) : List (Nat × Nat) :=
  ftrAux lines.length lines 0

/-- `process_table_line` (lines 672-708): wrap each excluded column (by
1-based index) in a numbered `__EXCLUDE_COL_i__…__EXCLUDE_COL_i__` pair
and re-join the columns.  (The `exclude_header`/`is_header_row`
arguments of the source function do not affect its result.) -/
def process_table_line (line : Txt) (exclude_columns : List Nat) : Txt :=
  if exclude_columns = [] then line
  else
    let columns := parse_table_line line
    if columns = [] then line
    else
      let processed := columns.enum.map (fun ic =>
        let colIndex := ic.1 + 1
        if colIndex ∈ exclude_columns then
          excludeColMark ++ lit (toString colIndex) ++ lit "__" ++ ic.2 ++
            excludeColMark ++ lit (toString colIndex) ++ lit "__"
        else ic.2)
      lit "| " ++ List.intercalate (lit " | ") processed ++ lit " |"

/-!
### Heading numbering (lines 577-605)
-/

/-- State-passing worker for `find_headers_with_numbers`: walks the lines
carrying the current h1 ordinal and the h2 ordinal under it, building the
h1 table `{ordinal ↦ (index, text)}` and the nested h2 table
`{h1 ordinal ↦ {h2 ordinal ↦ (index, text)}}` (both as association lists
in insertion order). -/
def fhwnAux : List Txt → Nat → Nat → Nat →
    List (Nat × Nat × Txt) → List (Nat × List (Nat × Nat × Txt)) →
    List (Nat × Nat × Txt) × List (Nat × List (Nat × Nat × Txt))
  | [], _, _, _, h1acc, h2acc => (h1acc, h2acc)
  | l :: ls, i, h1n, h2c, h1acc, h2acc =>
    if lit "# " <+: pyStrip l then
      fhwnAux ls (i + 1) (h1n + 1) 0 (h1acc ++ [(h1n + 1, i, pyStrip l)]) h2acc
    else if lit "## " <+: pyStrip l then
      if 0 < h1n then
        fhwnAux ls (i + 1) h1n (h2c + 1) h1acc
          (match h2acc.getLast? with
           | some kv =>
             if kv.1 = h1n then
               h2acc.dropLast ++ [(kv.1, kv.2 ++ [(h2c + 1, i, pyStrip l)])]
             else h2acc ++ [(h1n, [(h2c + 1, i, pyStrip l)])]
           | none => h2acc ++ [(h1n, [(h2c + 1, i, pyStrip l)])])
      else fhwnAux ls (i + 1) h1n h2c h1acc h2acc
    else fhwnAux ls (i + 1) h1n h2c h1acc h2acc

/-- `find_headers_with_numbers` (lines 577-605). -/
def find_headers_with_numbers (lines : List Txt) :
    List (Nat × Nat × Txt) × List (Nat × List (Nat × Nat × Txt)) :=
  fhwnAux lines 0 0 0 [] []

/-!
### Header configuration and manual-heading substitution
(translate_blocks, lines 773-818)
-/

/-- One entry of the per-file header configuration (a YAML dict; absent
keys are `none`, and a `translations: null` entry behaves like `{}`, so
it is modelled as an association list). -/
structure HeaderCfg where
  level : Option Nat
  text : Option Txt
  number : Option Nat
  parentH1Number : Option Nat
  translations : List (Txt × Txt)
  deriving DecidableEq

/-- `translations.get(language)`. -/
def tGet (m : List (Txt × Txt)) (k : Txt) : Option Txt :=
  (m.find? (fun p => decide (p.1 = k))).map (fun p => p.2)

/-- Python truthiness of an optional string (`None` and `""` are falsy). -/
def truthyOpt : Option Txt → Bool
  | some t => t ≠ []
  | none => false

/-- The h1 manual-translation lookup loop (lines 780-792): scan configs in
list order, remembering the translation of the last matching entry and
stopping at the first truthy one. -/
def lookupH1Aux (lang htext : Txt) (hnum : Nat) :
    List HeaderCfg → Option Txt → Option Txt
  | [], acc => acc
  | c :: cs, acc =>
    if c.level = some 1 then
      if c.text = some htext then
        let m := tGet c.translations lang
        if truthyOpt m then m else lookupH1Aux lang htext hnum cs m
      else if c.number = some hnum then
        let m := tGet c.translations lang
        if truthyOpt m then m else lookupH1Aux lang htext hnum cs m
      else lookupH1Aux lang htext hnum cs acc
    else lookupH1Aux lang htext hnum cs acc

def lookupH1 (cfgs : List HeaderCfg) (lang htext : Txt) (hnum : Nat) : Option Txt :=
  lookupH1Aux lang htext hnum cfgs none

/-- The h2 manual-translation lookup loop (lines 800-815). -/
def lookupH2Aux (lang htext : Txt) (h1num h2num : Nat) :
    List HeaderCfg → Option Txt → Option Txt
  | [], acc => acc
  | c :: cs, acc =>
    if c.level = some 2 then
      if c.text = some htext then
        let m := tGet c.translations lang
        if truthyOpt m then m else lookupH2Aux lang htext h1num h2num cs m
      else if c.parentH1Number = some h1num ∧ c.number = some h2num then
        let m := tGet c.translations lang
        if truthyOpt m then m else lookupH2Aux lang htext h1num h2num cs m
      else lookupH2Aux lang htext h1num h2num cs acc
    else lookupH2Aux lang htext h1num h2num cs acc

def lookupH2 (cfgs : List HeaderCfg) (lang htext : Txt) (h1num h2num : Nat) : Option Txt :=
  lookupH2Aux lang htext h1num h2num cfgs none

/-- h1 substitution pass (lines 777-795): for each numbered h1 heading,
replace its line by the manual translation when the lookup is truthy. -/
def applyH1 (cfgs : List HeaderCfg) (lang : Txt)
    (h1acc : List (Nat × Nat × Txt)) (lines : List Txt) : List Txt :=
  h1acc.foldl (fun pl e =>
    match lookupH1 cfgs lang e.2.2 e.1 with
    | some mt => if mt ≠ [] then pl.set e.2.1 mt else pl
    | none => pl) lines

/-- h2 substitution pass (lines 797-818). -/
def applyH2 (cfgs : List HeaderCfg) (lang : Txt)
    (h2acc : List (Nat × List (Nat × Nat × Txt))) (lines : List Txt) : List Txt :=
  h2acc.foldl (fun pl kv =>
    kv.2.foldl (fun pl' e =>
      match lookupH2 cfgs lang e.2.2 kv.1 e.1 with
      | some mt => if mt ≠ [] then pl'.set e.2.1 mt else pl'
      | none => pl') pl) lines

/-- The manual-header-substitution stage of `translate_blocks`. -/
def processHeaders (cfgs : List HeaderCfg) (lang : Txt) (lines : List Txt) : List Txt :=
  let fh := find_headers_with_numbers lines
  applyH2 cfgs lang fh.2 (applyH1 cfgs lang fh.1 lines)

/-!
### Table configuration and the table-exclusion stage
(translate_blocks, lines 741-877)
-/

/-- One entry of the per-file table configuration. -/
structure TableCfg where
  matchByHeader : Option Txt
  tableNumber : Option Nat
  excludeTable : Bool
  excludeColumns : List Nat
  excludeHeader : Bool
  deriving DecidableEq

/-- `get_table_config_by_header` (lines 608-613). -/
def get_table_config_by_header (cfgs : List TableCfg) (h : Txt) : Option TableCfg :=
  cfgs.find? (fun c => decide (c.matchByHeader = some h))

/-- `get_table_config_by_number` (lines 616-621). -/
def get_table_config_by_number (cfgs : List TableCfg) (n : Nat) : Option TableCfg :=
  cfgs.find? (fun c => decide (c.tableNumber = some n))

/-- One step of the backward scan for the heading preceding a table
(lines 758-769): `###`/`##` headings are returned, an `#` heading stops
the scan with no result. -/
def hdrCheck (s : Txt) : Option (Option Txt) :=
  if lit "### " <+: s then some (some s)
  else if lit "## " <+: s then some (some s)
  else if lit "# " <+: s then some none
  else none

def precHeaderFrom (lines : List Txt) : Nat → Option Txt
  | 0 =>
    match hdrCheck (pyStrip (lines.getD 0 [])) with
    | some r => r
    | none => none
  | i + 1 =>
    match hdrCheck (pyStrip (lines.getD (i + 1) [])) with
    | some r => r
    | none => precHeaderFrom lines i

/-- The heading preceding line `start`, scanning backwards. -/
def preceding_header (lines : List Txt) (start : Nat) : Option Txt :=
  match start with
  | 0 => none
  | st + 1 => precHeaderFrom lines st

/-- The separator test of line 850-851:
`'---' in line or all(c in '-:| ' for c in line.strip())`. -/
def sepCheck (l : Txt) : Bool :=
  decide (lit "---" <:+: l) ||
    (pyStrip l).all (fun c => c = '-' || c = ':' || c = '|' || c = ' ')

/-- Apply one resolved table configuration to the rows of its range
(lines 832-872). -/
def applyTableCfg (cfg : TableCfg) (start e : Nat) (pl : List Txt) : List Txt :=
  if cfg.excludeTable then
    (List.range (e - start)).foldl (fun acc k =>
      acc.set (start + k)
        (lit "__EXCLUDE_TABLE_LINE_" ++ lit (toString (start + k)) ++ lit "__")) pl
  else if cfg.excludeColumns ≠ [] then
    (List.range (e - start)).foldl (fun acc k =>
      let i := start + k
      let line := acc.getD i []
      if i = start + 1 ∧ sepCheck line then acc
      else if i = start then
        if cfg.excludeHeader then
          acc.set i (lit "__EXCLUDE_HEADER__" ++
            process_table_line line cfg.excludeColumns ++ lit "__EXCLUDE_HEADER__")
        else
          acc.set i (lit "__TRANSLATE_HEADER__" ++
            process_table_line line cfg.excludeColumns ++ lit "__TRANSLATE_HEADER__")
      else acc.set i (process_table_line line cfg.excludeColumns)) pl
  else pl

/-- Policy resolution for one table (lines 825-830): by preceding-heading
match first, then by 1-based table number. -/
def resolveTableCfg (tcfgs : List TableCfg) (lines0 : List Txt)
    (tnum start : Nat) : Option TableCfg :=
  match preceding_header lines0 start with
  | some h =>
    match get_table_config_by_header tcfgs h with
    | some c => some c
    | none => get_table_config_by_number tcfgs tnum
  | none => get_table_config_by_number tcfgs tnum

/-- The table-exclusion stage of `translate_blocks` (lines 824-872):
tables are numbered 1-based in document order. -/
def processTables (tcfgs : List TableCfg) (lines0 : List Txt) (pl : List Txt) : List Txt :=
  (find_table_ranges lines0).enum.foldl (fun acc nr =>
    match resolveTableCfg tcfgs lines0 (nr.1 + 1) nr.2.1 with
    | some c => applyTableCfg c nr.2.1 nr.2.2 acc
    | none => acc) pl

/-- The whole pure preprocessing stage of `translate_blocks` (manual
header substitution followed by table-exclusion marking). -/
def preprocessBlocks (tcfgs : List TableCfg) (hcfgs : List HeaderCfg)
    (lang : Txt) (lines : List Txt) : List Txt :=
  processTables tcfgs lines (processHeaders hcfgs lang lines)

/-!
### The per-line translation loop: table rows and batch flush
(translate_blocks, lines 884-912 and 1006-1124)
-/

/-- A translation provider: `none` models a raised exception or a `None`
response, both of which the script maps to the untranslated input. -/
def Translator := Txt → Option Txt

/-- `translator.translate` wrapped in the script's try/except plus
`None` check: on failure the protected text is used unchanged. -/
def trAttempt (tr : Translator) (s : Txt) : Txt := (tr s).getD s

/-- The table-line branch of the translation loop (lines 1009-1124),
applied to one processed row. -/
def tableLineStep (tr : Translator) (line : Txt) : Txt :=
  if lit "__EXCLUDE_HEADER__" <+: line ∧ lit "__EXCLUDE_HEADER__" <:+ line then
    restore_table_line (replaceAll (lit "__EXCLUDE_HEADER__") [] line)
  else
    let isTH := decide (lit "__TRANSLATE_HEADER__" <+: line) &&
      decide (lit "__TRANSLATE_HEADER__" <:+ line)
    let line1 := if isTH then replaceAll (lit "__TRANSLATE_HEADER__") [] line else line
    if excludeColMark <:+: line1 then
      let ms := exMatches line1
      let lwp := pyStrip (replaceAll (lit "|") []
        (ms.foldl (fun acc m => replaceAll m.1 [] acc) line1))
      if lwp = [] ∧ ms ≠ [] then
        if isTH then
          let p := protect_terms line1
          restore_table_line (restore_terms (trAttempt tr p.1) p.2)
        else restore_table_line line1
      else
        let p := protect_terms line1
        restore_table_line (restore_terms (trAttempt tr p.1) p.2)
    else
      let p := protect_terms line1
      restore_terms (trAttempt tr p.1) p.2

/-- Python `str.splitlines()` for newline-separated text. -/
def splitLinesPy (s : Txt) : List Txt :=
  let l := splitChar '\n' s
  match l.getLast? with
  | some [] => l.dropLast
  | _ => l

/-- The `flush` closure of `translate_blocks` (lines 884-912): join the
buffered lines, protect, translate (falling back to the protected text on
exception or `None`), restore, and split back into lines.  An empty
buffer contributes nothing. -/
def flushChunk (tr : Translator) (buffer : List Txt) : List Txt :=
  if buffer = [] then []
  else
    let chunk := List.intercalate (lit "\n") buffer
    let p := protect_terms chunk
    splitLinesPy (restore_terms (trAttempt tr p.1) p.2)

/-!
### `build_translation_path` (lines 1424-1448)

Paths are modelled as lists of components; `DOCS_ROOT` is the one-component
root the script resolves against.
-/

def docsRoot : List Txt := [lit "docs"]

/-- The translation suffix `f".{locale}.md"` (`TRANSLATION_SUFFIXES`). -/
def suffixFor (l : Txt) : Txt := '.' :: (l ++ lit ".md")

/-- `suffix.split('.')[1] if '.' in suffix else suffix`. -/
def langCodeOf (sfx : Txt) : Txt :=
  if '.' ∈ sfx then (splitChar '.' sfx).getD 1 [] else sfx

/-- `Path.stem`: the final component without its last extension. -/
def stemOf (n : Txt) : Txt :=
  let parts := splitChar '.' n
  if parts.length ≤ 1 then n
  else List.intercalate ['.'] parts.dropLast

/-- `build_translation_path`: re-root the path relative to the docs root
under a directory named by the language code; fall back to a suffixed
file name when the path is not under the docs root. -/
def build_translation_path (p : List Txt) (sfx : Txt) : List Txt :=
  let lc := langCodeOf sfx
  if docsRoot <+: p then docsRoot ++ lc :: p.drop docsRoot.length
  else p.dropLast ++ [stemOf (p.getLastD []) ++ sfx]

/-!
### Specification-side helpers used in theorem statements
-/

/-- A level-1 heading (`stripped.startswith('# ')`). -/
def isH1L (l : Txt) : Bool := decide (lit "# " <+: pyStrip l)

/-- A level-2 heading (`stripped.startswith('## ')`). -/
def isH2L (l : Txt) : Bool := decide (lit "## " <+: pyStrip l)

/-- Number of level-1 headings among the first `m` lines. -/
def h1CountThrough (lines : List Txt) (m : Nat) : Nat :=
  (lines.take m).countP (fun l => isH1L l)

/-- Number of level-2 headings among the first `i` lines whose section
(the count of level-1 headings before them) is `k`. -/
def h2SectionCount (lines : List Txt) (i k : Nat) : Nat :=
  (List.range i).countP
    (fun j => isH2L (lines.getD j []) && decide (h1CountThrough lines j = k))

/-- What claim C7 asserts about a level-1 entry `(n, i, t)` of
`find_headers_with_numbers`: `n` is the 1-based rank of line `i` among
level-1 headings in document order. -/
def H1spec (lines : List Txt) (n i : Nat) (t : Txt) : Prop :=
  i < lines.length ∧ isH1L (lines.getD i []) = true ∧
    t = pyStrip (lines.getD i []) ∧ n = h1CountThrough lines (i + 1)

/-- What claim C7 asserts about a level-2 entry `(m, i, t)` filed under
section `k`: `k` is the rank of the nearest preceding level-1 heading and
`m` is the 1-based ordinal of line `i` among the level-2 headings of that
section (the counter resets at every level-1 heading). -/
def H2spec (lines : List Txt) (k m i : Nat) (t : Txt) : Prop :=
  i < lines.length ∧ isH2L (lines.getD i []) = true ∧
    t = pyStrip (lines.getD i []) ∧ 0 < k ∧ k = h1CountThrough lines i ∧
    m = h2SectionCount lines (i + 1) k

/-- An h1 configuration entry matches a heading when its level is 1 and
either its literal text matches or (failing a text match) its ordinal
matches — the per-entry test the loop of lines 780-792 performs. -/
def h1CfgMatch (c : HeaderCfg) (htext : Txt) (hnum : Nat) : Bool :=
  decide (c.level = some 1) &&
    (decide (c.text = some htext) ||
      (!decide (c.text = some htext) && decide (c.number = some hnum)))

/-- Whether one configuration entry matches a level-2 heading: its level
is 2, and either its literal text matches or (failing a text match) both
its parent-h1 ordinal and its own ordinal match — the per-entry test the
loop of lines 800-815 performs. -/
def h2CfgMatch (c : HeaderCfg) (htext : Txt) (h1num h2num : Nat) : Bool :=
  decide (c.level = some 2) &&
    (decide (c.text = some htext) ||
      (!decide (c.text = some htext) &&
        decide (c.parentH1Number = some h1num ∧ c.number = some h2num)))

/-- Cleanliness of a text for the placeholder machinery: no underscore
and no backtick character. -/
def cleanTxt (s : Txt) : Prop := '_' ∉ s ∧ btick ∉ s

/-- Interleavings of underscore-free characters and whole
`__PROTECTED_TERM_j__` placeholder blocks with `j < m`: the shape of the
working text inside the protected-term substitution loop after the terms
of index `< m` have been processed. -/
inductive Inter : Nat → Txt → Prop
  | nil (m : Nat) : Inter m []
  | chr {m : Nat} (c : Char) {s : Txt} (hc : c ≠ '_') (h : Inter m s) :
      Inter m (c :: s)
  | blk {m : Nat} (j : Nat) {s : Txt} (hj : j < m) (h : Inter m s) :
      Inter m (termPH j ++ s)

/-!
## Theorems

Basic lemmas for `replaceAll`.
-/

theorem replaceAllF_nil (f : Nat) (p r : Txt) : replaceAllF f p r [] = [] := by
  cases f <;> rfl

theorem replaceAllF_fuel (p r : Txt) :
    ∀ f g s, s.length ≤ f → s.length ≤ g → replaceAllF f p r s = replaceAllF g p r s := by
  intro f
  induction f with
  | zero =>
    intro g s hf _
    have : s = [] := List.length_eq_zero.mp (Nat.le_zero.mp hf)
    subst this
    simp [replaceAllF_nil]
  | succ f ih =>
    intro g s hf hg
    cases s with
    | nil => simp [replaceAllF_nil]
    | cons c s' =>
      cases g with
      | zero => exact absurd hg (by simp)
      | succ g' =>
        show replaceAllF (f + 1) p r (c :: s') = replaceAllF (g' + 1) p r (c :: s')
        by_cases h : p ≠ [] ∧ p <+: (c :: s')
        · have hp : p ≠ [] := h.1
          have hlen : ((c :: s').drop p.length).length ≤ f := by
            have hpl : 1 ≤ p.length := by
              cases p with
              | nil => exact absurd rfl hp
              | cons _ _ => simp
            have : ((c :: s').drop p.length).length = (c :: s').length - p.length :=
              List.length_drop _ _
            omega
          have hlen' : ((c :: s').drop p.length).length ≤ g' := by
            have hpl : 1 ≤ p.length := by
              cases p with
              | nil => exact absurd rfl hp
              | cons _ _ => simp
            have : ((c :: s').drop p.length).length = (c :: s').length - p.length :=
              List.length_drop _ _
            omega
          simp only [replaceAllF, if_pos h]
          rw [ih _ _ hlen hlen']
        · have hs' : s'.length ≤ f := by
            have : (c :: s').length = s'.length + 1 := rfl
            omega
          have hs'' : s'.length ≤ g' := by
            have : (c :: s').length = s'.length + 1 := rfl
            omega
          simp only [replaceAllF, if_neg h]
          rw [ih _ _ hs' hs'']

theorem replaceAll_nil (p r : Txt) : replaceAll p r [] = [] := rfl

theorem replaceAll_pos (p r s : Txt) (hp : p ≠ []) (h : p <+: s) :
    replaceAll p r s = r ++ replaceAll p r (s.drop p.length) := by
  cases s with
  | nil =>
    rcases h with ⟨t, ht⟩
    cases p with
    | nil => exact absurd rfl hp
    | cons _ _ => simp at ht
  | cons c s' =>
    show replaceAllF (s'.length + 1) p r (c :: s') = _
    simp only [replaceAllF, if_pos (And.intro hp h)]
    congr 1
    apply replaceAllF_fuel
    · have hpl : 1 ≤ p.length := by
        cases p with
        | nil => exact absurd rfl hp
        | cons _ _ => simp
      have : ((c :: s').drop p.length).length = (c :: s').length - p.length :=
        List.length_drop _ _
      simp only [List.length_cons] at this
      omega
    · exact Nat.le_refl _

theorem replaceAll_neg (p r : Txt) (c : Char) (s : Txt) (h : ¬ p <+: (c :: s)) :
    replaceAll p r (c :: s) = c :: replaceAll p r s := by
  show replaceAllF (s.length + 1) p r (c :: s) = _
  have h' : ¬ (p ≠ [] ∧ p <+: (c :: s)) := fun hc => h hc.2
  simp only [replaceAllF, if_neg h']
  rfl

theorem not_prefix_cons_of_head_ne {a c : Char} {p s : Txt} (h : a ≠ c) :
    ¬ (a :: p) <+: (c :: s) := by
  intro hpre
  rcases hpre with ⟨t, ht⟩
  simp at ht
  exact h ht.1

theorem replaceAll_skip (a : Char) (p' r : Txt) :
    ∀ u s : Txt, (∀ c ∈ u, c ≠ a) →
      replaceAll (a :: p') r (u ++ s) = u ++ replaceAll (a :: p') r s := by
  intro u
  induction u with
  | nil => intro s _; rfl
  | cons c u' ih =>
    intro s hu
    have hca : a ≠ c := fun h => (hu c (by simp)) h.symm
    have : replaceAll (a :: p') r (c :: (u' ++ s)) =
        c :: replaceAll (a :: p') r (u' ++ s) :=
      replaceAll_neg _ _ _ _ (not_prefix_cons_of_head_ne hca)
    simp only [List.cons_append, this, ih s (fun d hd => hu d (by simp [hd]))]

theorem replaceAll_of_all_ne (a : Char) (p' r : Txt) (s : Txt)
    (hs : ∀ c ∈ s, c ≠ a) : replaceAll (a :: p') r s = s := by
  have := replaceAll_skip a p' r s [] hs
  simpa [replaceAll_nil] using this

theorem replaceAll_of_not_infix (p r : Txt) :
    ∀ s : Txt, ¬ p <:+: s → replaceAll p r s = s := by
  intro s
  induction s with
  | nil => intro _; rfl
  | cons c s' ih =>
    intro h
    have hnp : ¬ p <+: (c :: s') := fun hp => h hp.isInfix
    rw [replaceAll_neg _ _ _ _ hnp, ih]
    intro hinf
    exact h (hinf.trans (List.suffix_cons c s').isInfix)

/-!
### `findSub` characterization and claim C3
-/

theorem findSubAux_found (needle : Txt) :
    ∀ d s i, needle <+: s.drop d → (∀ j, j < d → ¬ needle <+: s.drop j) →
      findSubAux needle s i = some (i + d) := by
  intro d
  induction d with
  | zero =>
    intro s i h _
    cases s with
    | nil =>
      have h' : needle <+: ([] : Txt) := by simpa using h
      simp only [findSubAux, if_pos h']
      simp
    | cons c s' =>
      have h' : needle <+: c :: s' := by simpa using h
      simp only [findSubAux, if_pos h']
      simp
  | succ d ih =>
    intro s i h hmin
    have h0 : ¬ needle <+: s := by simpa using hmin 0 (Nat.succ_pos d)
    cases s with
    | nil => exact absurd (by simpa using h) h0
    | cons c s' =>
      simp only [findSubAux, if_neg h0]
      have := ih s' (i + 1) (by simpa using h)
        (fun j hj => by simpa using hmin (j + 1) (Nat.succ_lt_succ hj))
      rw [this]
      congr 1
      omega

theorem findSubAux_not_found (needle : Txt) :
    ∀ s i, (∀ d, ¬ needle <+: s.drop d) → findSubAux needle s i = none := by
  intro s
  induction s with
  | nil =>
    intro i h
    simp only [findSubAux, if_neg (show ¬ needle <+: ([] : Txt) by simpa using h 0)]
  | cons c s' ih =>
    intro i h
    simp only [findSubAux, if_neg (show ¬ needle <+: c :: s' by simpa using h 0)]
    exact ih (i + 1) (fun d => by simpa using h (d + 1))

/-- C3 (counterexample): on `"---\n---\nbody"` the text begins with the
sentinel line, a second sentinel occurs (`"\n---"` occurs at index 3, and
line 1 is exactly `---`), yet `split_front_matter` returns no front
matter, because its scan for `"\n---"` starts only at index 4. -/
theorem C3_counterexample :
    (lit "---\n" <+: lit "---\n---\nbody") ∧
    (lit "\n---" <+: (lit "---\n---\nbody").drop 3) ∧
    (splitLinesPy (lit "---\n---\nbody")).getD 1 [] = lit "---" ∧
    split_front_matter (lit "---\n---\nbody") = (none, lit "---\n---\nbody") := by
  refine ⟨by decide, by decide, by decide, by decide⟩

/-- C3 (amended): the contract holds with "second sentinel occurrence"
read as the first occurrence of `"\n---"` starting at index ≥ 4 (so a
closing sentinel adjacent to the opening line, i.e. empty front matter,
is not recognized): if the text starts with `"---\n"` and `"\n---"`
first occurs at index `4 + e`, the front matter is the text through that
occurrence inclusive and the body is the remainder with leading newlines
stripped; otherwise the result is `(none, whole text)`. -/
theorem C3_front_matter_contract (content : Txt) :
    (¬ lit "---\n" <+: content → split_front_matter content = (none, content)) ∧
    (lit "---\n" <+: content →
      (∀ j : Nat, ¬ lit "\n---" <+: content.drop (4 + j)) →
      split_front_matter content = (none, content)) ∧
    (lit "---\n" <+: content → ∀ e : Nat, lit "\n---" <+: content.drop (4 + e) →
      (∀ j, j < e → ¬ lit "\n---" <+: content.drop (4 + j)) →
      split_front_matter content =
        (some (content.take (4 + e + 4)), lstripNl (content.drop (4 + e + 4)))) := by
  refine ⟨fun h => ?_, fun h hnone => ?_, fun h e hocc hmin => ?_⟩
  · simp only [split_front_matter, if_neg h]
  · have hfind : findSub (lit "\n---") content 4 = none := by
      unfold findSub
      apply findSubAux_not_found
      intro d
      rw [List.drop_drop]
      exact hnone d
    simp only [split_front_matter, if_pos h, hfind]
  · have hfind : findSub (lit "\n---") content 4 = some (4 + e) := by
      unfold findSub
      have := findSubAux_found (lit "\n---") e (content.drop 4) 4
        (by rw [List.drop_drop]; exact hocc)
        (fun j hj => by rw [List.drop_drop]; exact hmin j hj)
      rw [this]
    simp only [split_front_matter, if_pos h, hfind]

/-- Witness for `C3_front_matter_contract` at a concrete document. -/
theorem C3_witness :
    split_front_matter (lit "---\ntitle: x\n---\nbody") =
      (some (lit "---\ntitle: x\n---"), lit "body") := by
  have h := (C3_front_matter_contract (lit "---\ntitle: x\n---\nbody")).2.2
    (by decide) 8 (by decide) (by decide)
  rw [h]
  decide

/-!
### `find_table_ranges` and claim C4
-/

theorem takeWhile_getD_true (p : Txt → Bool) :
    ∀ (l : List Txt) (k : Nat), k < (l.takeWhile p).length → p (l.getD k []) = true := by
  intro l
  induction l with
  | nil => intro k hk; simp [List.takeWhile] at hk
  | cons x l' ih =>
    intro k hk
    by_cases hx : p x
    · rw [List.takeWhile_cons, if_pos hx] at hk
      cases k with
      | zero => simpa using hx
      | succ k' =>
        simp only [List.getD_cons_succ]
        exact ih k' (by simpa using Nat.lt_of_succ_lt_succ (by simpa using hk))
    · rw [List.takeWhile_cons, if_neg hx] at hk
      simp at hk

theorem getD_drop_txt (l : List Txt) (n m : Nat) :
    (l.drop n).getD m [] = l.getD (n + m) [] := by
  simp [List.getD_eq_getD_get?, List.get?_eq_getElem?, List.getElem?_drop]

theorem ftrAux_spec :
    ∀ (fuel : Nat) (suffix : List Txt) (i : Nat), suffix.length ≤ fuel →
      List.Pairwise (fun r1 r2 : Nat × Nat => r1.2 ≤ r2.1) (ftrAux fuel suffix i) ∧
      ∀ r ∈ ftrAux fuel suffix i,
        i ≤ r.1 ∧ r.1 + 2 ≤ r.2 ∧ r.2 ≤ i + suffix.length ∧
        ∀ j, r.1 ≤ j → j < r.2 → is_table_line (suffix.getD (j - i) []) = true := by
  intro fuel
  induction fuel with
  | zero =>
    intro suffix i h
    have : suffix = [] := List.length_eq_zero.mp (Nat.le_zero.mp h)
    subst this
    exact ⟨List.Pairwise.nil, by simp [ftrAux]⟩
  | succ fuel ih =>
    intro suffix i hlen
    cases suffix with
    | nil => exact ⟨List.Pairwise.nil, by simp [ftrAux]⟩
    | cons l ls =>
      have htw : (ls.takeWhile is_table_line).length ≤ ls.length :=
        (List.takeWhile_prefix _).length_le
      have hrest_len : (ls.drop (ls.takeWhile is_table_line).length).length ≤ fuel := by
        simp only [List.length_drop]
        simp only [List.length_cons] at hlen
        omega
      by_cases htab : is_table_line l
      · obtain ⟨IH1, IH2⟩ :=
          ih (ls.drop (ls.takeWhile is_table_line).length)
            (i + (1 + (ls.takeWhile is_table_line).length)) hrest_len
        by_cases hrun : 2 ≤ 1 + (ls.takeWhile is_table_line).length
        · have hres : ftrAux (fuel + 1) (l :: ls) i =
              (i, i + (1 + (ls.takeWhile is_table_line).length)) ::
                ftrAux fuel (ls.drop (ls.takeWhile is_table_line).length)
                  (i + (1 + (ls.takeWhile is_table_line).length)) := by
            simp only [ftrAux, if_pos htab, if_pos hrun]
          rw [hres]
          constructor
          · exact List.Pairwise.cons (fun r hr => (IH2 r hr).1) IH1
          · intro r hr
            rcases List.mem_cons.mp hr with hr | hr
            · subst hr
              refine ⟨Nat.le_refl _, by omega, by simp only [List.length_cons]; omega,
                fun j hj1 hj2 => ?_⟩
              rcases Nat.eq_or_lt_of_le hj1 with h0 | h1
              · rw [← h0]
                simpa using htab
              · have : j - i = (j - i - 1) + 1 := by omega
                rw [this, List.getD_cons_succ]
                exact takeWhile_getD_true _ _ _ (by omega)
            · obtain ⟨ha, hb, hc, hd⟩ := IH2 r hr
              refine ⟨by omega, hb, ?_, fun j hj1 hj2 => ?_⟩
              · simp only [List.length_drop] at hc
                simp only [List.length_cons]
                omega
              · have hji : i + (1 + (ls.takeWhile is_table_line).length) ≤ j := by
                  omega
                have := hd j hj1 hj2
                rw [getD_drop_txt] at this
                have heq : j - i = ((ls.takeWhile is_table_line).length +
                    (j - (i + (1 + (ls.takeWhile is_table_line).length)))) + 1 := by
                  omega
                rw [heq, List.getD_cons_succ]
                exact this
        · have hres : ftrAux (fuel + 1) (l :: ls) i =
              ftrAux fuel (ls.drop (ls.takeWhile is_table_line).length)
                (i + (1 + (ls.takeWhile is_table_line).length)) := by
            simp only [ftrAux, if_pos htab, if_neg hrun]
          have htw0 : (ls.takeWhile is_table_line).length = 0 := by omega
          rw [hres]
          constructor
          · exact IH1
          · intro r hr
            obtain ⟨ha, hb, hc, hd⟩ := IH2 r hr
            rw [htw0] at ha hc hd
            simp only [List.drop_zero] at hd
            refine ⟨by omega, hb, ?_, fun j hj1 hj2 => ?_⟩
            · simp only [List.drop_zero, List.length_cons] at hc ⊢
              omega
            · have := hd j hj1 hj2
              have heq : j - i = (j - (i + (1 + 0))) + 1 := by omega
              rw [heq, List.getD_cons_succ]
              exact this
      · have hres : ftrAux (fuel + 1) (l :: ls) i = ftrAux fuel ls (i + 1) := by
          simp only [ftrAux, if_neg htab]
        have hls : ls.length ≤ fuel := by
          simp only [List.length_cons] at hlen
          omega
        obtain ⟨IH1, IH2⟩ := ih ls (i + 1) hls
        rw [hres]
        refine ⟨IH1, fun r hr => ?_⟩
        obtain ⟨ha, hb, hc, hd⟩ := IH2 r hr
        refine ⟨by omega, hb, by simp only [List.length_cons]; omega,
          fun j hj1 hj2 => ?_⟩
        have := hd j hj1 hj2
        have heq : j - i = (j - (i + 1)) + 1 := by omega
        rw [heq, List.getD_cons_succ]
        exact this

/-- C4: `find_table_ranges` returns pairwise-disjoint half-open ranges;
every range is at least two lines long, stays inside the document, and
every line in a range has the table-row shape; consequently a matching
line with no matching neighbour is never inside a reported range. -/
theorem C4_table_ranges (lines : List Txt) :
    List.Pairwise (fun r1 r2 : Nat × Nat => r1.2 ≤ r2.1) (find_table_ranges lines) ∧
    (∀ r ∈ find_table_ranges lines,
      r.1 + 2 ≤ r.2 ∧ r.2 ≤ lines.length ∧
      ∀ j, r.1 ≤ j → j < r.2 → is_table_line (lines.getD j []) = true) ∧
    (∀ j, is_table_line (lines.getD j []) = true →
      (j = 0 ∨ is_table_line (lines.getD (j - 1) []) = false) →
      is_table_line (lines.getD (j + 1) []) = false →
      ∀ r ∈ find_table_ranges lines, ¬(r.1 ≤ j ∧ j < r.2)) := by
  obtain ⟨hp, hm⟩ := ftrAux_spec lines.length lines 0 (Nat.le_refl _)
  have hm' : ∀ r ∈ find_table_ranges lines,
      r.1 + 2 ≤ r.2 ∧ r.2 ≤ lines.length ∧
      ∀ j, r.1 ≤ j → j < r.2 → is_table_line (lines.getD j []) = true := by
    intro r hr
    obtain ⟨_, hb, hc, hd⟩ := hm r hr
    refine ⟨hb, by simpa using hc, fun j hj1 hj2 => ?_⟩
    have := hd j hj1 hj2
    simpa using this
  refine ⟨hp, hm', fun j hj hleft hright r hr ⟨h1, h2⟩ => ?_⟩
  obtain ⟨hb, _, hd⟩ := hm' r hr
  rcases Nat.eq_or_lt_of_le h1 with he | hlt
  · have : is_table_line (lines.getD (j + 1) []) = true := by
      apply hd
      · omega
      · omega
    rw [hright] at this
    exact Bool.false_ne_true this
  · have hj1 : is_table_line (lines.getD (j - 1) []) = true := by
      apply hd
      · omega
      · omega
    rcases hleft with h0 | hfalse
    · omega
    · rw [hfalse] at hj1
      exact Bool.false_ne_true hj1

/-- Witness for `C4_table_ranges` at a concrete document. -/
theorem C4_witness :
    (0, 2) ∈ find_table_ranges [lit "| a | b |", lit "|-|-|", lit "x"] ∧
    is_table_line ([lit "| a | b |", lit "|-|-|", lit "x"].getD 1 []) = true :=
  ⟨by decide,
    ((C4_table_ranges [lit "| a | b |", lit "|-|-|", lit "x"]).2.1 (0, 2)
      (by decide)).2.2 1 (by decide) (by decide)⟩

/-!
### `find_headers_with_numbers`: helper lemmas and claims C7 / C10
-/

theorem isH1_isH2_exclusive (l : Txt) : isH1L l = true → isH2L l = false := by
  intro h1
  rw [isH1L, decide_eq_true_iff] at h1
  rw [isH2L]
  rw [decide_eq_false_iff_not]
  intro h2
  obtain ⟨t1, ht1⟩ := h1
  obtain ⟨t2, ht2⟩ := h2
  rw [← ht2] at ht1
  simp [lit] at ht1

theorem drop_cons_facts {lines : List Txt} {i : Nat} {l : Txt} {ls' : List Txt}
    (h : lines.drop i = l :: ls') :
    lines.getD i [] = l ∧ lines.drop (i + 1) = ls' ∧ i < lines.length := by
  have hlt : i < lines.length := by
    by_contra hge
    rw [List.drop_eq_nil_of_le (Nat.le_of_not_lt hge)] at h
    exact List.cons_ne_nil _ _ h.symm
  refine ⟨?_, ?_, hlt⟩
  · have : (lines.drop i).getD 0 [] = l := by rw [h]; rfl
    rwa [getD_drop_txt, Nat.add_zero] at this
  · have h2 : (lines.drop i).drop 1 = ls' := by rw [h]; rfl
    rw [List.drop_drop] at h2
    exact h2

theorem h1CountThrough_mono (lines : List Txt) {j i : Nat} (h : j ≤ i) :
    h1CountThrough lines j ≤ h1CountThrough lines i := by
  unfold h1CountThrough
  have heq : lines.take j = (lines.take i).take j := by
    rw [List.take_take, Nat.min_eq_left h]
  rw [heq]
  calc ((lines.take i).take j).countP (fun l => isH1L l)
      ≤ ((lines.take i).take j).countP (fun l => isH1L l) +
        ((lines.take i).drop j).countP (fun l => isH1L l) := Nat.le_add_right _ _
    _ = (lines.take i).countP (fun l => isH1L l) := by
        rw [← List.countP_append, List.take_append_drop]

theorem h1CountThrough_succ (lines : List Txt) (i : Nat) (h : i < lines.length) :
    h1CountThrough lines (i + 1) =
      h1CountThrough lines i + (if isH1L (lines.getD i []) then 1 else 0) := by
  unfold h1CountThrough
  rw [List.take_succ, List.countP_append]
  congr 1
  have hg : lines[i]? = some (lines.getD i []) := by
    rw [List.getElem?_eq_getElem h, List.getD_eq_getElem lines [] h]
  rw [hg]
  by_cases hh : isH1L (lines.getD i [])
  · simp [List.countP_cons, hh]
  · simp [List.countP_cons, hh]

theorem h2SectionCount_succ (lines : List Txt) (i k : Nat) :
    h2SectionCount lines (i + 1) k =
      h2SectionCount lines i k +
        (if isH2L (lines.getD i []) && decide (h1CountThrough lines i = k)
          then 1 else 0) := by
  unfold h2SectionCount
  rw [List.range_succ, List.countP_append]
  have hsing : ∀ p : Nat → Bool, List.countP p [i] = if p i then 1 else 0 := by
    intro p
    simp [List.countP_cons]
  rw [hsing]

/-- In a list whose keys are strictly increasing, a member carrying the
maximal key is the last element. -/
theorem getLast?_of_max_key :
    ∀ (l : List (Nat × List (Nat × Nat × Txt))) (kv : Nat × List (Nat × Nat × Txt)),
      List.Pairwise (fun a b => a.1 < b.1) l → kv ∈ l →
      (∀ kv' ∈ l, kv'.1 ≤ kv.1) → l.getLast? = some kv := by
  intro l
  induction l with
  | nil => intro kv _ h _; simp at h
  | cons x xs ih =>
    intro kv hp hm hmax
    cases xs with
    | nil =>
      rcases List.mem_singleton.mp hm with rfl
      rfl
    | cons y ys =>
      have hx : kv ∈ y :: ys := by
        rcases List.mem_cons.mp hm with rfl | h
        · exfalso
          have hlt : kv.1 < y.1 := (List.pairwise_cons.mp hp).1 y (by simp)
          have hle : y.1 ≤ kv.1 := hmax y (by simp)
          omega
        · exact h
      have : (y :: ys).getLast? = some kv :=
        ih kv (List.pairwise_cons.mp hp).2 hx
          (fun kv' h' => hmax kv' (List.mem_cons_of_mem _ h'))
      rw [List.getLast?_cons_cons]
      exact this

theorem isH1L_iff (l : Txt) : isH1L l = true ↔ lit "# " <+: pyStrip l := by
  simp [isH1L]

theorem isH2L_iff (l : Txt) : isH2L l = true ↔ lit "## " <+: pyStrip l := by
  simp [isH2L]

theorem eq_dropLast_append_of_getLast? {α : Type} :
    ∀ (l : List α) (x : α), l.getLast? = some x → l = l.dropLast ++ [x] := by
  intro l
  induction l with
  | nil => intro x h; simp at h
  | cons a l' ih =>
    intro x h
    cases l' with
    | nil =>
      simp at h
      subst h
      rfl
    | cons b l'' =>
      rw [List.getLast?_cons_cons] at h
      have hrec := ih x h
      have : (a :: b :: l'').dropLast = a :: (b :: l'').dropLast := rfl
      rw [this, List.cons_append, ← hrec]

theorem fhwnAux_nil (i h1n h2c : Nat) (h1acc : List (Nat × Nat × Txt))
    (h2acc : List (Nat × List (Nat × Nat × Txt))) :
    fhwnAux [] i h1n h2c h1acc h2acc = (h1acc, h2acc) := rfl

theorem fhwnAux_cons_h1 {l : Txt} (ls : List Txt) (i h1n h2c : Nat)
    (h1acc : List (Nat × Nat × Txt)) (h2acc : List (Nat × List (Nat × Nat × Txt)))
    (h : lit "# " <+: pyStrip l) :
    fhwnAux (l :: ls) i h1n h2c h1acc h2acc =
      fhwnAux ls (i + 1) (h1n + 1) 0 (h1acc ++ [(h1n + 1, i, pyStrip l)]) h2acc := by
  simp only [fhwnAux, if_pos h]

theorem fhwnAux_cons_h2_none {l : Txt} (ls : List Txt) (i h1n h2c : Nat)
    (h1acc : List (Nat × Nat × Txt)) (h2acc : List (Nat × List (Nat × Nat × Txt)))
    (h1 : ¬ lit "# " <+: pyStrip l) (h2 : lit "## " <+: pyStrip l) (hpos : 0 < h1n)
    (hlast : h2acc.getLast? = none) :
    fhwnAux (l :: ls) i h1n h2c h1acc h2acc =
      fhwnAux ls (i + 1) h1n (h2c + 1) h1acc
        (h2acc ++ [(h1n, [(h2c + 1, i, pyStrip l)])]) := by
  simp only [fhwnAux, if_neg h1, if_pos h2, if_pos hpos, hlast]

theorem fhwnAux_cons_h2_last_eq {l : Txt} (ls : List Txt) (i h1n h2c : Nat)
    (h1acc : List (Nat × Nat × Txt)) (h2acc : List (Nat × List (Nat × Nat × Txt)))
    (kv : Nat × List (Nat × Nat × Txt))
    (h1 : ¬ lit "# " <+: pyStrip l) (h2 : lit "## " <+: pyStrip l) (hpos : 0 < h1n)
    (hlast : h2acc.getLast? = some kv) (hkv : kv.1 = h1n) :
    fhwnAux (l :: ls) i h1n h2c h1acc h2acc =
      fhwnAux ls (i + 1) h1n (h2c + 1) h1acc
        (h2acc.dropLast ++ [(kv.1, kv.2 ++ [(h2c + 1, i, pyStrip l)])]) := by
  simp only [fhwnAux, if_neg h1, if_pos h2, if_pos hpos, hlast, if_pos hkv]

theorem fhwnAux_cons_h2_last_ne {l : Txt} (ls : List Txt) (i h1n h2c : Nat)
    (h1acc : List (Nat × Nat × Txt)) (h2acc : List (Nat × List (Nat × Nat × Txt)))
    (kv : Nat × List (Nat × Nat × Txt))
    (h1 : ¬ lit "# " <+: pyStrip l) (h2 : lit "## " <+: pyStrip l) (hpos : 0 < h1n)
    (hlast : h2acc.getLast? = some kv) (hkv : ¬ kv.1 = h1n) :
    fhwnAux (l :: ls) i h1n h2c h1acc h2acc =
      fhwnAux ls (i + 1) h1n (h2c + 1) h1acc
        (h2acc ++ [(h1n, [(h2c + 1, i, pyStrip l)])]) := by
  simp only [fhwnAux, if_neg h1, if_pos h2, if_pos hpos, hlast, if_neg hkv]

theorem fhwnAux_cons_skip {l : Txt} (ls : List Txt) (i h1n h2c : Nat)
    (h1acc : List (Nat × Nat × Txt)) (h2acc : List (Nat × List (Nat × Nat × Txt)))
    (h1 : ¬ lit "# " <+: pyStrip l)
    (h : ¬ lit "## " <+: pyStrip l ∨ ¬ 0 < h1n) :
    fhwnAux (l :: ls) i h1n h2c h1acc h2acc =
      fhwnAux ls (i + 1) h1n h2c h1acc h2acc := by
  rcases h with h | h
  · simp only [fhwnAux, if_neg h1, if_neg h]
  · by_cases h2 : lit "## " <+: pyStrip l
    · simp only [fhwnAux, if_neg h1, if_pos h2, if_neg h]
    · simp only [fhwnAux, if_neg h1, if_neg h2]

theorem getLast?_ne_none_of_cons {α : Type} (a : α) (l : List α) :
    (a :: l).getLast? ≠ none := by
  induction l generalizing a with
  | nil => simp
  | cons b l' ih => rw [List.getLast?_cons_cons]; exact ih b

/-- Full characterization of the `find_headers_with_numbers` worker: with
a consistent state for position `i`, the worker returns exactly the
entries described by `H1spec` and `H2spec`. -/
theorem fhwnAux_spec (lines : List Txt) :
    ∀ (ls : List Txt) (i h1n h2c : Nat)
      (h1acc : List (Nat × Nat × Txt))
      (h2acc : List (Nat × List (Nat × Nat × Txt))),
      ls = lines.drop i →
      h1n = h1CountThrough lines i →
      (0 < h1n → h2c = h2SectionCount lines i h1n) →
      (∀ n i' t, (n, i', t) ∈ h1acc ↔ (i' < i ∧ H1spec lines n i' t)) →
      (∀ k inner m i' t, (k, inner) ∈ h2acc → (m, i', t) ∈ inner →
        i' < i ∧ H2spec lines k m i' t) →
      (∀ k m i' t, i' < i → H2spec lines k m i' t →
        ∃ inner, (k, inner) ∈ h2acc ∧ (m, i', t) ∈ inner) →
      List.Pairwise (fun a b => a.1 < b.1) h2acc →
      (∀ kv ∈ h2acc, kv.1 ≤ h1n) →
      (∀ n i' t, (n, i', t) ∈ (fhwnAux ls i h1n h2c h1acc h2acc).1 ↔
        H1spec lines n i' t) ∧
      (∀ k inner m i' t, (k, inner) ∈ (fhwnAux ls i h1n h2c h1acc h2acc).2 →
        (m, i', t) ∈ inner → H2spec lines k m i' t) ∧
      (∀ k m i' t, H2spec lines k m i' t →
        ∃ inner, (k, inner) ∈ (fhwnAux ls i h1n h2c h1acc h2acc).2 ∧
          (m, i', t) ∈ inner) := by
  intro ls
  induction ls with
  | nil =>
    intro i h1n h2c h1acc h2acc hdrop hh1n hh2c hch1 hsnd hcmp hpw hkeys
    have hge : lines.length ≤ i := List.drop_eq_nil_iff.mp hdrop.symm
    rw [fhwnAux_nil]
    refine ⟨fun n i' t => ?_,
      fun k inner m i' t hk hm => (hsnd k inner m i' t hk hm).2,
      fun k m i' t hs => hcmp k m i' t (lt_of_lt_of_le hs.1 hge) hs⟩
    rw [hch1 n i' t]
    exact ⟨fun h => h.2, fun h => ⟨lt_of_lt_of_le h.1 hge, h⟩⟩
  | cons l ls' ih =>
    intro i h1n h2c h1acc h2acc hdrop hh1n hh2c hch1 hsnd hcmp hpw hkeys
    obtain ⟨hgetd, hdrop', hilt⟩ := drop_cons_facts hdrop.symm
    by_cases hH1 : lit "# " <+: pyStrip l
    · -- line i is a level-1 heading
      have hisH1 : isH1L (lines.getD i []) = true := by
        rw [hgetd, isH1L_iff]; exact hH1
      have hisH2 : isH2L (lines.getD i []) = false := isH1_isH2_exclusive _ hisH1
      have hcount : h1CountThrough lines (i + 1) = h1n + 1 := by
        rw [h1CountThrough_succ lines i hilt, hisH1, hh1n]
        simp
      rw [fhwnAux_cons_h1 ls' i h1n h2c h1acc h2acc hH1]
      apply ih (i + 1) (h1n + 1) 0 _ _ hdrop'.symm hcount.symm
      · intro _
        symm
        rw [h2SectionCount, List.countP_eq_zero]
        intro j hj
        rw [List.mem_range] at hj
        intro hc
        rw [Bool.and_eq_true, decide_eq_true_iff] at hc
        have hle : h1CountThrough lines j ≤ h1n := by
          rw [hh1n]
          exact h1CountThrough_mono lines (by omega)
        omega
      · intro n i' t
        rw [List.mem_append]
        constructor
        · rintro (hmem | hmem)
          · obtain ⟨hlt, hs⟩ := (hch1 n i' t).mp hmem
            exact ⟨by omega, hs⟩
          · simp only [List.mem_singleton, Prod.mk.injEq] at hmem
            obtain ⟨rfl, rfl, rfl⟩ := hmem
            exact ⟨Nat.lt_succ_self _, hilt, hisH1, by rw [hgetd], hcount.symm⟩
        · rintro ⟨hlt, hs⟩
          rcases Nat.lt_succ_iff_lt_or_eq.mp hlt with hlt' | rfl
          · exact Or.inl ((hch1 n i' t).mpr ⟨hlt', hs⟩)
          · right
            obtain ⟨hl, hh, ht, hn⟩ := hs
            simp only [List.mem_singleton, Prod.mk.injEq]
            exact ⟨by rw [hn, hcount], by simp, by rw [ht, hgetd]⟩
      · intro k inner m i' t hk hm
        obtain ⟨hlt, hs⟩ := hsnd k inner m i' t hk hm
        exact ⟨by omega, hs⟩
      · intro k m i' t hlt hs
        rcases Nat.lt_succ_iff_lt_or_eq.mp hlt with hlt' | heq
        · exact hcmp k m i' t hlt' hs
        · exfalso
          rw [heq] at hs
          have hcon := hs.2.1
          rw [hisH2] at hcon
          exact Bool.false_ne_true hcon
      · exact hpw
      · intro kv hkv
        exact le_trans (hkeys kv hkv) (Nat.le_succ _)
    · -- line i is not a level-1 heading
      have hisH1 : isH1L (lines.getD i []) = false := by
        rw [hgetd, isH1L]
        simp [hH1]
      have hcount : h1CountThrough lines (i + 1) = h1n := by
        rw [h1CountThrough_succ lines i hilt, hisH1, hh1n]
        simp
      have hch1' : ∀ n i' t, (n, i', t) ∈ h1acc ↔
          (i' < i + 1 ∧ H1spec lines n i' t) := by
        intro n i' t
        rw [hch1 n i' t]
        constructor
        · rintro ⟨hlt, hs⟩
          exact ⟨by omega, hs⟩
        · rintro ⟨hlt, hs⟩
          rcases Nat.lt_succ_iff_lt_or_eq.mp hlt with hlt' | heq
          · exact ⟨hlt', hs⟩
          · exfalso
            rw [heq] at hs
            have hcon := hs.2.1
            rw [hisH1] at hcon
            exact Bool.false_ne_true hcon
      by_cases hH2 : lit "## " <+: pyStrip l
      · have hisH2 : isH2L (lines.getD i []) = true := by
          rw [hgetd, isH2L_iff]; exact hH2
        by_cases hpos : 0 < h1n
        · -- counted level-2 heading
          have hsec : h2c = h2SectionCount lines i h1n := hh2c hpos
          have hpred : (isH2L (lines.getD i []) &&
              decide (h1CountThrough lines i = h1n)) = true := by
            rw [hisH2, ← hh1n]
            simp
          have hsecsucc : h2SectionCount lines (i + 1) h1n = h2c + 1 := by
            rw [h2SectionCount_succ, hpred, hsec]
            simp
          have espec : H2spec lines h1n (h2c + 1) i (pyStrip l) :=
            ⟨hilt, hisH2, by rw [hgetd], hpos, hh1n, hsecsucc.symm⟩
          have hspec_fix : ∀ k m t, H2spec lines k m i t →
              k = h1n ∧ m = h2c + 1 ∧ t = pyStrip l := by
            intro k m t hs
            obtain ⟨_, _, ht, _, hk, hm⟩ := hs
            have hk' : k = h1n := by rw [hk]; exact hh1n.symm
            subst hk'
            exact ⟨rfl, by rw [hm, hsecsucc], by rw [ht, hgetd]⟩
          rcases hlast : h2acc.getLast? with _ | kv
          · -- h2acc is empty: start a new section bucket
            have hempty : h2acc = [] := by
              cases h2acc with
              | nil => rfl
              | cons a l2 => exact absurd hlast (getLast?_ne_none_of_cons a l2)
            subst hempty
            rw [fhwnAux_cons_h2_none ls' i h1n h2c h1acc [] hH1 hH2 hpos hlast]
            apply ih (i + 1) h1n (h2c + 1) h1acc _ hdrop'.symm hcount.symm
              (fun _ => hsecsucc.symm) hch1'
            · intro k inner m i' t hk hm
              simp only [List.nil_append, List.mem_singleton, Prod.mk.injEq] at hk
              obtain ⟨rfl, rfl⟩ := hk
              simp only [List.mem_singleton, Prod.mk.injEq] at hm
              obtain ⟨rfl, rfl, rfl⟩ := hm
              exact ⟨Nat.lt_succ_self _, espec⟩
            · intro k m i' t hlt hs
              rcases Nat.lt_succ_iff_lt_or_eq.mp hlt with hlt' | heq
              · obtain ⟨inner, hmem, _⟩ := hcmp k m i' t hlt' hs
                simp at hmem
              · obtain ⟨hk, hm2, ht⟩ := hspec_fix k m t (heq ▸ hs)
                refine ⟨[(h2c + 1, i, pyStrip l)], by simp [hk], ?_⟩
                simp [hm2, ht, heq]
            · simp
            · intro kv' hkv'
              simp only [List.nil_append, List.mem_singleton] at hkv'
              subst hkv'
              exact Nat.le_refl _
          · -- h2acc ends with entry kv
            have hdecomp : h2acc = h2acc.dropLast ++ [kv] :=
              eq_dropLast_append_of_getLast? _ _ hlast
            have hkvmem : kv ∈ h2acc := by
              rw [hdecomp]
              exact List.mem_append_right _ (by simp)
            have hdlkeys : ∀ x ∈ h2acc.dropLast, x.1 < kv.1 := by
              have hp := hpw
              rw [hdecomp, List.pairwise_append] at hp
              intro x hx
              exact hp.2.2 x hx kv (by simp)
            by_cases hkvk : kv.1 = h1n
            · -- extend the last section bucket
              rw [fhwnAux_cons_h2_last_eq ls' i h1n h2c h1acc h2acc kv hH1 hH2
                hpos hlast hkvk]
              apply ih (i + 1) h1n (h2c + 1) h1acc _ hdrop'.symm hcount.symm
                (fun _ => hsecsucc.symm) hch1'
              · intro k inner m i' t hk hm
                rcases List.mem_append.mp hk with hk' | hk'
                · have hmem : (k, inner) ∈ h2acc := by
                    rw [hdecomp]
                    exact List.mem_append_left _ hk'
                  obtain ⟨hlt, hs⟩ := hsnd k inner m i' t hmem hm
                  exact ⟨by omega, hs⟩
                · simp only [List.mem_singleton, Prod.mk.injEq] at hk'
                  obtain ⟨rfl, rfl⟩ := hk'
                  rcases List.mem_append.mp hm with hm' | hm'
                  · have hkvpair : (kv.1, kv.2) ∈ h2acc := by
                      rw [Prod.mk.eta]
                      exact hkvmem
                    obtain ⟨hlt, hs⟩ := hsnd kv.1 kv.2 m i' t hkvpair hm'
                    exact ⟨by omega, hs⟩
                  · simp only [List.mem_singleton, Prod.mk.injEq] at hm'
                    obtain ⟨rfl, rfl, rfl⟩ := hm'
                    rw [hkvk]
                    exact ⟨Nat.lt_succ_self _, espec⟩
              · intro k m i' t hlt hs
                rcases Nat.lt_succ_iff_lt_or_eq.mp hlt with hlt' | heq
                · obtain ⟨inner, hmem, hin⟩ := hcmp k m i' t hlt' hs
                  rw [hdecomp] at hmem
                  rcases List.mem_append.mp hmem with hm' | hm'
                  · exact ⟨inner, List.mem_append_left _ hm', hin⟩
                  · simp only [List.mem_singleton] at hm'
                    refine ⟨kv.2 ++ [(h2c + 1, i, pyStrip l)],
                      List.mem_append_right _ ?_, ?_⟩
                    · simp only [List.mem_singleton, Prod.mk.injEq]
                      constructor
                      · rw [← hm']
                      · trivial
                    · apply List.mem_append_left
                      have hinner : inner = kv.2 := by rw [← hm']
                      rw [← hinner]
                      exact hin
                · obtain ⟨hk, hm2, ht⟩ := hspec_fix k m t (heq ▸ hs)
                  refine ⟨kv.2 ++ [(h2c + 1, i, pyStrip l)],
                    List.mem_append_right _ ?_, List.mem_append_right _ ?_⟩
                  · simp [hk, hkvk]
                  · simp [hm2, ht, heq]
              · rw [List.pairwise_append]
                refine ⟨?_, by simp, ?_⟩
                · have hp := hpw
                  rw [hdecomp, List.pairwise_append] at hp
                  exact hp.1
                · intro x hx y hy
                  simp only [List.mem_singleton] at hy
                  subst hy
                  exact hdlkeys x hx
              · intro kv' hkv'
                rcases List.mem_append.mp hkv' with h' | h'
                · exact le_trans (le_of_lt (hdlkeys kv' h')) (hkeys kv hkvmem)
                · simp only [List.mem_singleton] at h'
                  subst h'
                  rw [hkvk]
            · -- append a new section bucket
              rw [fhwnAux_cons_h2_last_ne ls' i h1n h2c h1acc h2acc kv hH1 hH2
                hpos hlast hkvk]
              have hkeylt : ∀ x ∈ h2acc, x.1 < h1n := by
                intro x hx
                rw [hdecomp] at hx
                rcases List.mem_append.mp hx with h' | h'
                · exact lt_of_lt_of_le (hdlkeys x h') (hkeys kv hkvmem)
                · simp only [List.mem_singleton] at h'
                  subst h'
                  exact lt_of_le_of_ne (hkeys x hkvmem) hkvk
              apply ih (i + 1) h1n (h2c + 1) h1acc _ hdrop'.symm hcount.symm
                (fun _ => hsecsucc.symm) hch1'
              · intro k inner m i' t hk hm
                rcases List.mem_append.mp hk with hk' | hk'
                · obtain ⟨hlt, hs⟩ := hsnd k inner m i' t hk' hm
                  exact ⟨by omega, hs⟩
                · simp only [List.mem_singleton, Prod.mk.injEq] at hk'
                  obtain ⟨rfl, rfl⟩ := hk'
                  simp only [List.mem_singleton, Prod.mk.injEq] at hm
                  obtain ⟨rfl, rfl, rfl⟩ := hm
                  exact ⟨Nat.lt_succ_self _, espec⟩
              · intro k m i' t hlt hs
                rcases Nat.lt_succ_iff_lt_or_eq.mp hlt with hlt' | heq
                · obtain ⟨inner, hmem, hin⟩ := hcmp k m i' t hlt' hs
                  exact ⟨inner, List.mem_append_left _ hmem, hin⟩
                · obtain ⟨hk, hm2, ht⟩ := hspec_fix k m t (heq ▸ hs)
                  refine ⟨[(h2c + 1, i, pyStrip l)],
                    List.mem_append_right _ ?_, ?_⟩
                  · simp [hk]
                  · simp [hm2, ht, heq]
              · rw [List.pairwise_append]
                refine ⟨hpw, by simp, fun x hx y hy => ?_⟩
                simp only [List.mem_singleton] at hy
                subst hy
                exact hkeylt x hx
              · intro kv' hkv'
                rcases List.mem_append.mp hkv' with h' | h'
                · exact hkeys kv' h'
                · simp only [List.mem_singleton] at h'
                  subst h'
                  exact Nat.le_refl _
        · -- level-2 heading before any level-1 heading: skipped
          rw [fhwnAux_cons_skip ls' i h1n h2c h1acc h2acc hH1 (Or.inr hpos)]
          apply ih (i + 1) h1n h2c h1acc h2acc hdrop'.symm hcount.symm
            (fun hp => absurd hp hpos) hch1'
          · intro k inner m i' t hk hm
            obtain ⟨hlt, hs⟩ := hsnd k inner m i' t hk hm
            exact ⟨by omega, hs⟩
          · intro k m i' t hlt hs
            rcases Nat.lt_succ_iff_lt_or_eq.mp hlt with hlt' | heq
            · exact hcmp k m i' t hlt' hs
            · exfalso
              rw [heq] at hs
              obtain ⟨_, _, _, hkpos, hk, _⟩ := hs
              rw [← hh1n] at hk
              omega
          · exact hpw
          · exact hkeys
      · -- neither kind of heading
        have hisH2 : isH2L (lines.getD i []) = false := by
          rw [hgetd, isH2L]
          simp [hH2]
        rw [fhwnAux_cons_skip ls' i h1n h2c h1acc h2acc hH1 (Or.inl hH2)]
        apply ih (i + 1) h1n h2c h1acc h2acc hdrop'.symm hcount.symm ?_ hch1'
        · intro k inner m i' t hk hm
          obtain ⟨hlt, hs⟩ := hsnd k inner m i' t hk hm
          exact ⟨by omega, hs⟩
        · intro k m i' t hlt hs
          rcases Nat.lt_succ_iff_lt_or_eq.mp hlt with hlt' | heq
          · exact hcmp k m i' t hlt' hs
          · exfalso
            rw [heq] at hs
            have hcon := hs.2.1
            rw [hisH2] at hcon
            exact Bool.false_ne_true hcon
        · exact hpw
        · exact hkeys
        · intro hp
          rw [h2SectionCount_succ, hisH2]
          simp
          exact hh2c hp

/-- The characterization of `find_headers_with_numbers` itself, shared by
the proofs about claims C7 and C10. -/
theorem fhwn_characterization (lines : List Txt) :
    (∀ n i t, (n, i, t) ∈ (find_headers_with_numbers lines).1 ↔
      H1spec lines n i t) ∧
    (∀ k inner m i t, (k, inner) ∈ (find_headers_with_numbers lines).2 →
      (m, i, t) ∈ inner → H2spec lines k m i t) ∧
    (∀ k m i t, H2spec lines k m i t →
      ∃ inner, (k, inner) ∈ (find_headers_with_numbers lines).2 ∧
        (m, i, t) ∈ inner) := by
  have h := fhwnAux_spec lines lines 0 0 0 [] []
    (by simp)
    (by simp [h1CountThrough])
    (fun hp => absurd hp (lt_irrefl 0))
    (by intro n i' t; simp)
    (by intro k inner m i' t hk; simp at hk)
    (by intro k m i' t hlt; omega)
    List.Pairwise.nil
    (by intro kv hkv; simp at hkv)
  exact h

/-- C7: `find_headers_with_numbers` assigns each level-1 heading the
1-based ordinal equal to its rank among level-1 headings in document
order, and each level-2 heading a 1-based ordinal relative to its nearest
preceding level-1 heading, the counter resetting at every level-1
heading; conversely every heading with those data receives an entry
(level-2 headings only when a level-1 heading precedes them). -/
theorem C7_header_numbering (lines : List Txt) :
    (∀ n i t, (n, i, t) ∈ (find_headers_with_numbers lines).1 ↔
      H1spec lines n i t) ∧
    (∀ k inner m i t, (k, inner) ∈ (find_headers_with_numbers lines).2 →
      (m, i, t) ∈ inner → H2spec lines k m i t) ∧
    (∀ k m i t, H2spec lines k m i t →
      ∃ inner, (k, inner) ∈ (find_headers_with_numbers lines).2 ∧
        (m, i, t) ∈ inner) :=
  fhwn_characterization lines

/-- Witness for `C7_header_numbering` at a concrete document. -/
theorem C7_witness :
    (2, 3, lit "# B") ∈ (find_headers_with_numbers
      [lit "# A", lit "## x", lit "## y", lit "# B", lit "## z"]).1 :=
  ((C7_header_numbering
    [lit "# A", lit "## x", lit "## y", lit "# B", lit "## z"]).1 2 3
      (lit "# B")).mpr (by unfold H1spec; decide)

theorem getD_set_ne_txt (l : List Txt) (i j : Nat) (v : Txt) (h : i ≠ j) :
    (l.set i v).getD j [] = l.getD j [] := by
  simp [List.getD_eq_getD_get?, List.get?_eq_getElem?, List.getElem?_set_ne h]

theorem applyH1_getD (cfgs : List HeaderCfg) (lang : Txt) :
    ∀ (h1acc : List (Nat × Nat × Txt)) (lines : List Txt) (j : Nat),
      (∀ e ∈ h1acc, e.2.1 ≠ j) →
      (applyH1 cfgs lang h1acc lines).getD j [] = lines.getD j [] := by
  intro h1acc
  induction h1acc with
  | nil => intro lines j _; rfl
  | cons e es ih =>
    intro lines j hne
    unfold applyH1
    rw [List.foldl_cons]
    have hstep : ∀ pl : List Txt,
        (match lookupH1 cfgs lang e.2.2 e.1 with
          | some mt => if mt ≠ [] then pl.set e.2.1 mt else pl
          | none => pl).getD j [] = pl.getD j [] := by
      intro pl
      cases lookupH1 cfgs lang e.2.2 e.1 with
      | none => rfl
      | some mt =>
        by_cases hmt : mt ≠ []
        · simp only [if_pos hmt]
          exact getD_set_ne_txt pl e.2.1 j mt (hne e (by simp))
        · simp only [if_neg hmt]
    have hrec := ih (match lookupH1 cfgs lang e.2.2 e.1 with
      | some mt => if mt ≠ [] then lines.set e.2.1 mt else lines
      | none => lines) j (fun e' he' => hne e' (by simp [he']))
    unfold applyH1 at hrec
    rw [hrec, hstep]

theorem applyH2_getD (cfgs : List HeaderCfg) (lang : Txt) :
    ∀ (h2acc : List (Nat × List (Nat × Nat × Txt))) (lines : List Txt) (j : Nat),
      (∀ kv ∈ h2acc, ∀ e ∈ kv.2, e.2.1 ≠ j) →
      (applyH2 cfgs lang h2acc lines).getD j [] = lines.getD j [] := by
  intro h2acc
  induction h2acc with
  | nil => intro lines j _; rfl
  | cons kv kvs ih =>
    intro lines j hne
    unfold applyH2
    rw [List.foldl_cons]
    have hinner : ∀ (inner : List (Nat × Nat × Txt)) (k : Nat) (pl : List Txt),
        (∀ e ∈ inner, e.2.1 ≠ j) →
        (inner.foldl (fun pl' e =>
          match lookupH2 cfgs lang e.2.2 k e.1 with
          | some mt => if mt ≠ [] then pl'.set e.2.1 mt else pl'
          | none => pl') pl).getD j [] = pl.getD j [] := by
      intro inner
      induction inner with
      | nil => intro k pl _; rfl
      | cons e es ih' =>
        intro k pl hne'
        rw [List.foldl_cons]
        rw [ih' k _ (fun e' he' => hne' e' (by simp [he']))]
        cases lookupH2 cfgs lang e.2.2 k e.1 with
        | none => rfl
        | some mt =>
          by_cases hmt : mt ≠ []
          · simp only [if_pos hmt]
            exact getD_set_ne_txt pl e.2.1 j mt (hne' e (by simp))
          · simp only [if_neg hmt]
    have hrec := ih (kv.2.foldl (fun pl' e =>
      match lookupH2 cfgs lang e.2.2 kv.1 e.1 with
      | some mt => if mt ≠ [] then pl'.set e.2.1 mt else pl'
      | none => pl') lines) j (fun kv' hkv' => hne kv' (by simp [hkv']))
    unfold applyH2 at hrec
    rw [hrec]
    exact hinner kv.2 kv.1 lines (hne kv (by simp))

theorem h1CountThrough_eq_zero (lines : List Txt) :
    ∀ i : Nat, (∀ j, j < i → isH1L (lines.getD j []) = false) →
      h1CountThrough lines i = 0 := by
  intro i
  induction i with
  | zero => intro _; simp [h1CountThrough]
  | succ i ih =>
    intro hpre
    by_cases hlt : i < lines.length
    · rw [h1CountThrough_succ lines i hlt, hpre i (Nat.lt_succ_self i)]
      simp [ih (fun j hj => hpre j (by omega))]
    · have hge : lines.length ≤ i := Nat.le_of_not_lt hlt
      unfold h1CountThrough at ih ⊢
      rw [List.take_of_length_le (by omega), ← List.take_of_length_le hge]
      exact ih (fun j hj => hpre j (by omega))

/-- C10: a level-2 heading that appears before any level-1 heading gets
no entry in the level-2 map of `find_headers_with_numbers` (the level-1
counter is still zero), so it can never be targeted by an ordinal-based
configuration entry; consequently the manual-header-substitution stage
leaves its line unchanged regardless of the configuration. -/
theorem C10_pre_h1_level2_omitted (lines : List Txt) (i : Nat)
    (hcfgs : List HeaderCfg) (lang : Txt)
    (hi : isH2L (lines.getD i []) = true)
    (hpre : ∀ j, j < i → isH1L (lines.getD j []) = false) :
    (∀ k inner, (k, inner) ∈ (find_headers_with_numbers lines).2 →
      ∀ m t, (m, i, t) ∉ inner) ∧
    (processHeaders hcfgs lang lines).getD i [] = lines.getD i [] := by
  have hzero : h1CountThrough lines i = 0 := h1CountThrough_eq_zero lines i hpre
  obtain ⟨hs1, hs2, _⟩ := fhwn_characterization lines
  have hnoh2 : ∀ k inner, (k, inner) ∈ (find_headers_with_numbers lines).2 →
      ∀ m t, (m, i, t) ∉ inner := by
    intro k inner hk m t hm
    obtain ⟨_, _, _, hkpos, hkeq, _⟩ := hs2 k inner m i t hk hm
    omega
  refine ⟨hnoh2, ?_⟩
  have h2cond : ∀ kv ∈ (find_headers_with_numbers lines).2,
      ∀ e ∈ kv.2, e.2.1 ≠ i := by
    intro kv hkv e he hei
    have he' : (e.1, e.2.1, e.2.2) ∈ kv.2 := by simpa using he
    rw [hei] at he'
    exact hnoh2 kv.1 kv.2 (by simpa using hkv) e.1 e.2.2 he'
  have h1cond : ∀ e ∈ (find_headers_with_numbers lines).1, e.2.1 ≠ i := by
    intro e he hei
    have hspec := (hs1 e.1 e.2.1 e.2.2).mp (by simpa using he)
    rw [hei] at hspec
    have hx := isH1_isH2_exclusive _ hspec.2.1
    rw [hi] at hx
    simp at hx
  show (applyH2 hcfgs lang (find_headers_with_numbers lines).2
    (applyH1 hcfgs lang (find_headers_with_numbers lines).1 lines)).getD i [] =
    lines.getD i []
  rw [applyH2_getD hcfgs lang _ _ i h2cond,
    applyH1_getD hcfgs lang _ _ i h1cond]

/-- Witness for `C10_pre_h1_level2_omitted` at a concrete document. -/
theorem C10_witness :
    (processHeaders [] (lit "de") [lit "## early", lit "# A"]).getD 0 [] =
      lit "## early" := by
  have h := (C10_pre_h1_level2_omitted [lit "## early", lit "# A"] 0 []
    (lit "de") (by decide) (fun j hj => absurd hj (Nat.not_lt_zero j))).2
  rw [h]
  decide

/-!
### Claim C8: manual heading translation priority
-/

theorem lookupH1Aux_first (lang htext : Txt) (hnum : Nat) :
    ∀ (cfgs : List HeaderCfg) (acc : Option Txt), truthyOpt acc = false →
      (∀ c, cfgs.find? (fun c => h1CfgMatch c htext hnum &&
          truthyOpt (tGet c.translations lang)) = some c →
        lookupH1Aux lang htext hnum cfgs acc = tGet c.translations lang) ∧
      (cfgs.find? (fun c => h1CfgMatch c htext hnum &&
          truthyOpt (tGet c.translations lang)) = none →
        truthyOpt (lookupH1Aux lang htext hnum cfgs acc) = false) := by
  intro cfgs
  induction cfgs with
  | nil =>
    intro acc hacc
    refine ⟨fun c h => ?_, fun _ => hacc⟩
    simp at h
  | cons c cs ih =>
    intro acc hacc
    by_cases hlev : c.level = some 1
    · by_cases htxt : c.text = some htext
      · have hmatch : h1CfgMatch c htext hnum = true := by
          simp [h1CfgMatch, hlev, htxt]
        by_cases htru : truthyOpt (tGet c.translations lang) = true
        · have hfind : (c :: cs).find? (fun c => h1CfgMatch c htext hnum &&
              truthyOpt (tGet c.translations lang)) = some c := by
            simp [List.find?, hmatch, htru]
          refine ⟨fun c' hc' => ?_, fun hcon => ?_⟩
          · rw [hfind] at hc'
            have hcc : c = c' := by simpa using hc'
            subst hcc
            simp only [lookupH1Aux, if_pos hlev, if_pos htxt, if_pos htru]
          · rw [hfind] at hcon
            simp at hcon
        · have hfalse : truthyOpt (tGet c.translations lang) = false :=
            Bool.eq_false_iff.mpr htru
          have hfind : (c :: cs).find? (fun c => h1CfgMatch c htext hnum &&
              truthyOpt (tGet c.translations lang)) =
              cs.find? (fun c => h1CfgMatch c htext hnum &&
                truthyOpt (tGet c.translations lang)) := by
            simp [List.find?, hfalse]
          have hstep : lookupH1Aux lang htext hnum (c :: cs) acc =
              lookupH1Aux lang htext hnum cs (tGet c.translations lang) := by
            simp only [lookupH1Aux, if_pos hlev, if_pos htxt, if_neg htru]
          obtain ⟨ih1, ih2⟩ := ih (tGet c.translations lang) hfalse
          refine ⟨fun c' hc' => ?_, fun hcon => ?_⟩
          · rw [hfind] at hc'
            rw [hstep]
            exact ih1 c' hc'
          · rw [hfind] at hcon
            rw [hstep]
            exact ih2 hcon
      · by_cases hnumm : c.number = some hnum
        · have hmatch : h1CfgMatch c htext hnum = true := by
            simp [h1CfgMatch, hlev, htxt, hnumm]
          by_cases htru : truthyOpt (tGet c.translations lang) = true
          · have hfind : (c :: cs).find? (fun c => h1CfgMatch c htext hnum &&
                truthyOpt (tGet c.translations lang)) = some c := by
              simp [List.find?, hmatch, htru]
            refine ⟨fun c' hc' => ?_, fun hcon => ?_⟩
            · rw [hfind] at hc'
              have hcc : c = c' := by simpa using hc'
              subst hcc
              simp only [lookupH1Aux, if_pos hlev, if_neg htxt, if_pos hnumm,
                if_pos htru]
            · rw [hfind] at hcon
              simp at hcon
          · have hfalse : truthyOpt (tGet c.translations lang) = false :=
              Bool.eq_false_iff.mpr htru
            have hfind : (c :: cs).find? (fun c => h1CfgMatch c htext hnum &&
                truthyOpt (tGet c.translations lang)) =
                cs.find? (fun c => h1CfgMatch c htext hnum &&
                  truthyOpt (tGet c.translations lang)) := by
              simp [List.find?, hfalse]
            have hstep : lookupH1Aux lang htext hnum (c :: cs) acc =
                lookupH1Aux lang htext hnum cs (tGet c.translations lang) := by
              simp only [lookupH1Aux, if_pos hlev, if_neg htxt, if_pos hnumm,
                if_neg htru]
            obtain ⟨ih1, ih2⟩ := ih (tGet c.translations lang) hfalse
            refine ⟨fun c' hc' => ?_, fun hcon => ?_⟩
            · rw [hfind] at hc'
              rw [hstep]
              exact ih1 c' hc'
            · rw [hfind] at hcon
              rw [hstep]
              exact ih2 hcon
        · have hmatch : h1CfgMatch c htext hnum = false := by
            simp [h1CfgMatch, hlev, htxt, hnumm]
          have hfind : (c :: cs).find? (fun c => h1CfgMatch c htext hnum &&
              truthyOpt (tGet c.translations lang)) =
              cs.find? (fun c => h1CfgMatch c htext hnum &&
                truthyOpt (tGet c.translations lang)) := by
            simp [List.find?, hmatch]
          have hstep : lookupH1Aux lang htext hnum (c :: cs) acc =
              lookupH1Aux lang htext hnum cs acc := by
            simp only [lookupH1Aux, if_pos hlev, if_neg htxt, if_neg hnumm]
          obtain ⟨ih1, ih2⟩ := ih acc hacc
          refine ⟨fun c' hc' => ?_, fun hcon => ?_⟩
          · rw [hfind] at hc'
            rw [hstep]
            exact ih1 c' hc'
          · rw [hfind] at hcon
            rw [hstep]
            exact ih2 hcon
    · have hmatch : h1CfgMatch c htext hnum = false := by
        simp [h1CfgMatch, hlev]
      have hfind : (c :: cs).find? (fun c => h1CfgMatch c htext hnum &&
          truthyOpt (tGet c.translations lang)) =
          cs.find? (fun c => h1CfgMatch c htext hnum &&
            truthyOpt (tGet c.translations lang)) := by
        simp [List.find?, hmatch]
      have hstep : lookupH1Aux lang htext hnum (c :: cs) acc =
          lookupH1Aux lang htext hnum cs acc := by
        simp only [lookupH1Aux, if_neg hlev]
      obtain ⟨ih1, ih2⟩ := ih acc hacc
      refine ⟨fun c' hc' => ?_, fun hcon => ?_⟩
      · rw [hfind] at hc'
        rw [hstep]
        exact ih1 c' hc'
      · rw [hfind] at hcon
        rw [hstep]
        exact ih2 hcon

theorem lookupH2Aux_first (lang htext : Txt) (h1num h2num : Nat) :
    ∀ (cfgs : List HeaderCfg) (acc : Option Txt), truthyOpt acc = false →
      (∀ c, cfgs.find? (fun c => h2CfgMatch c htext h1num h2num &&
          truthyOpt (tGet c.translations lang)) = some c →
        lookupH2Aux lang htext h1num h2num cfgs acc = tGet c.translations lang) ∧
      (cfgs.find? (fun c => h2CfgMatch c htext h1num h2num &&
          truthyOpt (tGet c.translations lang)) = none →
        truthyOpt (lookupH2Aux lang htext h1num h2num cfgs acc) = false) := by
  intro cfgs
  induction cfgs with
  | nil =>
    intro acc hacc
    refine ⟨fun c h => ?_, fun _ => hacc⟩
    simp at h
  | cons c cs ih =>
    intro acc hacc
    by_cases hlev : c.level = some 2
    · by_cases htxt : c.text = some htext
      · have hmatch : h2CfgMatch c htext h1num h2num = true := by
          simp [h2CfgMatch, hlev, htxt]
        by_cases htru : truthyOpt (tGet c.translations lang) = true
        · have hfind : (c :: cs).find? (fun c => h2CfgMatch c htext h1num h2num &&
              truthyOpt (tGet c.translations lang)) = some c := by
            simp [List.find?, hmatch, htru]
          refine ⟨fun c' hc' => ?_, fun hcon => ?_⟩
          · rw [hfind] at hc'
            have hcc : c = c' := by simpa using hc'
            subst hcc
            simp only [lookupH2Aux, if_pos hlev, if_pos htxt, if_pos htru]
          · rw [hfind] at hcon
            simp at hcon
        · have hfalse : truthyOpt (tGet c.translations lang) = false :=
            Bool.eq_false_iff.mpr htru
          have hfind : (c :: cs).find? (fun c => h2CfgMatch c htext h1num h2num &&
              truthyOpt (tGet c.translations lang)) =
              cs.find? (fun c => h2CfgMatch c htext h1num h2num &&
                truthyOpt (tGet c.translations lang)) := by
            simp [List.find?, hfalse]
          have hstep : lookupH2Aux lang htext h1num h2num (c :: cs) acc =
              lookupH2Aux lang htext h1num h2num cs (tGet c.translations lang) := by
            simp only [lookupH2Aux, if_pos hlev, if_pos htxt, if_neg htru]
          obtain ⟨ih1, ih2⟩ := ih (tGet c.translations lang) hfalse
          refine ⟨fun c' hc' => ?_, fun hcon => ?_⟩
          · rw [hfind] at hc'
            rw [hstep]
            exact ih1 c' hc'
          · rw [hfind] at hcon
            rw [hstep]
            exact ih2 hcon
      · by_cases hord : c.parentH1Number = some h1num ∧ c.number = some h2num
        · have hmatch : h2CfgMatch c htext h1num h2num = true := by
            simp [h2CfgMatch, hlev, htxt, hord.1, hord.2]
          by_cases htru : truthyOpt (tGet c.translations lang) = true
          · have hfind : (c :: cs).find? (fun c => h2CfgMatch c htext h1num h2num &&
                truthyOpt (tGet c.translations lang)) = some c := by
              simp [List.find?, hmatch, htru]
            refine ⟨fun c' hc' => ?_, fun hcon => ?_⟩
            · rw [hfind] at hc'
              have hcc : c = c' := by simpa using hc'
              subst hcc
              simp only [lookupH2Aux, if_pos hlev, if_neg htxt, if_pos hord,
                if_pos htru]
            · rw [hfind] at hcon
              simp at hcon
          · have hfalse : truthyOpt (tGet c.translations lang) = false :=
              Bool.eq_false_iff.mpr htru
            have hfind : (c :: cs).find? (fun c => h2CfgMatch c htext h1num h2num &&
                truthyOpt (tGet c.translations lang)) =
                cs.find? (fun c => h2CfgMatch c htext h1num h2num &&
                  truthyOpt (tGet c.translations lang)) := by
              simp [List.find?, hfalse]
            have hstep : lookupH2Aux lang htext h1num h2num (c :: cs) acc =
                lookupH2Aux lang htext h1num h2num cs (tGet c.translations lang) := by
              simp only [lookupH2Aux, if_pos hlev, if_neg htxt, if_pos hord,
                if_neg htru]
            obtain ⟨ih1, ih2⟩ := ih (tGet c.translations lang) hfalse
            refine ⟨fun c' hc' => ?_, fun hcon => ?_⟩
            · rw [hfind] at hc'
              rw [hstep]
              exact ih1 c' hc'
            · rw [hfind] at hcon
              rw [hstep]
              exact ih2 hcon
        · have hmatch : h2CfgMatch c htext h1num h2num = false := by
            simp [h2CfgMatch, hlev, htxt, hord]
          have hfind : (c :: cs).find? (fun c => h2CfgMatch c htext h1num h2num &&
              truthyOpt (tGet c.translations lang)) =
              cs.find? (fun c => h2CfgMatch c htext h1num h2num &&
                truthyOpt (tGet c.translations lang)) := by
            simp [List.find?, hmatch]
          have hstep : lookupH2Aux lang htext h1num h2num (c :: cs) acc =
              lookupH2Aux lang htext h1num h2num cs acc := by
            simp only [lookupH2Aux, if_pos hlev, if_neg htxt, if_neg hord]
          obtain ⟨ih1, ih2⟩ := ih acc hacc
          refine ⟨fun c' hc' => ?_, fun hcon => ?_⟩
          · rw [hfind] at hc'
            rw [hstep]
            exact ih1 c' hc'
          · rw [hfind] at hcon
            rw [hstep]
            exact ih2 hcon
    · have hmatch : h2CfgMatch c htext h1num h2num = false := by
        simp [h2CfgMatch, hlev]
      have hfind : (c :: cs).find? (fun c => h2CfgMatch c htext h1num h2num &&
          truthyOpt (tGet c.translations lang)) =
          cs.find? (fun c => h2CfgMatch c htext h1num h2num &&
            truthyOpt (tGet c.translations lang)) := by
        simp [List.find?, hmatch]
      have hstep : lookupH2Aux lang htext h1num h2num (c :: cs) acc =
          lookupH2Aux lang htext h1num h2num cs acc := by
        simp only [lookupH2Aux, if_neg hlev]
      obtain ⟨ih1, ih2⟩ := ih acc hacc
      refine ⟨fun c' hc' => ?_, fun hcon => ?_⟩
      · rw [hfind] at hc'
        rw [hstep]
        exact ih1 c' hc'
      · rw [hfind] at hcon
        rw [hstep]
        exact ih2 hcon

/-- C8 (counterexample): with a configuration list whose first entry
matches the heading by ordinal and whose second, different entry matches
it by literal text, the substituted translation comes from the
ordinal-matching entry ("AAA"), not the literal-text entry ("BBB") —
list order, not literal-text priority, decides. -/
theorem C8_counterexample :
    processHeaders
      [⟨some 1, none, some 1, none, [(lit "de", lit "AAA")]⟩,
       ⟨some 1, some (lit "# Hello"), none, none, [(lit "de", lit "BBB")]⟩]
      (lit "de") [lit "# Hello"] = [lit "AAA"] ∧
    (lit "AAA" : Txt) ≠ lit "BBB" := by
  refine ⟨by decide, by decide⟩

/-- C8 (amended): the manual-translation lookups of `translate_blocks`,
for level-1 and level-2 headings alike, return the translation of the
*first* configuration entry in list order whose level matches, which
matches the heading (by literal text, or — when its text does not match
— by ordinal, the parent-h1 ordinal together with the own ordinal in the
level-2 case) and which carries a non-empty translation for the target
language; when no such entry exists the final lookup value is falsy and
no substitution happens.  (Within a single entry the literal-text test
is checked before the ordinal test, but across entries list order
wins.) -/
theorem C8_lookup_first_match (cfgs : List HeaderCfg) (lang htext : Txt)
    (h1num h1pn h2num : Nat) :
    ((∀ c, cfgs.find? (fun c => h1CfgMatch c htext h1num &&
        truthyOpt (tGet c.translations lang)) = some c →
      lookupH1 cfgs lang htext h1num = tGet c.translations lang) ∧
     (cfgs.find? (fun c => h1CfgMatch c htext h1num &&
        truthyOpt (tGet c.translations lang)) = none →
      truthyOpt (lookupH1 cfgs lang htext h1num) = false)) ∧
    ((∀ c, cfgs.find? (fun c => h2CfgMatch c htext h1pn h2num &&
        truthyOpt (tGet c.translations lang)) = some c →
      lookupH2 cfgs lang htext h1pn h2num = tGet c.translations lang) ∧
     (cfgs.find? (fun c => h2CfgMatch c htext h1pn h2num &&
        truthyOpt (tGet c.translations lang)) = none →
      truthyOpt (lookupH2 cfgs lang htext h1pn h2num) = false)) :=
  ⟨lookupH1Aux_first lang htext h1num cfgs none rfl,
   lookupH2Aux_first lang htext h1pn h2num cfgs none rfl⟩

/-- Witness for `C8_lookup_first_match` at a concrete configuration,
exercising both the level-1 and the level-2 lookup. -/
theorem C8_witness :
    lookupH1
      [⟨some 1, none, some 1, none, [(lit "de", lit "AAA")]⟩,
       ⟨some 1, some (lit "# Hello"), none, none, [(lit "de", lit "BBB")]⟩,
       ⟨some 2, none, some 2, some 1, [(lit "de", lit "CCC")]⟩]
      (lit "de") (lit "# Hello") 1 = some (lit "AAA") ∧
    lookupH2
      [⟨some 1, none, some 1, none, [(lit "de", lit "AAA")]⟩,
       ⟨some 1, some (lit "# Hello"), none, none, [(lit "de", lit "BBB")]⟩,
       ⟨some 2, none, some 2, some 1, [(lit "de", lit "CCC")]⟩]
      (lit "de") (lit "## World") 1 2 = some (lit "CCC") := by
  constructor
  · have h := (C8_lookup_first_match
      [⟨some 1, none, some 1, none, [(lit "de", lit "AAA")]⟩,
       ⟨some 1, some (lit "# Hello"), none, none, [(lit "de", lit "BBB")]⟩,
       ⟨some 2, none, some 2, some 1, [(lit "de", lit "CCC")]⟩]
      (lit "de") (lit "# Hello") 1 1 2).1.1
      ⟨some 1, none, some 1, none, [(lit "de", lit "AAA")]⟩ (by decide)
    rw [h]
    decide
  · have h := (C8_lookup_first_match
      [⟨some 1, none, some 1, none, [(lit "de", lit "AAA")]⟩,
       ⟨some 1, some (lit "# Hello"), none, none, [(lit "de", lit "BBB")]⟩,
       ⟨some 2, none, some 2, some 1, [(lit "de", lit "CCC")]⟩]
      (lit "de") (lit "## World") 1 1 2).2.1
      ⟨some 2, none, some 2, some 1, [(lit "de", lit "CCC")]⟩ (by decide)
    rw [h]
    decide



/-! ### C9: output path resolution -/

theorem splitChar_sep (sep : Char) (v : Txt) :
    splitChar sep (sep :: v) = [] :: splitChar sep v := by
  simp [splitChar]

theorem splitChar_append_sep (sep : Char) (u v : Txt) (hu : sep ∉ u) :
    splitChar sep (u ++ sep :: v) = u :: splitChar sep v := by
  induction u with
  | nil => simp [splitChar]
  | cons c u' ihu =>
    have hc : c ≠ sep := fun h => hu (h ▸ List.mem_cons_self c u')
    have hu' : sep ∉ u' := fun h => hu (List.mem_cons_of_mem c h)
    have hrec : splitChar sep (u' ++ sep :: v) = u' :: splitChar sep v := ihu hu'
    simp [splitChar, hc, hrec]

theorem langCodeOf_suffixFor (l : Txt) (hl : '.' ∉ l) :
    langCodeOf (suffixFor l) = l := by
  have hsplit : splitChar '.' (suffixFor l) = [] :: l :: splitChar '.' (lit "md") := by
    show splitChar '.' ('.' :: (l ++ ('.' :: lit "md"))) = _
    rw [splitChar_sep, splitChar_append_sep '.' l (lit "md") hl]
  have hmem : ('.' : Char) ∈ suffixFor l := List.mem_cons_self _ _
  unfold langCodeOf
  rw [if_pos hmem, hsplit]
  rfl

/-- C9: in this embedding `build_translation_path` is a total function whose
result depends only on its path and suffix arguments (matching the Python,
where the returned path is computed purely from `path` and `suffix`; the
`mkdir` call only creates directories and does not affect the returned value).
For a path under the docs root it re-roots the file as
`docs/<lang>/<relative path>`, so two distinct dot-free language codes always
yield distinct output paths for the same input path. -/
theorem C9_path_resolution (p : List Txt) (l1 l2 : Txt) (hp : docsRoot <+: p)
    (h1 : '.' ∉ l1) (h2 : '.' ∉ l2) (hne : l1 ≠ l2) :
    build_translation_path p (suffixFor l1) =
      docsRoot ++ l1 :: p.drop docsRoot.length ∧
    build_translation_path p (suffixFor l1) ≠
      build_translation_path p (suffixFor l2) := by
  have e : ∀ l, '.' ∉ l → build_translation_path p (suffixFor l) =
      docsRoot ++ l :: p.drop docsRoot.length := by
    intro l hl
    simp only [build_translation_path]
    rw [langCodeOf_suffixFor l hl, if_pos hp]
  refine ⟨e l1 h1, ?_⟩
  rw [e l1 h1, e l2 h2]
  intro h
  have h' := List.append_cancel_left h
  simp only [List.cons.injEq] at h'
  exact hne h'.1

/-- C9 witness: `docs/sub/page.md` with languages `ru` and `de`. -/
theorem C9_witness :
    build_translation_path [lit "docs", lit "sub", lit "page.md"]
      (suffixFor (lit "ru")) =
      docsRoot ++ lit "ru" :: [lit "sub", lit "page.md"] ∧
    build_translation_path [lit "docs", lit "sub", lit "page.md"]
      (suffixFor (lit "ru")) ≠
    build_translation_path [lit "docs", lit "sub", lit "page.md"]
      (suffixFor (lit "de")) :=
  C9_path_resolution [lit "docs", lit "sub", lit "page.md"] (lit "ru") (lit "de")
    (by decide) (by decide) (by decide) (by decide)

/-! ### C6: the separator row is never modified -/

theorem not_header_of_table (l : Txt) (ht : is_table_line l = true) :
    isH1L l = false ∧ isH2L l = false := by
  unfold is_table_line at ht
  simp only [Bool.and_eq_true, decide_eq_true_eq] at ht
  obtain ⟨⟨hp, -⟩, -⟩ := ht
  obtain ⟨t, hteq⟩ := hp
  have hcons : pyStrip l = '|' :: t := by rw [← hteq]; rfl
  constructor
  · simp only [isH1L, decide_eq_false_iff_not]
    rw [hcons]
    intro hpre
    obtain ⟨u, hu⟩ := hpre
    injection hu with h1 _
    exact absurd h1 (by decide)
  · simp only [isH2L, decide_eq_false_iff_not]
    rw [hcons]
    intro hpre
    obtain ⟨u, hu⟩ := hpre
    injection hu with h1 _
    exact absurd h1 (by decide)

theorem getD_foldl_range_inv (f : List Txt → Nat → List Txt) (j : Nat) :
    ∀ (n : Nat) (pl : List Txt),
      (∀ acc k, k < n → acc.getD j [] = pl.getD j [] →
        (f acc k).getD j [] = acc.getD j []) →
      ((List.range n).foldl f pl).getD j [] = pl.getD j [] := by
  intro n
  induction n with
  | zero => intro pl _; rfl
  | succ n ih =>
    intro pl hf
    rw [List.range_succ, List.foldl_append, List.foldl_cons, List.foldl_nil]
    have hn := ih pl (fun acc k hk h => hf acc k (by omega) h)
    rw [hf _ n (Nat.lt_succ_self n) hn, hn]

theorem applyTableCfg_getD_outside (cfg : TableCfg) (s t : Nat) (pl : List Txt)
    (j : Nat) (hj : j < s ∨ t ≤ j) :
    (applyTableCfg cfg s t pl).getD j [] = pl.getD j [] := by
  have hne : ∀ k, k < t - s → s + k ≠ j := by intro k hk; omega
  unfold applyTableCfg
  by_cases hex : cfg.excludeTable = true
  · rw [if_pos hex]
    apply getD_foldl_range_inv
    intro acc k hk _
    show (acc.set (s + k)
      (lit "__EXCLUDE_TABLE_LINE_" ++ lit (toString (s + k)) ++ lit "__")).getD j [] =
      acc.getD j []
    exact getD_set_ne_txt acc (s + k) j _ (hne k hk)
  · rw [if_neg hex]
    by_cases hec : cfg.excludeColumns ≠ []
    · rw [if_pos hec]
      apply getD_foldl_range_inv
      intro acc k hk _
      show (if s + k = s + 1 ∧ sepCheck (acc.getD (s + k) []) then acc
          else if s + k = s then
            (if cfg.excludeHeader then
              acc.set (s + k) (lit "__EXCLUDE_HEADER__" ++
                process_table_line (acc.getD (s + k) []) cfg.excludeColumns ++
                lit "__EXCLUDE_HEADER__")
            else
              acc.set (s + k) (lit "__TRANSLATE_HEADER__" ++
                process_table_line (acc.getD (s + k) []) cfg.excludeColumns ++
                lit "__TRANSLATE_HEADER__"))
          else acc.set (s + k)
            (process_table_line (acc.getD (s + k) []) cfg.excludeColumns)).getD j [] =
        acc.getD j []
      by_cases h1 : s + k = s + 1 ∧ sepCheck (acc.getD (s + k) [])
      · rw [if_pos h1]
      · rw [if_neg h1]
        by_cases h2 : s + k = s
        · rw [if_pos h2]
          by_cases h3 : cfg.excludeHeader = true
          · rw [if_pos h3]
            exact getD_set_ne_txt acc (s + k) j _ (hne k hk)
          · rw [if_neg h3]
            exact getD_set_ne_txt acc (s + k) j _ (hne k hk)
        · rw [if_neg h2]
          exact getD_set_ne_txt acc (s + k) j _ (hne k hk)
    · rw [if_neg hec]

theorem applyTableCfg_sep (cfg : TableCfg) (s t : Nat) (pl : List Txt)
    (hntb : cfg.excludeTable = false)
    (hsep : sepCheck (pl.getD (s + 1) []) = true) :
    (applyTableCfg cfg s t pl).getD (s + 1) [] = pl.getD (s + 1) [] := by
  unfold applyTableCfg
  rw [if_neg (by simp [hntb])]
  by_cases hec : cfg.excludeColumns ≠ []
  · rw [if_pos hec]
    apply getD_foldl_range_inv
    intro acc k hk hinv
    show (if s + k = s + 1 ∧ sepCheck (acc.getD (s + k) []) then acc
        else if s + k = s then
          (if cfg.excludeHeader then
            acc.set (s + k) (lit "__EXCLUDE_HEADER__" ++
              process_table_line (acc.getD (s + k) []) cfg.excludeColumns ++
              lit "__EXCLUDE_HEADER__")
          else
            acc.set (s + k) (lit "__TRANSLATE_HEADER__" ++
              process_table_line (acc.getD (s + k) []) cfg.excludeColumns ++
              lit "__TRANSLATE_HEADER__"))
        else acc.set (s + k)
          (process_table_line (acc.getD (s + k) []) cfg.excludeColumns)).getD (s + 1) [] =
      acc.getD (s + 1) []
    by_cases hk1 : k = 1
    · subst hk1
      have hcond : s + 1 = s + 1 ∧ sepCheck (acc.getD (s + 1) []) :=
        ⟨rfl, by rw [hinv]; exact hsep⟩
      rw [if_pos hcond]
    · have hne : s + k ≠ s + 1 := by omega
      rw [if_neg (fun h => hne h.1)]
      by_cases h2 : s + k = s
      · rw [if_pos h2]
        by_cases h3 : cfg.excludeHeader = true
        · rw [if_pos h3]
          exact getD_set_ne_txt acc (s + k) (s + 1) _ hne
        · rw [if_neg h3]
          exact getD_set_ne_txt acc (s + k) (s + 1) _ hne
      · rw [if_neg h2]
        exact getD_set_ne_txt acc (s + k) (s + 1) _ hne
  · rw [if_neg hec]

theorem resolveTableCfg_mem (tcfgs : List TableCfg) (lines0 : List Txt)
    (tnum start : Nat) (c : TableCfg)
    (h : resolveTableCfg tcfgs lines0 tnum start = some c) : c ∈ tcfgs := by
  unfold resolveTableCfg at h
  cases hph : preceding_header lines0 start with
  | none =>
    rw [hph] at h
    exact List.mem_of_find?_eq_some h
  | some hd =>
    rw [hph] at h
    have h2 : (match get_table_config_by_header tcfgs hd with
        | some c => some c
        | none => get_table_config_by_number tcfgs tnum) = some c := h
    cases hgh : get_table_config_by_header tcfgs hd with
    | some c' =>
      rw [hgh] at h2
      cases h2
      exact List.mem_of_find?_eq_some hgh
    | none =>
      rw [hgh] at h2
      exact List.mem_of_find?_eq_some h2

theorem ptFold_sep (tcfgs : List TableCfg) (lines : List Txt) (start : Nat)
    (hc : ∀ r ∈ find_table_ranges lines,
      r.1 ≤ start + 1 → start + 1 < r.2 → r.1 = start)
    (hntb : ∀ c ∈ tcfgs, c.excludeTable = false)
    (hsep : sepCheck (lines.getD (start + 1) []) = true) :
    ∀ (rs : List (Nat × Nat × Nat)) (pl : List Txt),
      (∀ nr ∈ rs, nr.2 ∈ find_table_ranges lines) →
      pl.getD (start + 1) [] = lines.getD (start + 1) [] →
      (rs.foldl (fun acc nr =>
        match resolveTableCfg tcfgs lines (nr.1 + 1) nr.2.1 with
        | some c => applyTableCfg c nr.2.1 nr.2.2 acc
        | none => acc) pl).getD (start + 1) [] = lines.getD (start + 1) [] := by
  intro rs
  induction rs with
  | nil => intro pl _ hinv; exact hinv
  | cons nr rs' ih =>
    intro pl hmem hinv
    rw [List.foldl_cons]
    apply ih _ (fun nr' hnr' => hmem nr' (List.mem_cons_of_mem nr hnr'))
    cases hres : resolveTableCfg tcfgs lines (nr.1 + 1) nr.2.1 with
    | none => exact hinv
    | some c =>
      have hcf : c.excludeTable = false :=
        hntb c (resolveTableCfg_mem tcfgs lines (nr.1 + 1) nr.2.1 c hres)
      have hr : nr.2 ∈ find_table_ranges lines := hmem nr (List.mem_cons_self nr rs')
      by_cases hin : nr.2.1 ≤ start + 1 ∧ start + 1 < nr.2.2
      · have h1 : nr.2.1 = start := hc nr.2 hr hin.1 hin.2
        rw [h1]
        rw [applyTableCfg_sep c start nr.2.2 pl hcf (by rw [hinv]; exact hsep)]
        exact hinv
      · have hout : start + 1 < nr.2.1 ∨ nr.2.2 ≤ start + 1 := by omega
        rw [applyTableCfg_getD_outside c nr.2.1 nr.2.2 pl (start + 1) hout]
        exact hinv

/-- C6: for a detected table whose configurations never exclude whole
tables (the column-exclusion regime), the separator row — the second row
of the region, composed only of dash/colon/pipe/space characters — passes
through the whole preprocessing stage of `translate_blocks` (manual header
substitution followed by table marking) unchanged, for every column-exclusion
policy, including every non-empty `exclude_columns` set. -/
theorem C6_separator_row_frame (tcfgs : List TableCfg) (hcfgs : List HeaderCfg)
    (lang : Txt) (lines : List Txt) (start e : Nat)
    (hmem : (start, e) ∈ find_table_ranges lines)
    (hntb : ∀ c ∈ tcfgs, c.excludeTable = false)
    (hsep : (pyStrip (lines.getD (start + 1) [])).all
      (fun c => c = '-' || c = ':' || c = '|' || c = ' ') = true) :
    (preprocessBlocks tcfgs hcfgs lang lines).getD (start + 1) [] =
      lines.getD (start + 1) [] := by
  have hspec := ftrAux_spec lines.length lines 0 le_rfl
  have hfacts := hspec.2 (start, e) hmem
  have he2 : start + 2 ≤ e := hfacts.2.1
  have htab : is_table_line (lines.getD (start + 1) []) = true := by
    have h := hfacts.2.2.2 (start + 1) (by omega) (by omega)
    simpa using h
  have hsepB : sepCheck (lines.getD (start + 1) []) = true := by
    unfold sepCheck
    rw [hsep, Bool.or_true]
  obtain ⟨hnh1, hnh2⟩ := not_header_of_table _ htab
  have hph : (processHeaders hcfgs lang lines).getD (start + 1) [] =
      lines.getD (start + 1) [] := by
    obtain ⟨hs1, hs2, -⟩ := fhwn_characterization lines
    have h1cond : ∀ p ∈ (find_headers_with_numbers lines).1, p.2.1 ≠ start + 1 := by
      intro p hp hpe
      have hspec1 := (hs1 p.1 p.2.1 p.2.2).mp (by simpa using hp)
      rw [hpe] at hspec1
      rw [hspec1.2.1] at hnh1
      simp at hnh1
    have h2cond : ∀ kv ∈ (find_headers_with_numbers lines).2,
        ∀ p ∈ kv.2, p.2.1 ≠ start + 1 := by
      intro kv hkv p hp hpe
      have hspec2 := hs2 kv.1 kv.2 p.1 p.2.1 p.2.2 (by simpa using hkv)
        (by simpa using hp)
      rw [hpe] at hspec2
      rw [hspec2.2.1] at hnh2
      simp at hnh2
    show (applyH2 hcfgs lang (find_headers_with_numbers lines).2
      (applyH1 hcfgs lang (find_headers_with_numbers lines).1 lines)).getD
        (start + 1) [] = lines.getD (start + 1) []
    rw [applyH2_getD hcfgs lang _ _ (start + 1) h2cond,
      applyH1_getD hcfgs lang _ _ (start + 1) h1cond]
  have hc : ∀ r ∈ find_table_ranges lines,
      r.1 ≤ start + 1 → start + 1 < r.2 → r.1 = start := by
    intro r hr hle hlt
    obtain ⟨p, hp⟩ := List.mem_iff_get.mp hmem
    obtain ⟨q, hq⟩ := List.mem_iff_get.mp hr
    have hpw : ∀ (i j : Fin (find_table_ranges lines).length), i < j →
        ((find_table_ranges lines).get i).2 ≤ ((find_table_ranges lines).get j).1 :=
      List.pairwise_iff_get.mp hspec.1
    obtain ⟨-, hr2, -, -⟩ := hspec.2 r hr
    rcases lt_trichotomy p q with hpq | hpq | hpq
    · have hrel := hpw p q hpq
      rw [hp, hq] at hrel
      have hrel2 : e ≤ r.1 := hrel
      omega
    · rw [hpq, hq] at hp
      rw [hp]
    · have hrel := hpw q p hpq
      rw [hp, hq] at hrel
      have hrel2 : r.2 ≤ start := hrel
      omega
  show (processTables tcfgs lines (processHeaders hcfgs lang lines)).getD
    (start + 1) [] = lines.getD (start + 1) []
  unfold processTables
  apply ptFold_sep tcfgs lines start hc hntb hsepB
  · intro nr hnr
    have hget := List.mem_enum_iff_get?.mp hnr
    exact List.get?_mem hget
  · exact hph

/-- Witness for `C6_separator_row_frame` on a three-row table with
`exclude_columns = [2]`. -/
theorem C6_witness :
    (preprocessBlocks
      [⟨none, some 1, false, [2], false⟩] [] (lit "ru")
      [lit "| a | b |", lit "| --- | --- |", lit "| c | d |"]).getD (0 + 1) [] =
      [lit "| a | b |", lit "| --- | --- |", lit "| c | d |"].getD (0 + 1) [] :=
  C6_separator_row_frame [⟨none, some 1, false, [2], false⟩] [] (lit "ru")
    [lit "| a | b |", lit "| --- | --- |", lit "| c | d |"] 0 3
    (by decide) (by decide) (by decide)

/-! ### C5: the exclude-column scanners on a decomposed row -/

theorem scanClose_clean (ctail : Txt) :
    ∀ (c2 t : Txt), '_' ∉ c2 → '\n' ∉ c2 →
      scanClose ('_' :: ctail) (c2 ++ ('_' :: ctail) ++ t) = some (c2, t) := by
  intro c2
  induction c2 with
  | nil =>
    intro t _ _
    show scanClose ('_' :: ctail) (('_' :: ctail) ++ t) = some ([], t)
    rw [List.cons_append]
    unfold scanClose
    rw [if_pos (show ('_' :: ctail) <+: '_' :: (ctail ++ t) from ⟨t, by simp⟩)]
    have hd : ('_' :: (ctail ++ t)).drop ('_' :: ctail).length = t := by
      rw [← List.cons_append]
      exact List.drop_left _ _
    rw [hd]
  | cons x c2' ih =>
    intro t hun hnl
    have hx : x ≠ '_' := fun h => hun (h ▸ List.mem_cons_self x c2')
    have hxn : ¬ x = '\n' := fun h => hnl (h ▸ List.mem_cons_self x c2')
    show scanClose ('_' :: ctail) (x :: (c2' ++ ('_' :: ctail) ++ t)) =
      some (x :: c2', t)
    unfold scanClose
    rw [if_neg (not_prefix_cons_of_head_ne (fun h => hx h.symm)), if_neg hxn,
      ih t (fun h => hun (List.mem_cons_of_mem x h))
        (fun h => hnl (List.mem_cons_of_mem x h))]

theorem parseExCol_nil : parseExCol [] = none := by
  unfold parseExCol
  rw [if_neg (by decide)]

theorem parseExCol_cons_ne (x : Char) (s : Txt) (hx : x ≠ '_') :
    parseExCol (x :: s) = none := by
  have hm : excludeColMark = '_' :: (lit "_EXCLUDE_COL_") := by decide
  unfold parseExCol
  rw [hm, if_neg (not_prefix_cons_of_head_ne (fun h => hx h.symm))]

theorem parseExCol_at (c2 t : Txt) (hun : '_' ∉ c2) (hnl : '\n' ∉ c2) :
    parseExCol (lit "__EXCLUDE_COL_2__" ++ (c2 ++ (lit "__EXCLUDE_COL_2__" ++ t))) =
      some (lit "__EXCLUDE_COL_2__" ++ (c2 ++ lit "__EXCLUDE_COL_2__"), c2, t) := by
  have hsc := scanClose_clean (lit "_EXCLUDE_COL_2__") c2 t hun hnl
  have ecl : ('_' :: lit "_EXCLUDE_COL_2__" : Txt) =
      excludeColMark ++ ('2' :: []) ++ ('_' :: '_' :: []) := by decide
  rw [ecl] at hsc
  simp only [List.append_assoc, List.cons_append, List.nil_append] at hsc
  have e0 : (lit "__EXCLUDE_COL_2__" : Txt) =
      excludeColMark ++ ('2' :: '_' :: '_' :: []) := by decide
  have h2u : (lit "__" : Txt) = '_' :: '_' :: [] := by decide
  rw [e0]
  simp only [List.append_assoc, List.cons_append, List.nil_append]
  unfold parseExCol
  rw [if_pos (List.prefix_append _ _)]
  simp only [List.drop_left, h2u]
  rw [List.takeWhile_cons_of_pos (by decide : Char.isDigit '2' = true),
    List.takeWhile_cons_of_neg (by decide : ¬ Char.isDigit '_' = true)]
  rw [if_neg (by simp : ¬ ('2' :: ([] : Txt)) = [])]
  rw [show ('2' :: '_' :: '_' :: (c2 ++ (excludeColMark ++ '2' :: '_' :: '_' :: t))).drop
      ('2' :: ([] : Txt)).length =
      '_' :: '_' :: (c2 ++ (excludeColMark ++ '2' :: '_' :: '_' :: t)) from rfl]
  rw [if_pos (show ('_' :: '_' :: [] : Txt) <+:
    '_' :: '_' :: (c2 ++ (excludeColMark ++ '2' :: '_' :: '_' :: t)) from
      ⟨c2 ++ (excludeColMark ++ '2' :: '_' :: '_' :: t), rfl⟩)]
  rw [show ('_' :: '_' :: (c2 ++ (excludeColMark ++ '2' :: '_' :: '_' :: t))).drop 2 =
    c2 ++ (excludeColMark ++ '2' :: '_' :: '_' :: t) from rfl]
  simp only [List.append_assoc, List.cons_append, List.nil_append]
  rw [hsc]

theorem exMatchesF_step (f : Nat) (x : Char) (s : Txt) (hx : x ≠ '_') :
    exMatchesF (f + 1) (x :: s) = exMatchesF f s := by
  simp only [exMatchesF, parseExCol_cons_ne x s hx]

theorem exSubF_step (f : Nat) (x : Char) (s : Txt) (hx : x ≠ '_') :
    exSubF (f + 1) (x :: s) = x :: exSubF f s := by
  simp only [exSubF, parseExCol_cons_ne x s hx]

theorem exProtectF_step (f j : Nat) (x : Char) (s : Txt) (hx : x ≠ '_') :
    exProtectF (f + 1) j (x :: s) =
      (x :: (exProtectF f j s).1, (exProtectF f j s).2) := by
  simp only [exProtectF, parseExCol_cons_ne x s hx]

theorem exMatchesF_skip (s : Txt) :
    ∀ (u : Txt) (f : Nat), '_' ∉ u →
      exMatchesF (u.length + f) (u ++ s) = exMatchesF f s := by
  intro u
  induction u with
  | nil => intro f _; simp
  | cons x u' ih =>
    intro f hu
    have hx : x ≠ '_' := fun h => hu (h ▸ List.mem_cons_self x u')
    have hlen : (x :: u').length + f = u'.length + f + 1 := by
      simp [Nat.add_right_comm]
    rw [hlen]
    show exMatchesF (u'.length + f + 1) (x :: (u' ++ s)) = exMatchesF f s
    rw [exMatchesF_step _ x _ hx, ih f (fun h => hu (List.mem_cons_of_mem x h))]

theorem exSubF_skip (s : Txt) :
    ∀ (u : Txt) (f : Nat), '_' ∉ u →
      exSubF (u.length + f) (u ++ s) = u ++ exSubF f s := by
  intro u
  induction u with
  | nil => intro f _; simp
  | cons x u' ih =>
    intro f hu
    have hx : x ≠ '_' := fun h => hu (h ▸ List.mem_cons_self x u')
    have hlen : (x :: u').length + f = u'.length + f + 1 := by
      simp [Nat.add_right_comm]
    rw [hlen]
    show exSubF (u'.length + f + 1) (x :: (u' ++ s)) = (x :: u') ++ exSubF f s
    rw [exSubF_step _ x _ hx, ih f (fun h => hu (List.mem_cons_of_mem x h))]
    rfl

theorem exProtectF_skip (s : Txt) :
    ∀ (u : Txt) (f j : Nat), '_' ∉ u →
      exProtectF (u.length + f) j (u ++ s) =
        (u ++ (exProtectF f j s).1, (exProtectF f j s).2) := by
  intro u
  induction u with
  | nil => intro f j _; simp
  | cons x u' ih =>
    intro f j hu
    have hx : x ≠ '_' := fun h => hu (h ▸ List.mem_cons_self x u')
    have hlen : (x :: u').length + f = u'.length + f + 1 := by
      simp [Nat.add_right_comm]
    rw [hlen]
    show exProtectF (u'.length + f + 1) j (x :: (u' ++ s)) =
      ((x :: u') ++ (exProtectF f j s).1, (exProtectF f j s).2)
    rw [exProtectF_step _ j x _ hx, ih f j (fun h => hu (List.mem_cons_of_mem x h))]
    rfl

theorem exMatchesF_clean :
    ∀ (f : Nat) (v : Txt), '_' ∉ v → exMatchesF f v = [] := by
  intro f
  induction f with
  | zero => intro v _; rfl
  | succ f ih =>
    intro v hv
    cases v with
    | nil => simp [exMatchesF, parseExCol_nil]
    | cons x v' =>
      have hx : x ≠ '_' := fun h => hv (h ▸ List.mem_cons_self x v')
      rw [exMatchesF_step f x v' hx]
      exact ih v' (fun h => hv (List.mem_cons_of_mem x h))

theorem exSubF_clean :
    ∀ (f : Nat) (v : Txt), '_' ∉ v → exSubF f v = v := by
  intro f
  induction f with
  | zero => intro v _; rfl
  | succ f ih =>
    intro v hv
    cases v with
    | nil => simp [exSubF, parseExCol_nil]
    | cons x v' =>
      have hx : x ≠ '_' := fun h => hv (h ▸ List.mem_cons_self x v')
      rw [exSubF_step f x v' hx]
      rw [ih v' (fun h => hv (List.mem_cons_of_mem x h))]

theorem exProtectF_clean :
    ∀ (f : Nat) (v : Txt) (j : Nat), '_' ∉ v → exProtectF f j v = (v, []) := by
  intro f
  induction f with
  | zero => intro v j _; rfl
  | succ f ih =>
    intro v j hv
    cases v with
    | nil => simp [exProtectF, parseExCol_nil]
    | cons x v' =>
      have hx : x ≠ '_' := fun h => hv (h ▸ List.mem_cons_self x v')
      rw [exProtectF_step f j x v' hx]
      rw [ih v' j (fun h => hv (List.mem_cons_of_mem x h))]

theorem exMatchesF_at (f : Nat) (c2 t : Txt) (hun : '_' ∉ c2) (hnl : '\n' ∉ c2) :
    exMatchesF (f + 1) (lit "__EXCLUDE_COL_2__" ++ (c2 ++ (lit "__EXCLUDE_COL_2__" ++ t))) =
      (lit "__EXCLUDE_COL_2__" ++ (c2 ++ lit "__EXCLUDE_COL_2__"), c2) ::
        exMatchesF f t := by
  simp only [exMatchesF, parseExCol_at c2 t hun hnl]

theorem exSubF_at (f : Nat) (c2 t : Txt) (hun : '_' ∉ c2) (hnl : '\n' ∉ c2) :
    exSubF (f + 1) (lit "__EXCLUDE_COL_2__" ++ (c2 ++ (lit "__EXCLUDE_COL_2__" ++ t))) =
      c2 ++ exSubF f t := by
  simp only [exSubF, parseExCol_at c2 t hun hnl]

theorem exProtectF_at (f j : Nat) (c2 t : Txt) (hun : '_' ∉ c2) (hnl : '\n' ∉ c2) :
    exProtectF (f + 1) j (lit "__EXCLUDE_COL_2__" ++ (c2 ++ (lit "__EXCLUDE_COL_2__" ++ t))) =
      (exColPH j ++ (exProtectF f (j + 1) t).1,
        (exColPH j, lit "__EXCLUDE_COL_2__" ++ (c2 ++ lit "__EXCLUDE_COL_2__")) ::
          (exProtectF f (j + 1) t).2) := by
  simp only [exProtectF, parseExCol_at c2 t hun hnl]

theorem exMatches_decomp (u c2 v : Txt) (hu : '_' ∉ u) (hc : '_' ∉ c2)
    (hnl : '\n' ∉ c2) (hv : '_' ∉ v) :
    exMatches (u ++ (lit "__EXCLUDE_COL_2__" ++ (c2 ++ (lit "__EXCLUDE_COL_2__" ++ v)))) =
      [(lit "__EXCLUDE_COL_2__" ++ (c2 ++ lit "__EXCLUDE_COL_2__"), c2)] := by
  have h17 : (lit "__EXCLUDE_COL_2__" : Txt).length = 17 := by decide
  have hf : (lit "__EXCLUDE_COL_2__" ++ (c2 ++ (lit "__EXCLUDE_COL_2__" ++ v))).length =
      (16 + (c2 ++ (lit "__EXCLUDE_COL_2__" ++ v)).length) + 1 := by
    simp only [List.length_append, h17]
    omega
  unfold exMatches
  rw [List.length_append, exMatchesF_skip _ u _ hu, hf,
    exMatchesF_at _ c2 _ hc hnl, exMatchesF_clean _ v hv]

theorem restore_table_line_decomp (u c2 v : Txt) (hu : '_' ∉ u) (hc : '_' ∉ c2)
    (hnl : '\n' ∉ c2) (hv : '_' ∉ v) :
    restore_table_line
        (u ++ (lit "__EXCLUDE_COL_2__" ++ (c2 ++ (lit "__EXCLUDE_COL_2__" ++ v)))) =
      u ++ (c2 ++ v) := by
  have h17 : (lit "__EXCLUDE_COL_2__" : Txt).length = 17 := by decide
  have hf : (lit "__EXCLUDE_COL_2__" ++ (c2 ++ (lit "__EXCLUDE_COL_2__" ++ v))).length =
      (16 + (c2 ++ (lit "__EXCLUDE_COL_2__" ++ v)).length) + 1 := by
    simp only [List.length_append, h17]
    omega
  unfold restore_table_line
  rw [List.length_append, exSubF_skip _ u _ hu, hf,
    exSubF_at _ c2 _ hc hnl, exSubF_clean _ v hv]

theorem exProtect_decomp (u c2 v : Txt) (hu : '_' ∉ u) (hc : '_' ∉ c2)
    (hnl : '\n' ∉ c2) (hv : '_' ∉ v) :
    exProtect (u ++ (lit "__EXCLUDE_COL_2__" ++ (c2 ++ (lit "__EXCLUDE_COL_2__" ++ v)))) =
      (u ++ (exColPH 0 ++ v),
        [(exColPH 0, lit "__EXCLUDE_COL_2__" ++ (c2 ++ lit "__EXCLUDE_COL_2__"))]) := by
  have h17 : (lit "__EXCLUDE_COL_2__" : Txt).length = 17 := by decide
  have hf : (lit "__EXCLUDE_COL_2__" ++ (c2 ++ (lit "__EXCLUDE_COL_2__" ++ v))).length =
      (16 + (c2 ++ (lit "__EXCLUDE_COL_2__" ++ v)).length) + 1 := by
    simp only [List.length_append, h17]
    omega
  unfold exProtect
  rw [List.length_append, exProtectF_skip _ u _ 0 hu, hf,
    exProtectF_at _ 0 c2 _ hc hnl, exProtectF_clean _ v 1 hv]

theorem btMatchesF_clean :
    ∀ (f : Nat) (s : Txt), btick ∉ s → btMatchesF f s = [] := by
  intro f
  induction f with
  | zero => intro s _; rfl
  | succ f ih =>
    intro s hs
    cases s with
    | nil => rfl
    | cons c s' =>
      have hc : ¬ c = btick := fun h => hs (h ▸ List.mem_cons_self c s')
      simp only [btMatchesF, if_neg hc]
      exact ih s' (fun h => hs (List.mem_cons_of_mem c h))

theorem protect_backticks_clean (s : Txt) (hs : btick ∉ s) :
    protect_backticks s = (s, []) := by
  unfold protect_backticks
  rw [show btMatches s = [] from btMatchesF_clean s.length s hs]
  rfl

theorem protectSubstAux_none (phOf : Nat → Txt) :
    ∀ (ts : List Txt) (i : Nat) (s : Txt), (∀ t ∈ ts, ¬ t <:+: s) →
      protectSubstAux phOf ts i s = (s, []) := by
  intro ts
  induction ts with
  | nil => intro i s _; rfl
  | cons t ts' ih =>
    intro i s h
    unfold protectSubstAux
    rw [if_neg (h t (List.mem_cons_self t ts'))]
    exact ih (i + 1) s (fun t' ht' => h t' (List.mem_cons_of_mem t ht'))

theorem infix_append_cases {tm u w : Txt} (h : tm <:+: u ++ w) :
    tm <:+: u ∨ tm <:+: w ∨
      ∃ t1 t2, tm = t1 ++ t2 ∧ t1 ≠ [] ∧ t2 ≠ [] ∧ t1 <:+ u ∧ t2 <+: w := by
  obtain ⟨s, e, hse⟩ := h
  have hlen := congrArg List.length hse
  simp only [List.length_append] at hlen
  by_cases h1 : s.length + tm.length ≤ u.length
  · left
    have hpre : s ++ tm <+: u ++ w := ⟨e, hse⟩
    have hpre2 : s ++ tm <+: u :=
      List.prefix_of_prefix_length_le hpre (List.prefix_append u w)
        (by simpa using h1)
    obtain ⟨e', he'⟩ := hpre2
    exact ⟨s, e', he'⟩
  · by_cases h2 : u.length ≤ s.length
    · right; left
      have hassoc : s ++ (tm ++ e) = u ++ w := by
        rw [← List.append_assoc]
        exact hse
      have hsuf : tm ++ e <:+ u ++ w := ⟨s, hassoc⟩
      have hsuf2 : tm ++ e <:+ w :=
        List.suffix_of_suffix_length_le hsuf (List.suffix_append u w)
          (by simp only [List.length_append]; omega)
      obtain ⟨s', hs'⟩ := hsuf2
      refine ⟨s', e, ?_⟩
      rw [List.append_assoc]
      exact hs'
    · right; right
      push_neg at h1 h2
      have hsplit : tm = tm.take (u.length - s.length) ++
          tm.drop (u.length - s.length) := (List.take_append_drop _ tm).symm
      have hchain : s ++ tm.take (u.length - s.length) <+: u ++ w := by
        refine List.IsPrefix.trans ?_ ⟨e, hse⟩
        refine ⟨tm.drop (u.length - s.length), ?_⟩
        rw [List.append_assoc, ← hsplit]
      have hp : s ++ tm.take (u.length - s.length) <+: u :=
        List.prefix_of_prefix_length_le hchain (List.prefix_append u w)
          (by simp only [List.length_append, List.length_take]; omega)
      have hequ : s ++ tm.take (u.length - s.length) = u :=
        hp.eq_of_length (by simp only [List.length_append, List.length_take]; omega)
      refine ⟨tm.take (u.length - s.length), tm.drop (u.length - s.length),
        hsplit, ?_, ?_, ⟨s, hequ⟩, ?_⟩
      · intro hnil
        have hlen2 := congrArg List.length hnil
        simp only [List.length_take, List.length_nil] at hlen2
        omega
      · intro hnil
        have hlen2 := congrArg List.length hnil
        simp only [List.length_drop, List.length_nil] at hlen2
        omega
      · have hx1 : s ++ (tm.take (u.length - s.length) ++
            (tm.drop (u.length - s.length) ++ e)) = u ++ w := by
          have h0 := hse
          rw [hsplit] at h0
          simp only [List.append_assoc] at h0
          exact h0
        have hx3 : u ++ w = s ++ (tm.take (u.length - s.length) ++ w) := by
          conv_lhs => rw [← hequ]
          rw [List.append_assoc]
        have hx2 := hx1.trans hx3
        exact ⟨e, List.append_cancel_left (List.append_cancel_left hx2)⟩

theorem infix_three_parts {tm u v : Txt} (ph : Txt)
    (h : tm <:+: u ++ ph ++ v) (hno : '_' ∉ tm)
    (hph : ∃ p', ph = '_' :: p') (hlast : ph.getLast? = some '_')
    (hni : ¬ tm <:+: ph) : tm <:+: u ∨ tm <:+: v := by
  rcases infix_append_cases h with h1 | h1 | ⟨t1, t2, heq, hn1, hn2, hs1, hp2⟩
  · rcases infix_append_cases h1 with h2 | h2 | ⟨t1, t2, heq, hn1, hn2, hs1, hp2⟩
    · exact Or.inl h2
    · exact absurd h2 hni
    · exfalso
      obtain ⟨p', hp'⟩ := hph
      cases t2 with
      | nil => exact hn2 rfl
      | cons a t2' =>
        obtain ⟨e', he'⟩ := hp2
        rw [hp'] at he'
        simp only [List.cons_append, List.cons.injEq] at he'
        exact hno (heq ▸ List.mem_append.mpr
          (Or.inr (he'.1 ▸ List.mem_cons_self a t2')))
  · exact Or.inr h1
  · exfalso
    obtain ⟨spre, hspre⟩ := hs1
    have hphne : ph ≠ [] := by
      obtain ⟨p', hp'⟩ := hph
      simp [hp']
    have hlast2 : (u ++ ph).getLast? = some '_' := by
      rw [List.getLast?_append_of_ne_nil u hphne]
      exact hlast
    have hl : t1.getLast? = some '_' := by
      rw [← hspre, List.getLast?_append_of_ne_nil spre hn1] at hlast2
      exact hlast2
    have hmem : '_' ∈ t1 := List.mem_of_getLast?_eq_some hl
    exact hno (heq ▸ List.mem_append.mpr (Or.inl hmem))

theorem protected_terms_facts :
    ∀ t ∈ PROTECTED_TERMS, '_' ∉ t ∧ ¬ t <:+: exColPH 0 := by decide

theorem protectSubstAux_nil_ts (phOf : Nat → Txt) (i : Nat) (s : Txt) :
    protectSubstAux phOf [] i s = (s, []) := rfl

theorem roundtrip_excol (u c2 v : Txt)
    (hu : '_' ∉ u) (hc : '_' ∉ c2) (hnl : '\n' ∉ c2) (hv : '_' ∉ v)
    (hbu : btick ∉ u) (hbc : btick ∉ c2) (hbv : btick ∉ v)
    (hterm : ∀ t ∈ PROTECTED_TERMS,
      ¬ t <:+: u ++ (lit "__EXCLUDE_COL_2__" ++ (c2 ++ (lit "__EXCLUDE_COL_2__" ++ v)))) :
    restore_terms
      (protect_terms
        (u ++ (lit "__EXCLUDE_COL_2__" ++ (c2 ++ (lit "__EXCLUDE_COL_2__" ++ v))))).1
      (protect_terms
        (u ++ (lit "__EXCLUDE_COL_2__" ++ (c2 ++ (lit "__EXCLUDE_COL_2__" ++ v))))).2 =
      u ++ (lit "__EXCLUDE_COL_2__" ++ (c2 ++ (lit "__EXCLUDE_COL_2__" ++ v))) := by
  have hp1 := exProtect_decomp u c2 v hu hc hnl hv
  have hbP : btick ∉ u ++ (exColPH 0 ++ v) := by
    intro hmem
    rcases List.mem_append.mp hmem with h | h
    · exact hbu h
    · rcases List.mem_append.mp h with h | h
      · exact (by decide : btick ∉ exColPH 0) h
      · exact hbv h
  have hp2 := protect_backticks_clean (u ++ (exColPH 0 ++ v)) hbP
  have htermP : ∀ t ∈ PROTECTED_TERMS, ¬ t <:+: u ++ (exColPH 0 ++ v) := by
    intro t ht hinf
    rw [← List.append_assoc] at hinf
    have hfacts := protected_terms_facts t ht
    rcases infix_three_parts (exColPH 0) hinf hfacts.1
        ⟨lit "_PROTECTED_EXCLUDE_COL_0__", by decide⟩ (by decide) hfacts.2 with h | h
    · exact hterm t ht (h.trans (List.prefix_append u _).isInfix)
    · refine hterm t ht (h.trans ?_)
      exact ((List.suffix_append (lit "__EXCLUDE_COL_2__") v).trans
        ((List.suffix_append c2 _).trans
          ((List.suffix_append (lit "__EXCLUDE_COL_2__") _).trans
            (List.suffix_append u _)))).isInfix
  have hp3 := protectSubstAux_none termPH PROTECTED_TERMS 0
    (u ++ (exColPH 0 ++ v)) htermP
  have hpt : protect_terms
      (u ++ (lit "__EXCLUDE_COL_2__" ++ (c2 ++ (lit "__EXCLUDE_COL_2__" ++ v)))) =
      (u ++ (exColPH 0 ++ v),
        [(exColPH 0, lit "__EXCLUDE_COL_2__" ++ (c2 ++ lit "__EXCLUDE_COL_2__"))]) := by
    simp only [protect_terms, hp1, hp2, hp3, cssClasses, textPatterns,
      protectSubstAux_nil_ts, List.append_nil, List.nil_append]
  rw [hpt]
  show replaceAll (exColPH 0)
      (lit "__EXCLUDE_COL_2__" ++ (c2 ++ lit "__EXCLUDE_COL_2__"))
      (u ++ (exColPH 0 ++ v)) =
    u ++ (lit "__EXCLUDE_COL_2__" ++ (c2 ++ (lit "__EXCLUDE_COL_2__" ++ v)))
  have hph : exColPH 0 = '_' :: lit "_PROTECTED_EXCLUDE_COL_0__" := by decide
  rw [hph]
  have hune : ∀ c ∈ u, c ≠ '_' := fun c hc' he => hu (he ▸ hc')
  have hvne : ∀ c ∈ v, c ≠ '_' := fun c hc' he => hv (he ▸ hc')
  rw [replaceAll_skip '_' _ _ u _ hune]
  rw [replaceAll_pos _ _ _ (by simp) (List.prefix_append _ _)]
  rw [List.drop_left]
  rw [replaceAll_of_all_ne '_' _ _ v hvne]
  simp [List.append_assoc]

theorem tableLineStep_excol (tr : Translator) (line : Txt)
    (h1 : ¬ lit "__EXCLUDE_HEADER__" <+: line)
    (h2 : ¬ lit "__TRANSLATE_HEADER__" <+: line)
    (h3 : excludeColMark <:+: line) :
    tableLineStep tr line =
      if pyStrip (replaceAll (lit "|") []
          ((exMatches line).foldl (fun acc m => replaceAll m.1 [] acc) line)) = [] ∧
          exMatches line ≠ [] then
        restore_table_line line
      else restore_table_line
        (restore_terms (trAttempt tr (protect_terms line).1)
          (protect_terms line).2) := by
  unfold tableLineStep
  rw [if_neg (fun hc => h1 hc.1)]
  have hTH : decide (lit "__TRANSLATE_HEADER__" <+: line) = false := decide_eq_false h2
  simp only [hTH, Bool.false_and, Bool.false_eq_true, if_false]
  rw [if_pos h3]

theorem splitChar_ne_nil (sep : Char) : ∀ s : Txt, splitChar sep s ≠ [] := by
  intro s
  induction s with
  | nil => simp [splitChar]
  | cons c s ih =>
    by_cases hc : c = sep
    · simp [splitChar, hc]
    · simp only [splitChar, if_neg hc]
      cases h : splitChar sep s with
      | nil => simp
      | cons t ts => simp

theorem splitChar_piece_subset (sep : Char) :
    ∀ (s p : Txt), p ∈ splitChar sep s → ∀ x ∈ p, x ∈ s := by
  intro s
  induction s with
  | nil =>
    intro p hp x hx
    simp [splitChar] at hp
    subst hp
    simp at hx
  | cons c s ih =>
    intro p hp x hx
    by_cases hc : c = sep
    · simp only [splitChar, if_pos hc] at hp
      rcases List.mem_cons.mp hp with hp | hp
      · subst hp; simp at hx
      · exact List.mem_cons_of_mem c (ih p hp x hx)
    · simp only [splitChar, if_neg hc] at hp
      cases hrec : splitChar sep s with
      | nil => exact absurd hrec (splitChar_ne_nil sep s)
      | cons t ts =>
        rw [hrec] at hp
        rcases List.mem_cons.mp hp with hp | hp
        · subst hp
          rcases List.mem_cons.mp hx with hx | hx
          · exact hx ▸ List.mem_cons_self c s
          · exact List.mem_cons_of_mem c
              (ih t (by rw [hrec]; exact List.mem_cons_self t ts) x hx)
        · exact List.mem_cons_of_mem c
            (ih p (by rw [hrec]; exact List.mem_cons_of_mem t hp) x hx)

theorem splitChar_sep_not_mem (sep : Char) :
    ∀ (s p : Txt), p ∈ splitChar sep s → sep ∉ p := by
  intro s
  induction s with
  | nil =>
    intro p hp
    simp [splitChar] at hp
    subst hp
    simp
  | cons c s ih =>
    intro p hp
    by_cases hc : c = sep
    · simp only [splitChar, if_pos hc] at hp
      rcases List.mem_cons.mp hp with hp | hp
      · subst hp; simp
      · exact ih p hp
    · simp only [splitChar, if_neg hc] at hp
      cases hrec : splitChar sep s with
      | nil => exact absurd hrec (splitChar_ne_nil sep s)
      | cons t ts =>
        rw [hrec] at hp
        rcases List.mem_cons.mp hp with hp | hp
        · subst hp
          intro hmem
          rcases List.mem_cons.mp hmem with hmem | hmem
          · exact hc hmem.symm
          · exact ih t (by rw [hrec]; exact List.mem_cons_self t ts) hmem
        · exact ih p (by rw [hrec]; exact List.mem_cons_of_mem t hp)

theorem pyStrip_subset (s : Txt) : ∀ x ∈ pyStrip s, x ∈ s := by
  intro x hx
  unfold pyStrip at hx
  rw [List.mem_reverse] at hx
  have hx2 := (List.dropWhile_sublist isSpace).subset hx
  rw [List.mem_reverse] at hx2
  exact (List.dropWhile_sublist isSpace).subset hx2

theorem dropWhile_shape (p : Char → Bool) :
    ∀ s : Txt, s.dropWhile p = [] ∨
      ∃ x t, s.dropWhile p = x :: t ∧ p x = false := by
  intro s
  induction s with
  | nil => left; rfl
  | cons c s ih =>
    by_cases hc : p c
    · rw [List.dropWhile_cons_of_pos hc]
      exact ih
    · right
      exact ⟨c, s, List.dropWhile_cons_of_neg hc, Bool.eq_false_iff.mpr hc⟩

theorem dropWhile_self_of_shape (p : Char → Bool) (s : Txt)
    (h : s = [] ∨ ∃ x t, s = x :: t ∧ p x = false) : s.dropWhile p = s := by
  rcases h with h | ⟨x, t, hxt, hx⟩
  · subst h; rfl
  · subst hxt
    exact List.dropWhile_cons_of_neg (by simp [hx])

theorem pyStrip_idem (s : Txt) : pyStrip (pyStrip s) = pyStrip s := by
  have hA : (pyStrip s).dropWhile isSpace = pyStrip s := by
    apply dropWhile_self_of_shape
    cases hP : pyStrip s with
    | nil => exact Or.inl rfl
    | cons x t =>
      right
      refine ⟨x, t, rfl, ?_⟩
      have hpre : pyStrip s <+: s.dropWhile isSpace := by
        have hsuf : (s.dropWhile isSpace).reverse.dropWhile isSpace <:+
            (s.dropWhile isSpace).reverse := List.dropWhile_suffix isSpace
        have := List.reverse_prefix.mpr hsuf
        rwa [List.reverse_reverse] at this
      rw [hP] at hpre
      obtain ⟨rest, hrest⟩ := hpre
      rcases dropWhile_shape isSpace s with hd | ⟨y, t', hyt, hy⟩
      · rw [hd] at hrest
        simp at hrest
      · rw [hyt] at hrest
        have : x = y := by
          have := congrArg List.head? hrest
          simpa using this
        rw [this, hy]
  have hB : (pyStrip s).reverse.dropWhile isSpace = (pyStrip s).reverse := by
    apply dropWhile_self_of_shape
    have hrev : (pyStrip s).reverse =
        (s.dropWhile isSpace).reverse.dropWhile isSpace := by
      unfold pyStrip
      rw [List.reverse_reverse]
    rw [hrev]
    exact dropWhile_shape isSpace _
  calc pyStrip (pyStrip s)
      = (((pyStrip s).dropWhile isSpace).reverse.dropWhile isSpace).reverse := rfl
    _ = ((pyStrip s).reverse.dropWhile isSpace).reverse := by rw [hA]
    _ = (pyStrip s).reverse.reverse := by rw [hB]
    _ = pyStrip s := List.reverse_reverse _

theorem pyStrip_cons_space (c : Char) (hc : isSpace c = true) (s : Txt) :
    pyStrip (c :: s) = pyStrip s := by
  unfold pyStrip
  rw [List.dropWhile_cons_of_pos hc]

theorem pyStrip_concat_space (c : Char) (hc : isSpace c = true) :
    ∀ s : Txt, pyStrip (s ++ [c]) = pyStrip s := by
  intro s
  induction s with
  | nil => simp [pyStrip, List.dropWhile, hc]
  | cons x s ih =>
    by_cases hx : isSpace x = true
    · show pyStrip (x :: (s ++ [c])) = pyStrip (x :: s)
      rw [pyStrip_cons_space x hx, pyStrip_cons_space x hx, ih]
    · show pyStrip (x :: (s ++ [c])) = pyStrip (x :: s)
      unfold pyStrip
      rw [List.dropWhile_cons_of_neg hx, List.dropWhile_cons_of_neg hx]
      congr 1
      rw [show (x :: (s ++ [c])).reverse = c :: (s.reverse ++ [x]) from by simp,
        show (x :: s).reverse = s.reverse ++ [x] from by simp,
        List.dropWhile_cons_of_pos hc]

theorem pyStrip_pad (c : Txt) : pyStrip (' ' :: (c ++ [' '])) = pyStrip c := by
  rw [pyStrip_cons_space ' ' (by decide), pyStrip_concat_space ' ' (by decide)]

theorem intercalate_single (sep a : Txt) : List.intercalate sep [a] = a := by
  simp [List.intercalate]

theorem intercalate_cons2 (sep a b : Txt) (l : List Txt) :
    List.intercalate sep (a :: b :: l) =
      a ++ sep ++ List.intercalate sep (b :: l) := by
  simp [List.intercalate, List.append_assoc]

theorem not_mem_intercalate (x : Char) (sep : Txt) (hsep : x ∉ sep) :
    ∀ (l : List Txt), (∀ c ∈ l, x ∉ c) → x ∉ List.intercalate sep l := by
  intro l
  induction l with
  | nil => intro _; simp [List.intercalate]
  | cons a l' ih =>
    intro h
    cases l' with
    | nil =>
      rw [intercalate_single]
      exact h a (List.mem_cons_self a [])
    | cons b l'' =>
      rw [intercalate_cons2]
      intro hmem
      rcases List.mem_append.mp hmem with hm | hm
      · rcases List.mem_append.mp hm with hm | hm
        · exact h a (List.mem_cons_self _ _) hm
        · exact hsep hm
      · exact ih (fun c hc => h c (List.mem_cons_of_mem a hc)) hm

theorem splitChar_join_pad :
    ∀ (cells : List Txt) (tail : Txt), cells ≠ [] → (∀ c ∈ cells, '|' ∉ c) →
      splitChar '|'
          ((' ' :: (List.intercalate (lit " | ") cells ++ [' '])) ++ '|' :: tail) =
        cells.map (fun c => ' ' :: (c ++ [' '])) ++ splitChar '|' tail := by
  intro cells
  induction cells with
  | nil => intro tail h _; exact absurd rfl h
  | cons a cs ih =>
    intro tail _ h
    have hua : ('|' : Char) ∉ ' ' :: (a ++ [' ']) := by
      intro hm
      rcases List.mem_cons.mp hm with hm | hm
      · exact absurd hm.symm (by decide)
      · rcases List.mem_append.mp hm with hm | hm
        · exact h a (List.mem_cons_self a cs) hm
        · simp at hm
    cases cs with
    | nil =>
      rw [intercalate_single]
      rw [splitChar_append_sep '|' (' ' :: (a ++ [' '])) tail hua]
      simp
    | cons b cs' =>
      rw [intercalate_cons2]
      have hshape : (' ' :: ((a ++ lit " | " ++
            List.intercalate (lit " | ") (b :: cs')) ++ [' '])) ++ '|' :: tail
          = (' ' :: (a ++ [' '])) ++ '|' ::
            ((' ' :: (List.intercalate (lit " | ") (b :: cs') ++ [' '])) ++ '|' :: tail) := by
        rw [show (lit " | " : Txt) = ' ' :: '|' :: ' ' :: [] from by decide]
        simp [List.append_assoc]
      rw [hshape, splitChar_append_sep '|' (' ' :: (a ++ [' '])) _ hua,
        ih _ (by simp) (fun c hc => h c (List.mem_cons_of_mem a hc))]
      simp

theorem parse_join (cells : List Txt) (hne : cells ≠ [])
    (hpipe : ∀ c ∈ cells, '|' ∉ c) (hstrip : ∀ c ∈ cells, pyStrip c = c) :
    parse_table_line (lit "| " ++ List.intercalate (lit " | ") cells ++ lit " |") =
      cells := by
  have hshape : (lit "| " ++ List.intercalate (lit " | ") cells ++ lit " |" : Txt)
      = '|' :: ((' ' :: (List.intercalate (lit " | ") cells ++ [' '])) ++ '|' :: []) := by
    rw [show (lit "| " : Txt) = '|' :: ' ' :: [] from by decide,
      show (lit " |" : Txt) = ' ' :: '|' :: [] from by decide]
    simp [List.append_assoc]
  rw [hshape]
  have hsplit : splitChar '|'
      ('|' :: ((' ' :: (List.intercalate (lit " | ") cells ++ [' '])) ++ '|' :: [])) =
      [] :: (cells.map (fun c => ' ' :: (c ++ [' '])) ++ [[]]) := by
    rw [splitChar_sep, splitChar_join_pad cells [] hne hpipe]
    rfl
  have hmap : ((([] : Txt) :: (cells.map (fun c => ' ' :: (c ++ [' '])) ++ [[]])).map
      pyStrip) = [] :: (cells ++ [[]]) := by
    simp only [List.map_cons, List.map_append, List.map_map]
    have hcells : cells.map (pyStrip ∘ fun c => ' ' :: (c ++ [' '])) = cells := by
      have h1 : ∀ c ∈ cells, (pyStrip ∘ fun c => ' ' :: (c ++ [' '])) c = id c := by
        intro c hc
        show pyStrip (' ' :: (c ++ [' '])) = c
        rw [pyStrip_pad]
        exact hstrip c hc
      rw [List.map_congr_left h1, List.map_id]
    rw [hcells]
    rfl
  unfold parse_table_line
  rw [hsplit, hmap]
  show (match (cells ++ [[]] : List Txt).getLast? with
    | some [] => (cells ++ [[]]).dropLast
    | _ => cells ++ [[]]) = cells
  rw [List.getLast?_concat]
  exact List.dropLast_concat

theorem head?_of_prefix (a : Char) (p t : Txt) (h : (a :: p) <+: t) :
    t.head? = some a := by
  obtain ⟨q, hq⟩ := h
  rw [← hq]
  rfl

theorem parse_table_line_mem (r : Txt) :
    ∀ c ∈ parse_table_line r, ∃ piece, piece ∈ splitChar '|' r ∧ c = pyStrip piece := by
  have hsub : ∀ c, c ∈ (match (splitChar '|' r).map pyStrip with
      | [] :: rest => rest
      | l' => l') → c ∈ (splitChar '|' r).map pyStrip := by
    intro c hc2
    split at hc2
    all_goals first
      | exact hc2
      | (rename_i rest heq
         rw [heq]
         exact List.mem_cons_of_mem _ hc2)
  have hmain : ∀ c ∈ parse_table_line r, c ∈ (splitChar '|' r).map pyStrip := by
    intro c hc
    have hc' : c ∈ (match (match (splitChar '|' r).map pyStrip with
        | [] :: rest => rest
        | l' => l').getLast? with
      | some [] => (match (splitChar '|' r).map pyStrip with
          | [] :: rest => rest
          | l' => l').dropLast
      | _ => (match (splitChar '|' r).map pyStrip with
          | [] :: rest => rest
          | l' => l')) := hc
    split at hc'
    all_goals first
      | exact hsub c hc'
      | exact hsub c ((List.dropLast_prefix _).subset hc')
  intro c hc
  obtain ⟨piece, hp, he⟩ := List.mem_map.mp (hmain c hc)
  exact ⟨piece, hp, he.symm⟩

theorem enumFrom_map_id (f : Nat × Txt → Txt) (hf : ∀ n c, 2 ≤ n → f (n, c) = c) :
    ∀ (l : List Txt) (n : Nat), 2 ≤ n → (List.enumFrom n l).map f = l := by
  intro l
  induction l with
  | nil => intro n _; rfl
  | cons x xs ih =>
    intro n hn
    show f (n, x) :: (List.enumFrom (n + 1) xs).map f = x :: xs
    rw [hf n x hn, ih (n + 1) (by omega)]

theorem C5core (c0 c1 : Txt) (rest : List Txt)
    (hall : ∀ c ∈ c0 :: c1 :: rest,
      '|' ∉ c ∧ '_' ∉ c ∧ btick ∉ c ∧ '\n' ∉ c ∧ pyStrip c = c)
    (hterm : ∀ t ∈ PROTECTED_TERMS, ¬ t <:+: lit "| " ++ List.intercalate (lit " | ")
        (c0 :: (lit "__EXCLUDE_COL_2__" ++ (c1 ++ lit "__EXCLUDE_COL_2__")) :: rest) ++
        lit " |") :
    tableLineStep (fun s => some s) (lit "| " ++ List.intercalate (lit " | ")
        (c0 :: (lit "__EXCLUDE_COL_2__" ++ (c1 ++ lit "__EXCLUDE_COL_2__")) :: rest) ++
        lit " |") =
      lit "| " ++ List.intercalate (lit " | ") (c0 :: c1 :: rest) ++ lit " |" := by
  have hc1f := hall c1 (by simp)
  have key : ∀ (u v : Txt), '_' ∉ u → '_' ∉ v → btick ∉ u → btick ∉ v →
      (∃ u', u = '|' :: u') →
      (∀ t ∈ PROTECTED_TERMS, ¬ t <:+:
        u ++ (lit "__EXCLUDE_COL_2__" ++ (c1 ++ (lit "__EXCLUDE_COL_2__" ++ v)))) →
      tableLineStep (fun s => some s)
        (u ++ (lit "__EXCLUDE_COL_2__" ++ (c1 ++ (lit "__EXCLUDE_COL_2__" ++ v)))) =
        u ++ (c1 ++ v) := by
    intro u v hu hv hbu hbv hcons htermL
    obtain ⟨u', hu'⟩ := hcons
    have hhd : (u ++ (lit "__EXCLUDE_COL_2__" ++
        (c1 ++ (lit "__EXCLUDE_COL_2__" ++ v)))).head? = some '|' := by
      rw [hu']
      rfl
    have h1 : ¬ lit "__EXCLUDE_HEADER__" <+:
        u ++ (lit "__EXCLUDE_COL_2__" ++ (c1 ++ (lit "__EXCLUDE_COL_2__" ++ v))) := by
      intro hp
      rw [show (lit "__EXCLUDE_HEADER__" : Txt) =
        '_' :: lit "_EXCLUDE_HEADER__" from by decide] at hp
      have h := head?_of_prefix '_' _ _ hp
      rw [hhd] at h
      exact absurd h (by decide)
    have h2 : ¬ lit "__TRANSLATE_HEADER__" <+:
        u ++ (lit "__EXCLUDE_COL_2__" ++ (c1 ++ (lit "__EXCLUDE_COL_2__" ++ v))) := by
      intro hp
      rw [show (lit "__TRANSLATE_HEADER__" : Txt) =
        '_' :: lit "_TRANSLATE_HEADER__" from by decide] at hp
      have h := head?_of_prefix '_' _ _ hp
      rw [hhd] at h
      exact absurd h (by decide)
    have h3 : excludeColMark <:+:
        u ++ (lit "__EXCLUDE_COL_2__" ++ (c1 ++ (lit "__EXCLUDE_COL_2__" ++ v))) := by
      refine ⟨u, '2' :: '_' :: '_' :: (c1 ++ (lit "__EXCLUDE_COL_2__" ++ v)), ?_⟩
      rw [show (lit "__EXCLUDE_COL_2__" : Txt) =
        excludeColMark ++ ('2' :: '_' :: '_' :: []) from by decide]
      simp [List.append_assoc]
    rw [tableLineStep_excol _ _ h1 h2 h3]
    split
    · exact restore_table_line_decomp u c1 v hu hc1f.2.1 hc1f.2.2.2.1 hv
    · rw [show trAttempt (fun s => some s)
        (protect_terms (u ++ (lit "__EXCLUDE_COL_2__" ++
          (c1 ++ (lit "__EXCLUDE_COL_2__" ++ v))))).1 =
        (protect_terms (u ++ (lit "__EXCLUDE_COL_2__" ++
          (c1 ++ (lit "__EXCLUDE_COL_2__" ++ v))))).1 from rfl]
      rw [roundtrip_excol u c1 v hu hc1f.2.1 hc1f.2.2.2.1 hv hbu hc1f.2.2.1 hbv htermL]
      exact restore_table_line_decomp u c1 v hu hc1f.2.1 hc1f.2.2.2.1 hv
  have hc0f := hall c0 (by simp)
  have hu0 : '_' ∉ lit "| " ++ (c0 ++ lit " | ") := by
    intro hm
    rcases List.mem_append.mp hm with hm | hm
    · exact (by decide : '_' ∉ lit "| ") hm
    · rcases List.mem_append.mp hm with hm | hm
      · exact hc0f.2.1 hm
      · exact (by decide : '_' ∉ lit " | ") hm
  have hbu0 : btick ∉ lit "| " ++ (c0 ++ lit " | ") := by
    intro hm
    rcases List.mem_append.mp hm with hm | hm
    · exact (by decide : btick ∉ lit "| ") hm
    · rcases List.mem_append.mp hm with hm | hm
      · exact hc0f.2.2.1 hm
      · exact (by decide : btick ∉ lit " | ") hm
  have hcons0 : ∃ u', lit "| " ++ (c0 ++ lit " | ") = '|' :: u' := by
    refine ⟨' ' :: (c0 ++ lit " | "), ?_⟩
    rw [show (lit "| " : Txt) = '|' :: ' ' :: [] from by decide]
    simp
  cases rest with
  | nil =>
    have hform : lit "| " ++ List.intercalate (lit " | ")
        (c0 :: (lit "__EXCLUDE_COL_2__" ++ (c1 ++ lit "__EXCLUDE_COL_2__")) :: []) ++
        lit " |" =
        (lit "| " ++ (c0 ++ lit " | ")) ++
          (lit "__EXCLUDE_COL_2__" ++ (c1 ++ (lit "__EXCLUDE_COL_2__" ++ lit " |"))) := by
      rw [intercalate_cons2, intercalate_single]
      simp [List.append_assoc]
    rw [hform] at hterm ⊢
    rw [key (lit "| " ++ (c0 ++ lit " | ")) (lit " |") hu0 (by decide) hbu0
      (by decide) hcons0 hterm]
    rw [intercalate_cons2, intercalate_single]
    simp [List.append_assoc]
  | cons r1 rest' =>
    have hvJ : '_' ∉ lit " | " ++ (List.intercalate (lit " | ") (r1 :: rest') ++ lit " |") := by
      intro hm
      rcases List.mem_append.mp hm with hm | hm
      · exact (by decide : '_' ∉ lit " | ") hm
      · rcases List.mem_append.mp hm with hm | hm
        · exact not_mem_intercalate '_' (lit " | ") (by decide) (r1 :: rest')
            (fun c hcm => (hall c (List.mem_cons_of_mem c0
              (List.mem_cons_of_mem c1 hcm))).2.1) hm
        · exact (by decide : '_' ∉ lit " |") hm
    have hbvJ : btick ∉ lit " | " ++
        (List.intercalate (lit " | ") (r1 :: rest') ++ lit " |") := by
      intro hm
      rcases List.mem_append.mp hm with hm | hm
      · exact (by decide : btick ∉ lit " | ") hm
      · rcases List.mem_append.mp hm with hm | hm
        · exact not_mem_intercalate btick (lit " | ") (by decide) (r1 :: rest')
            (fun c hcm => (hall c (List.mem_cons_of_mem c0
              (List.mem_cons_of_mem c1 hcm))).2.2.1) hm
        · exact (by decide : btick ∉ lit " |") hm
    have hform : lit "| " ++ List.intercalate (lit " | ")
        (c0 :: (lit "__EXCLUDE_COL_2__" ++ (c1 ++ lit "__EXCLUDE_COL_2__")) ::
          r1 :: rest') ++ lit " |" =
        (lit "| " ++ (c0 ++ lit " | ")) ++
          (lit "__EXCLUDE_COL_2__" ++ (c1 ++ (lit "__EXCLUDE_COL_2__" ++
            (lit " | " ++ (List.intercalate (lit " | ") (r1 :: rest') ++ lit " |"))))) := by
      rw [intercalate_cons2, intercalate_cons2]
      simp [List.append_assoc]
    rw [hform] at hterm ⊢
    rw [key (lit "| " ++ (c0 ++ lit " | "))
      (lit " | " ++ (List.intercalate (lit " | ") (r1 :: rest') ++ lit " |"))
      hu0 hvJ hbu0 hbvJ hcons0 hterm]
    rw [intercalate_cons2, intercalate_cons2]
    simp [List.append_assoc]

/-- C5 (counterexample): "any translator that leaves placeholder tokens
intact" is not sufficient.  The translator that prepends a single pipe
character keeps every placeholder token (indeed every infix) of its input
intact, yet on the row `| a | x y | b |` with `exclude_columns = [2]` the
translated output's column 2 is `a`, not the original `x y`: the extra
pipe shifts every column boundary. -/
theorem C5_counterexample :
    (∀ (s ph : Txt), ph <:+: s → ph <:+: trAttempt (fun s' => some ('|' :: s')) s) ∧
    (parse_table_line (tableLineStep (fun s' => some ('|' :: s'))
        (process_table_line (lit "| a | x y | b |") [2]))).getD 1 [] ≠
      (parse_table_line (lit "| a | x y | b |")).getD 1 [] := by
  constructor
  · intro s ph h
    exact h.trans (List.suffix_cons '|' s).isInfix
  · decide

/-- C5 (amended): for a table row processed with `exclude_columns = [2]`,
under the identity translator (equivalently, a failing provider, which the
script replaces by the untranslated text), the text of column 2 of the
translated output row equals the text of column 2 of the input row exactly
as `parse_table_line` reads it.  Scope: rows containing no underscore,
backtick or newline characters and mentioning no protected term — the
regime in which the placeholder machinery is inert; the counterexample
`C5_counterexample` shows the claim's own "any token-preserving
translator" hypothesis is too weak. -/
theorem C5_column_exclusion_identity (r : Txt)
    (hun : '_' ∉ r) (hbt : btick ∉ r) (hnl : '\n' ∉ r)
    (hlen : 2 ≤ (parse_table_line r).length)
    (hterm : ∀ t ∈ PROTECTED_TERMS, ¬ t <:+: process_table_line r [2]) :
    (parse_table_line (tableLineStep (fun s => some s)
        (process_table_line r [2]))).getD 1 [] =
      (parse_table_line r).getD 1 [] := by
  cases hc : parse_table_line r with
  | nil =>
    rw [hc] at hlen
    simp at hlen
  | cons c0 tl =>
    cases tl with
    | nil =>
      rw [hc] at hlen
      simp at hlen
    | cons c1 rest =>
      have hall : ∀ c ∈ c0 :: c1 :: rest,
          '|' ∉ c ∧ '_' ∉ c ∧ btick ∉ c ∧ '\n' ∉ c ∧ pyStrip c = c := by
        intro c hcm
        rw [← hc] at hcm
        obtain ⟨piece, hpiece, heq⟩ := parse_table_line_mem r c hcm
        subst heq
        refine ⟨?_, ?_, ?_, ?_, pyStrip_idem piece⟩
        · intro hm
          exact splitChar_sep_not_mem '|' r piece hpiece (pyStrip_subset piece _ hm)
        · intro hm
          exact hun (splitChar_piece_subset '|' r piece hpiece _ (pyStrip_subset piece _ hm))
        · intro hm
          exact hbt (splitChar_piece_subset '|' r piece hpiece _ (pyStrip_subset piece _ hm))
        · intro hm
          exact hnl (splitChar_piece_subset '|' r piece hpiece _ (pyStrip_subset piece _ hm))
      have hproc : process_table_line r [2] = lit "| " ++ List.intercalate (lit " | ")
          (c0 :: (lit "__EXCLUDE_COL_2__" ++ (c1 ++ lit "__EXCLUDE_COL_2__")) :: rest) ++
          lit " |" := by
        unfold process_table_line
        rw [if_neg (by simp : ¬ ([2] : List Nat) = [])]
        rw [hc]
        rw [if_neg (by simp : ¬ (c0 :: c1 :: rest : List Txt) = [])]
        rw [show (c0 :: c1 :: rest : List Txt).enum =
          (0, c0) :: (1, c1) :: List.enumFrom 2 rest from rfl]
        rw [List.map_cons, List.map_cons]
        simp
        have hW : excludeColMark ++
            (lit (toString 2) ++ (lit "__" ++ (c1 ++ (excludeColMark ++
              (lit (toString 2) ++ lit "__"))))) =
            lit "__EXCLUDE_COL_2__" ++ (c1 ++ lit "__EXCLUDE_COL_2__") := by
          rw [show (lit "__EXCLUDE_COL_2__" : Txt) =
              excludeColMark ++ ('2' :: '_' :: '_' :: []) from by decide,
            show (lit (toString 2) : Txt) = '2' :: [] from by decide,
            show (lit "__" : Txt) = '_' :: '_' :: [] from by decide]
          simp
        have hmap : List.map
            (fun ic : Nat × Txt =>
              if ic.1 = 1 then
                excludeColMark ++
                  (lit (toString (ic.1 + 1)) ++
                    (lit "__" ++ (ic.2 ++ (excludeColMark ++
                      (lit (toString (ic.1 + 1)) ++ lit "__")))))
              else ic.2)
            (List.enumFrom 2 rest) = rest := by
          refine enumFrom_map_id _ ?_ rest 2 (by omega)
          intro n c hn
          exact if_neg (by omega)
        rw [hW, hmap]
      rw [hproc] at hterm ⊢
      rw [C5core c0 c1 rest hall hterm]
      rw [parse_join (c0 :: c1 :: rest) (by simp)
        (fun c hcm => (hall c hcm).1) (fun c hcm => (hall c hcm).2.2.2.2)]

/-- Witness for `C5_column_exclusion_identity` on the row `| a | x y | b |`. -/
theorem C5_witness :
    (parse_table_line (tableLineStep (fun s => some s)
        (process_table_line (lit "| a | x y | b |") [2]))).getD 1 [] =
      (parse_table_line (lit "| a | x y | b |")).getD 1 [] :=
  C5_column_exclusion_identity (lit "| a | x y | b |")
    (by decide) (by decide) (by decide) (by decide) (by decide)

/-! ### C1: the protected-term placeholder round trip -/

theorem termPH_two (j : Nat) : termPH j =
    '_' :: '_' :: (lit "PROTECTED_TERM_" ++ lit (toString j) ++ lit "__") := by
  unfold termPH
  rw [show (lit "__PROTECTED_TERM_" : Txt) = '_' :: '_' :: lit "PROTECTED_TERM_"
    from by decide]
  simp

theorem termPH_ne_nil (j : Nat) : termPH j ≠ [] := by
  rw [termPH_two]
  simp

theorem termPH_len_pos (j : Nat) : 0 < (termPH j).length := by
  rw [termPH_two]
  simp

theorem Inter_mono {m m' : Nat} {s : Txt} (h : Inter m s) (hm : m ≤ m') :
    Inter m' s := by
  induction h with
  | nil => exact Inter.nil m'
  | chr c hc _ ih => exact Inter.chr c hc ih
  | blk j hj _ ih => exact Inter.blk j (by omega) ih

theorem Inter_clean (m : Nat) : ∀ s : Txt, '_' ∉ s → Inter m s := by
  intro s
  induction s with
  | nil => intro _; exact Inter.nil m
  | cons c s ih =>
    intro h
    exact Inter.chr c (fun he => h (he ▸ List.mem_cons_self c s))
      (ih (fun hm => h (List.mem_cons_of_mem c hm)))

theorem Inter_cons_inv {m : Nat} {c : Char} {s : Txt} (hc : c ≠ '_')
    (h : Inter m (c :: s)) : Inter m s := by
  generalize hZ : (c :: s : Txt) = Z at h
  cases h with
  | nil => simp at hZ
  | chr c' hc' hI =>
    have := hZ
    simp only [List.cons.injEq] at this
    rw [this.2]
    exact hI
  | blk j hj hI =>
    exfalso
    rw [termPH_two] at hZ
    simp only [List.cons_append, List.cons.injEq] at hZ
    exact hc hZ.1

theorem Inter_drop (m : Nat) :
    ∀ (p rest : Txt), '_' ∉ p → Inter m (p ++ rest) → Inter m rest := by
  intro p
  induction p with
  | nil => intro rest _ h; exact h
  | cons c p' ih =>
    intro rest hp h
    have hc : c ≠ '_' := fun he => hp (he ▸ List.mem_cons_self c p')
    exact ih rest (fun hm => hp (List.mem_cons_of_mem c hm))
      (Inter_cons_inv hc h)

theorem Inter_snd_underscore {m : Nat} {x : Char} {r : Txt}
    (h : Inter m ('_' :: x :: r)) : x = '_' := by
  generalize hZ : ('_' :: x :: r : Txt) = Z at h
  cases h with
  | nil => simp at hZ
  | chr c' hc' hI =>
    exfalso
    simp only [List.cons.injEq] at hZ
    exact hc' hZ.1.symm
  | blk j hj hI =>
    rw [termPH_two] at hZ
    simp only [List.cons_append, List.cons.injEq] at hZ
    exact hZ.2.1

theorem replaceAll_skip2 (t r : Txt) :
    ∀ (u s : Txt), (∀ d, d < u.length → ¬ t <+: u.drop d ++ s) →
      replaceAll t r (u ++ s) = u ++ replaceAll t r s := by
  intro u
  induction u with
  | nil => intro s _; simp
  | cons c u' ih =>
    intro s hcond
    have h0 : ¬ t <+: (c :: u') ++ s := by
      have := hcond 0 (by simp)
      simpa using this
    rw [List.cons_append, replaceAll_neg t r c (u' ++ s) (by simpa using h0)]
    rw [ih s (fun d hd => by simpa using hcond (d + 1) (by simpa using Nat.succ_lt_succ hd))]
    rfl

theorem protected_terms_main_facts :
    ∀ t ∈ PROTECTED_TERMS, t ≠ [] ∧ '_' ∉ t ∧ ∀ j, j < 6 → ¬ t <:+: termPH j := by
  decide

theorem termPH_suffix_underscore :
    ∀ j, j < 6 → ∀ d, d < (termPH j).length → '_' ∈ (termPH j).drop d := by
  decide

theorem termPH_not_infix :
    ∀ j, j < 6 → ∀ k, k < 6 → j ≠ k → ¬ termPH k <:+: termPH j := by
  decide

theorem termPH_drop_prefix_disj :
    ∀ j, j < 6 → ∀ k, k < 6 → ∀ d, d < (termPH j).length →
      (j = k ∨ ¬ ((termPH j).drop d <+: termPH k) ∨ d = 18 ∨ d = 19) := by
  decide

theorem termPH_drop_prefix_cases (j : Nat) (hj : j < 6) (k : Nat) (hk : k < 6)
    (hne : j ≠ k) (d : Nat) (hd : d < (termPH j).length)
    (hpre : (termPH j).drop d <+: termPH k) : d = 18 ∨ d = 19 := by
  rcases termPH_drop_prefix_disj j hj k hk d hd with h | h | h | h
  · exact absurd h hne
  · exact absurd hpre h
  · exact Or.inl h
  · exact Or.inr h

theorem termPH_drop18 : ∀ j, j < 6 → (termPH j).drop 18 = '_' :: '_' :: [] := by
  decide

theorem termPH_drop19 : ∀ j, j < 6 → (termPH j).drop 19 = '_' :: [] := by
  decide

theorem termPH_split2 : ∀ k, k < 6 →
    termPH k = ('_' :: '_' :: []) ++ (termPH k).drop 2 := by
  decide

theorem termPH_split1 : ∀ k, k < 6 →
    termPH k = ('_' :: []) ++ (termPH k).drop 1 := by
  decide

theorem termPH_drop2_shape : ∀ k, k < 6 → (termPH k).drop 2 =
    lit "PROTECTED" ++ ('_' :: 'T' :: (termPH k).drop 13) := by
  decide

theorem termPH_drop1_shape : ∀ k, k < 6 → (termPH k).drop 1 =
    '_' :: 'P' :: (termPH k).drop 3 := by
  decide

theorem termPH_le_lex :
    ∀ a, a < 6 → ∀ b, b < 6 → a < b → lexLt (termPH a) (termPH b) = true := by
  decide

theorem Inter_no_drop2 (k m : Nat) (hk : k < 6) :
    ∀ Z : Txt, Inter m Z → ¬ ((termPH k).drop 2 <+: Z) := by
  intro Z hZ hpre
  obtain ⟨w, hw⟩ := hpre
  rw [termPH_drop2_shape k hk] at hw
  simp only [List.append_assoc, List.cons_append] at hw
  have hI2 : Inter m ('_' :: 'T' :: ((termPH k).drop 13 ++ w)) := by
    refine Inter_drop m (lit "PROTECTED") _ (by decide) ?_
    rw [hw]
    exact hZ
  have := Inter_snd_underscore hI2
  exact absurd this (by decide)

theorem Inter_no_drop1 (k m : Nat) (hk : k < 6) :
    ∀ Z : Txt, Inter m Z → ¬ ((termPH k).drop 1 <+: Z) := by
  intro Z hZ hpre
  obtain ⟨w, hw⟩ := hpre
  rw [termPH_drop1_shape k hk] at hw
  simp only [List.cons_append] at hw
  have hI2 : Inter m ('_' :: 'P' :: ((termPH k).drop 3 ++ w)) := by
    rw [hw]
    exact hZ
  have := Inter_snd_underscore hI2
  exact absurd this (by decide)

theorem skip_cond_term (t : Txt) (htc : '_' ∉ t)
    (hti : ∀ j, j < 6 → ¬ t <:+: termPH j) (j : Nat) (hj : j < 6) (s : Txt) :
    ∀ d, d < (termPH j).length → ¬ t <+: (termPH j).drop d ++ s := by
  intro d hd hmatch
  rcases List.prefix_or_prefix_of_prefix hmatch (List.prefix_append _ s) with h | h
  · exact hti j hj (h.isInfix.trans (List.drop_suffix d (termPH j)).isInfix)
  · exact htc (h.subset (termPH_suffix_underscore j hj d hd))

theorem skip_cond_ph (k : Nat) (hk : k < 6) (j : Nat) (hj : j < 6) (hne : j ≠ k)
    (Z : Txt) (m : Nat) (hZ : Inter m Z) :
    ∀ d, d < (termPH j).length → ¬ termPH k <+: (termPH j).drop d ++ Z := by
  intro d hd hmatch
  rcases List.prefix_or_prefix_of_prefix hmatch (List.prefix_append _ Z) with h | h
  · exact termPH_not_infix j hj k hk hne
      (h.isInfix.trans (List.drop_suffix d (termPH j)).isInfix)
  · rcases termPH_drop_prefix_cases j hj k hk hne d hd h with rfl | rfl
    · obtain ⟨w, hw⟩ := hmatch
      rw [termPH_drop18 j hj] at hw
      rw [termPH_split2 k hk] at hw
      simp only [List.append_assoc, List.cons_append, List.nil_append,
        List.cons.injEq, true_and] at hw
      exact Inter_no_drop2 k m hk Z hZ ⟨w, hw⟩
    · obtain ⟨w, hw⟩ := hmatch
      rw [termPH_drop19 j hj] at hw
      rw [termPH_split1 k hk] at hw
      simp only [List.append_assoc, List.cons_append, List.nil_append,
        List.cons.injEq, true_and] at hw
      exact Inter_no_drop1 k m hk Z hZ ⟨w, hw⟩

theorem subst_preserve (t : Txt) (ht0 : t ≠ []) (htc : '_' ∉ t)
    (hti : ∀ j, j < 6 → ¬ t <:+: termPH j) (k : Nat) (hk : k < 6) :
    ∀ (n : Nat) (s : Txt), s.length ≤ n → Inter k s →
      Inter (k + 1) (replaceAll t (termPH k) s) := by
  intro n
  induction n with
  | zero =>
    intro s hs _
    have hnil : s = [] := List.length_eq_zero.mp (Nat.le_zero.mp hs)
    subst hnil
    rw [replaceAll_nil]
    exact Inter.nil _
  | succ n ih =>
    intro s hs hI
    by_cases hpre : t <+: s
    · obtain ⟨rest, hrest⟩ := hpre
      have hI' : Inter k (t ++ rest) := by rw [hrest]; exact hI
      have hIrest : Inter k rest := Inter_drop k t rest htc hI'
      have htl : 1 ≤ t.length := by
        cases t with
        | nil => exact absurd rfl ht0
        | cons _ _ => simp
      have hrl : rest.length ≤ n := by
        have := congrArg List.length hrest
        simp only [List.length_append] at this
        omega
      rw [← hrest, replaceAll_pos t (termPH k) (t ++ rest) ht0
        (List.prefix_append t rest), List.drop_left]
      exact Inter.blk k (by omega) (ih rest hrl hIrest)
    · cases hI with
      | nil =>
        rw [replaceAll_nil]
        exact Inter.nil _
      | chr c hc hI' =>
        rw [replaceAll_neg t (termPH k) c _ hpre]
        refine Inter.chr c hc (ih _ ?_ hI')
        simp only [List.length_cons] at hs
        omega
      | blk j hj hI' =>
        rename_i s₂
        rw [replaceAll_skip2 t (termPH k) (termPH j) s₂
          (skip_cond_term t htc hti j (by omega) s₂)]
        refine Inter.blk j (by omega) (ih s₂ ?_ hI')
        have := congrArg List.length (rfl : termPH j ++ s₂ = termPH j ++ s₂)
        have hlp := termPH_len_pos j
        simp only [List.length_append] at hs
        omega

theorem undo_one (t : Txt) (ht0 : t ≠ []) (htc : '_' ∉ t)
    (hti : ∀ j, j < 6 → ¬ t <:+: termPH j) (k : Nat) (hk : k < 6) :
    ∀ (n : Nat) (s : Txt), s.length ≤ n → Inter k s →
      replaceAll (termPH k) t (replaceAll t (termPH k) s) = s := by
  intro n
  induction n with
  | zero =>
    intro s hs _
    have hnil : s = [] := List.length_eq_zero.mp (Nat.le_zero.mp hs)
    subst hnil
    rw [replaceAll_nil, replaceAll_nil]
  | succ n ih =>
    intro s hs hI
    by_cases hpre : t <+: s
    · obtain ⟨rest, hrest⟩ := hpre
      have hI' : Inter k (t ++ rest) := by rw [hrest]; exact hI
      have hIrest : Inter k rest := Inter_drop k t rest htc hI'
      have htl : 1 ≤ t.length := by
        cases t with
        | nil => exact absurd rfl ht0
        | cons _ _ => simp
      have hrl : rest.length ≤ n := by
        have := congrArg List.length hrest
        simp only [List.length_append] at this
        omega
      rw [← hrest, replaceAll_pos t (termPH k) (t ++ rest) ht0
        (List.prefix_append t rest), List.drop_left]
      rw [replaceAll_pos (termPH k) t _ (termPH_ne_nil k) (List.prefix_append _ _),
        List.drop_left]
      rw [ih rest hrl hIrest]
    · cases hI with
      | nil =>
        rw [replaceAll_nil, replaceAll_nil]
      | chr c hc hI' =>
        rename_i s'
        rw [replaceAll_neg t (termPH k) c _ hpre]
        have hFne : ¬ termPH k <+: c :: replaceAll t (termPH k) s' := by
          rw [termPH_two k]
          exact not_prefix_cons_of_head_ne (fun h => hc h.symm)
        rw [replaceAll_neg (termPH k) t c _ hFne]
        have hsl : s'.length ≤ n := by
          simp only [List.length_cons] at hs
          omega
        rw [ih s' hsl hI']
      | blk j hj hI' =>
        rename_i s₂
        have hj6 : j < 6 := by omega
        rw [replaceAll_skip2 t (termPH k) (termPH j) s₂
          (skip_cond_term t htc hti j hj6 s₂)]
        have hIF : Inter (k + 1) (replaceAll t (termPH k) s₂) :=
          subst_preserve t ht0 htc hti k hk s₂.length s₂ le_rfl hI'
        rw [replaceAll_skip2 (termPH k) t (termPH j) (replaceAll t (termPH k) s₂)
          (skip_cond_ph k hk j hj6 (by omega) _ (k + 1) hIF)]
        have hs₂ : s₂.length ≤ n := by
          have hlp := termPH_len_pos j
          simp only [List.length_append] at hs
          omega
        rw [ih s₂ hs₂ hI']


theorem mem_insertDesc (x y : Txt × Txt) :
    ∀ l : List (Txt × Txt), y ∈ insertDesc x l → y = x ∨ y ∈ l := by
  intro l
  induction l with
  | nil =>
    intro h
    simp only [insertDesc, List.mem_singleton] at h
    exact Or.inl h
  | cons z zs ih =>
    intro h
    unfold insertDesc at h
    by_cases hlt : lexLt x.1 z.1 = true
    · rw [if_pos hlt] at h
      rcases List.mem_cons.mp h with h | h
      · exact Or.inr (h ▸ List.mem_cons_self z zs)
      · rcases ih h with h | h
        · exact Or.inl h
        · exact Or.inr (List.mem_cons_of_mem z h)
    · rw [if_neg hlt] at h
      rcases List.mem_cons.mp h with h | h
      · exact Or.inl h
      · exact Or.inr h

theorem mem_sortDesc (y : Txt × Txt) :
    ∀ l : List (Txt × Txt), y ∈ sortDesc l → y ∈ l := by
  intro l
  induction l with
  | nil =>
    intro h
    simpa [sortDesc] using h
  | cons x xs ih =>
    intro h
    rcases mem_insertDesc x y (sortDesc xs) h with h | h
    · exact h ▸ List.mem_cons_self x xs
    · exact List.mem_cons_of_mem x (ih h)

theorem insertDesc_last (x : Txt × Txt) :
    ∀ l : List (Txt × Txt), (∀ y ∈ l, lexLt x.1 y.1 = true) →
      insertDesc x l = l ++ [x] := by
  intro l
  induction l with
  | nil => intro _; rfl
  | cons z zs ih =>
    intro h
    unfold insertDesc
    rw [if_pos (h z (List.mem_cons_self z zs))]
    rw [ih (fun y hy => h y (List.mem_cons_of_mem z hy))]
    rfl

theorem sortDesc_cons_min (x : Txt × Txt) (l : List (Txt × Txt))
    (h : ∀ y ∈ l, lexLt x.1 y.1 = true) :
    sortDesc (x :: l) = sortDesc l ++ [x] := by
  show insertDesc x (sortDesc l) = sortDesc l ++ [x]
  exact insertDesc_last x (sortDesc l) (fun y hy => h y (mem_sortDesc y l hy))

theorem protectSubstAux_keys (phOf : Nat → Txt) :
    ∀ (ts : List Txt) (i : Nat) (s : Txt),
      ∀ pr ∈ (protectSubstAux phOf ts i s).2,
        ∃ j, i ≤ j ∧ j < i + ts.length ∧ pr.1 = phOf j := by
  intro ts
  induction ts with
  | nil =>
    intro i s pr hpr
    simp [protectSubstAux] at hpr
  | cons t ts' ih =>
    intro i s pr hpr
    unfold protectSubstAux at hpr
    by_cases hocc : t <:+: s
    · rw [if_pos hocc] at hpr
      have hpr' : pr ∈ (phOf i, t) ::
          (protectSubstAux phOf ts' (i + 1) (replaceAll t (phOf i) s)).2 := hpr
      rcases List.mem_cons.mp hpr' with h | h
      · exact ⟨i, le_rfl, by simp, by rw [h]⟩
      · obtain ⟨j, hj1, hj2, hj3⟩ := ih (i + 1) _ pr h
        refine ⟨j, by omega, ?_, hj3⟩
        simp only [List.length_cons]
        omega
    · rw [if_neg hocc] at hpr
      obtain ⟨j, hj1, hj2, hj3⟩ := ih (i + 1) s pr hpr
      refine ⟨j, by omega, ?_, hj3⟩
      simp only [List.length_cons]
      omega

theorem protect_chain :
    ∀ (ts : List Txt) (i : Nat) (s : Txt),
      ts = PROTECTED_TERMS.drop i → Inter i s →
      (sortDesc (protectSubstAux termPH ts i s).2).foldl
        (fun acc pr => replaceAll pr.1 pr.2 acc)
        (protectSubstAux termPH ts i s).1 = s := by
  intro ts
  induction ts with
  | nil => intro i s _ _; rfl
  | cons t ts' ih =>
    intro i s hdrop hI
    have hl6 : PROTECTED_TERMS.length = 6 := by decide
    have hi6 : i < 6 := by
      by_contra h6
      have hnil : PROTECTED_TERMS.drop i = [] := by
        apply List.drop_eq_nil_iff.mpr
        omega
      rw [hnil] at hdrop
      simp at hdrop
    have hts' : ts' = PROTECTED_TERMS.drop (i + 1) := by
      have h1 := congrArg List.tail hdrop
      simp only [List.tail_cons, List.tail_drop] at h1
      exact h1
    have htmem : t ∈ PROTECTED_TERMS := by
      have h2 : t ∈ PROTECTED_TERMS.drop i := by
        rw [← hdrop]
        exact List.mem_cons_self t ts'
      exact List.mem_of_mem_drop h2
    obtain ⟨ht0, htc, hti⟩ := protected_terms_main_facts t htmem
    unfold protectSubstAux
    by_cases hocc : t <:+: s
    · rw [if_pos hocc]
      show (sortDesc ((termPH i, t) ::
          (protectSubstAux termPH ts' (i + 1) (replaceAll t (termPH i) s)).2)).foldl
          (fun acc pr => replaceAll pr.1 pr.2 acc)
          (protectSubstAux termPH ts' (i + 1) (replaceAll t (termPH i) s)).1 = s
      have hIs' : Inter (i + 1) (replaceAll t (termPH i) s) :=
        subst_preserve t ht0 htc hti i hi6 s.length s le_rfl hI
      have hkeys : ∀ y ∈ (protectSubstAux termPH ts' (i + 1)
          (replaceAll t (termPH i) s)).2, lexLt (termPH i) y.1 = true := by
        intro y hy
        obtain ⟨j, hj1, hj2, hj3⟩ := protectSubstAux_keys termPH ts' (i + 1) _ y hy
        have hj6 : j < 6 := by
          have hlen : ts'.length = 6 - (i + 1) := by
            rw [hts', List.length_drop, hl6]
          omega
        rw [hj3]
        exact termPH_le_lex i hi6 j hj6 (by omega)
      rw [sortDesc_cons_min (termPH i, t) _ hkeys]
      rw [List.foldl_append, List.foldl_cons, List.foldl_nil]
      rw [ih (i + 1) (replaceAll t (termPH i) s) hts' hIs']
      exact undo_one t ht0 htc hti i hi6 s.length s le_rfl hI
    · rw [if_neg hocc]
      exact ih (i + 1) s hts' (Inter_mono hI (by omega))

/-- C1 (counterexample): the round trip fails on an input that already
contains a placeholder token.  `protect_terms` replaces the occurring
protected term `AngryScan` (index 2) by `__PROTECTED_TERM_2__`, and
`restore_terms` then rewrites **both** occurrences of that token — the
inserted one and the one present in the original text — so the original
text is not recovered. -/
theorem C1_counterexample :
    restore_terms (protect_terms (lit "AngryScan __PROTECTED_TERM_2__")).1
      (protect_terms (lit "AngryScan __PROTECTED_TERM_2__")).2 ≠
      lit "AngryScan __PROTECTED_TERM_2__" := by
  decide

theorem restore_protect_clean (text : Txt) (h : cleanTxt text) :
    restore_terms (protect_terms text).1 (protect_terms text).2 = text := by
  obtain ⟨hu, hb⟩ := h
  have hp1 : exProtect text = (text, []) := by
    unfold exProtect
    exact exProtectF_clean text.length text 0 hu
  have hp2 := protect_backticks_clean text hb
  have hpt : protect_terms text =
      ((protectSubstAux termPH PROTECTED_TERMS 0 text).1,
       (protectSubstAux termPH PROTECTED_TERMS 0 text).2) := by
    simp only [protect_terms, hp1, hp2, cssClasses, textPatterns,
      protectSubstAux_nil_ts, List.append_nil, List.nil_append]
  rw [hpt]
  show (sortDesc (protectSubstAux termPH PROTECTED_TERMS 0 text).2).foldl
    (fun acc pr => replaceAll pr.1 pr.2 acc)
    (protectSubstAux termPH PROTECTED_TERMS 0 text).1 = text
  exact protect_chain PROTECTED_TERMS 0 text rfl (Inter_clean 0 text hu)

/-- C1 (amended): the placeholder round trip does hold on texts that
contain no underscore and no backtick character — then the
exclusion-marker and backtick passes are inert, and applying
`restore_terms` to the substituted text with the returned mapping yields
the original text exactly; in particular every protected term present in
the document reappears verbatim and no placeholder token remains.  The
unrestricted claim is refuted by `C1_counterexample`. -/
theorem C1_protect_restore (text : Txt) (h : cleanTxt text) :
    restore_terms (protect_terms text).1 (protect_terms text).2 = text :=
  restore_protect_clean text h

/-- Witness for `C1_protect_restore` on a text containing the protected
term `AngryScan`. -/
theorem C1_witness :
    cleanTxt (lit "Use AngryScan to scan.") ∧
    restore_terms (protect_terms (lit "Use AngryScan to scan.")).1
      (protect_terms (lit "Use AngryScan to scan.")).2 =
      lit "Use AngryScan to scan." :=
  ⟨⟨by decide, by decide⟩,
    C1_protect_restore (lit "Use AngryScan to scan.") ⟨by decide, by decide⟩⟩


/-! ### C2: provider-failure fallback in the flush closure -/

theorem splitChar_no_sep (sep : Char) :
    ∀ u : Txt, sep ∉ u → splitChar sep u = [u] := by
  intro u
  induction u with
  | nil => intro _; rfl
  | cons c u' ih =>
    intro h
    have hc : ¬ (c = sep) := fun he => h (he ▸ List.mem_cons_self c u')
    simp only [splitChar, if_neg hc,
      ih (fun hm => h (List.mem_cons_of_mem c hm))]

theorem splitChar_intercalate (sep : Char) :
    ∀ buffer : List Txt, buffer ≠ [] → (∀ l ∈ buffer, sep ∉ l) →
      splitChar sep (List.intercalate (sep :: []) buffer) = buffer := by
  intro buffer
  induction buffer with
  | nil => intro h _; exact absurd rfl h
  | cons a rest ih =>
    intro _ hl
    cases rest with
    | nil =>
      rw [intercalate_single]
      exact splitChar_no_sep sep a (hl a (List.mem_cons_self a []))
    | cons b rest' =>
      rw [intercalate_cons2]
      have hre : a ++ (sep :: []) ++ List.intercalate (sep :: []) (b :: rest') =
          a ++ sep :: List.intercalate (sep :: []) (b :: rest') := by
        simp
      rw [hre, splitChar_append_sep sep a _ (hl a (List.mem_cons_self a _))]
      rw [ih (by simp) (fun l hm => hl l (List.mem_cons_of_mem a hm))]

theorem splitLinesPy_intercalate (buffer : List Txt)
    (hl : ∀ l ∈ buffer, '\n' ∉ l) (hlast : buffer.getLast? ≠ some []) :
    splitLinesPy (List.intercalate (lit "\n") buffer) = buffer := by
  by_cases hb : buffer = []
  · subst hb
    decide
  · have hsp : splitChar '\n' (List.intercalate (lit "\n") buffer) = buffer := by
      rw [show (lit "\n" : Txt) = '\n' :: [] from by decide]
      exact splitChar_intercalate '\n' buffer hb hl
    show (match (splitChar '\n' (List.intercalate (lit "\n") buffer)).getLast? with
      | some [] => (splitChar '\n' (List.intercalate (lit "\n") buffer)).dropLast
      | _ => splitChar '\n' (List.intercalate (lit "\n") buffer)) = buffer
    rw [hsp]
    cases hg : buffer.getLast? with
    | none => rfl
    | some x =>
      cases x with
      | nil => exact absurd hg hlast
      | cons y ys => rfl

theorem clean_intercalate (buffer : List Txt)
    (h : ∀ l ∈ buffer, '_' ∉ l ∧ btick ∉ l) :
    cleanTxt (List.intercalate (lit "\n") buffer) := by
  constructor
  · exact not_mem_intercalate '_' (lit "\n") (by decide) buffer
      (fun c hc => (h c hc).1)
  · exact not_mem_intercalate btick (lit "\n") (by decide) buffer
      (fun c hc => (h c hc).2)

/-- C2 (counterexample): the unrestricted fallback claim fails.  With a
provider that returns `None`, the flushed batch consisting of the single
line `AngryScan __PROTECTED_TERM_2__` does not contribute the
pre-substitution text unchanged: `restore_terms` rewrites both the
inserted placeholder and the placeholder-shaped token already present in
the source line, so the contributed line differs from the buffered one. -/
theorem C2_counterexample :
    flushChunk (fun _ => none) [lit "AngryScan __PROTECTED_TERM_2__"] ≠
      [lit "AngryScan __PROTECTED_TERM_2__"] := by
  decide

/-- C2 (amended): provider-failure fallback.  If the provider fails on
the protected chunk (modelled by the translator returning `none`, which
covers both the exception path and the `None` response in the script),
then the batch's contribution to the output is exactly the buffered
lines, unchanged — the failure is absorbed, not propagated.  Scope: the
buffered lines contain no newline (they never do, coming from
`splitlines`), no underscore and no backtick, and the last buffered line
is nonempty; outside that regime `C2_counterexample` shows the
contribution can differ from the pre-substitution text. -/
theorem C2_provider_failure_fallback (tr : Translator) (buffer : List Txt)
    (hfail : tr (protect_terms (List.intercalate (lit "\n") buffer)).1 = none)
    (hclean : ∀ l ∈ buffer, '\n' ∉ l ∧ '_' ∉ l ∧ btick ∉ l)
    (hlast : buffer.getLast? ≠ some []) :
    flushChunk tr buffer = buffer := by
  by_cases hb : buffer = []
  · subst hb
    rfl
  · unfold flushChunk
    rw [if_neg hb]
    show splitLinesPy (restore_terms
      (trAttempt tr (protect_terms (List.intercalate (lit "\n") buffer)).1)
      (protect_terms (List.intercalate (lit "\n") buffer)).2) = buffer
    have htr : trAttempt tr (protect_terms (List.intercalate (lit "\n") buffer)).1 =
        (protect_terms (List.intercalate (lit "\n") buffer)).1 := by
      unfold trAttempt
      rw [hfail]
      rfl
    rw [htr]
    rw [restore_protect_clean (List.intercalate (lit "\n") buffer)
      (clean_intercalate buffer (fun l hl => ⟨(hclean l hl).2.1, (hclean l hl).2.2⟩))]
    exact splitLinesPy_intercalate buffer (fun l hl => (hclean l hl).1) hlast

/-- Witness for `C2_provider_failure_fallback`: a two-line batch with an
always-failing provider contributes exactly its two lines. -/
theorem C2_witness :
    (fun _ => (none : Option Txt)) (protect_terms (List.intercalate (lit "\n")
        [lit "Use AngryScan.", lit "Scan now."])).1 = none ∧
    flushChunk (fun _ => none) [lit "Use AngryScan.", lit "Scan now."] =
      [lit "Use AngryScan.", lit "Scan now."] :=
  ⟨rfl, C2_provider_failure_fallback (fun _ => none)
    [lit "Use AngryScan.", lit "Scan now."] rfl (by decide) (by decide)⟩

end TranslateDocs
